import Mathlib

/-!
# Loki rules reconciliation controller (`internal/component/loki/rules/kubernetes/events.go`)

A shallow embedding of the event loop, the remote-state sync, the reconciliation
pass and the managed-namespace naming scheme, followed by the properties proved
about them.

Conventions of the embedding:

* Go strings are `String`; Go maps are association lists read with `mapGet`
  (first binding wins), written with `mapSet` and `mapDelete`.
* The component is a record passed explicitly through every method; a method
  returns its Go result together with the updated component.
* Collaborators that live outside the package (the remote ruler client, the
  Kubernetes listers, the work queue, the rule-format parser) are fields of the
  component: functions over an abstract collaborator state.
* `trace` is a ghost field recording, in order, every call made to a
  collaborator and every entry into `applyChanges`.
-/

namespace Alloy

/-! ## Go values -/

/-- Go `error` values: an ordinary error carrying its message, or a
`*multierror.Error` carrying the messages of the errors it aggregates. -/
inductive Error where
  | leaf (msg : String)
  | multi (errs : List String)
deriving DecidableEq, Repr

/-- The errors a value contributes when appended to a multi-error
(`multierror.Append` flattens nested multi-errors). -/
def Error.flat : Error → List String
  | .leaf m => [m]
  | .multi es => es

/-- Model of `err.Error()`; an aggregate is printed by the default list format of
`multierror`. -/
def Error.text : Error → String
  | .leaf m => m
  | .multi [e] => "1 error occurred:\n\t* " ++ e ++ "\n\n"
  | .multi es =>
    toString es.length ++ " errors occurred:\n\t"
      ++ String.intercalate "\n\t" (es.map (fun e => "* " ++ e)) ++ "\n\n"

/-- Model of `multierror.Append(err, e)` for one appended error: a nil or plain
`err` starts a fresh aggregate, an aggregate is extended, and an appended
aggregate is flattened. -/
def multierrorAppend (err : Option Error) (e : Error) : Error :=
  match err with
  | none => .multi e.flat
  | some (.leaf m) => .multi (m :: e.flat)
  | some (.multi es) => .multi (es ++ e.flat)

/-- Model of `fmt.Errorf(msg + ": %w", err)`. -/
def errorfWrap (msg : String) (err : Error) : Error :=
  .leaf (msg ++ ": " ++ err.text)

/-! ## Go maps as association lists -/

/-- Read `m[k]`; `none` when the key is absent. -/
def mapGet {V : Type} (m : List (String × V)) (k : String) : Option V :=
  match m with
  | [] => none
  | (k', v) :: rest => if k' = k then some v else mapGet rest k

/-- The builtin `delete(m, k)`. -/
def mapDelete {V : Type} (m : List (String × V)) (k : String) : List (String × V) :=
  m.filter (fun e => decide (e.1 ≠ k))

/-- The assignment `m[k] = v`. -/
def mapSet {V : Type} (m : List (String × V)) (k : String) (v : V) : List (String × V) :=
  match m with
  | [] => [(k, v)]
  | (k', v') :: rest => if k' = k then (k, v) :: rest else (k', v') :: mapSet rest k v

/-- The keys visited by `for k := range m`. -/
def mapKeys {V : Type} (m : List (String × V)) : List String :=
  m.map (fun e => e.1)

/-! ## Data model -/

/-- A rule group (`rulefmt.RuleGroup`): its name and its rules, the rules being
opaque beyond structural equality. -/
structure RuleGroup where
  Name : String
  Rules : List String
deriving DecidableEq, Repr

/-- The type `kubernetes.RuleGroupsByNamespace`. -/
abbrev RuleGroupsByNamespace := List (String × List RuleGroup)

/-- The type `kubernetes.RuleGroupDiff`; `Kind` is a string-typed enumeration and
an absent `Actual` or `Desired` is the zero rule group. -/
structure RuleGroupDiff where
  Kind : String
  Actual : RuleGroup
  Desired : RuleGroup
deriving DecidableEq, Repr

/-- The type `kubernetes.RuleGroupDiffsByNamespace`. -/
abbrev RuleGroupDiffsByNamespace := List (String × List RuleGroupDiff)

/-- The type `kubernetes.Event`. -/
structure Event where
  Typ : String
  ObjectKey : String
deriving DecidableEq, Repr

/-- The part of `promv1.PrometheusRule` the controller reads: the object
metadata and the rule specification (kept as its serialised text). -/
structure PrometheusRule where
  Namespace : String
  Name : String
  UID : String
  Spec : String
deriving DecidableEq, Repr

/-- The zero value of `rulefmt.RuleGroup`. -/
def RuleGroup.zero : RuleGroup := ⟨"", []⟩

/-! ## Regular expressions (the subset of Go `regexp` syntax the pattern uses) -/

/-- One-character matchers. -/
inductive CharClass where
  | lit (c : Char)
  | anyNotNL
  | set (ranges : List (Char × Char))
deriving DecidableEq, Repr

/-- Does the class accept the character. -/
def CharClass.test : CharClass → Char → Bool
  | .lit c, x => decide (x = c)
  | .anyNotNL, x => decide (x ≠ '\n')
  | .set rs, x => rs.any (fun r => decide (r.1.toNat ≤ x.toNat) && decide (x.toNat ≤ r.2.toNat))

/-- Items of a compiled pattern: the anchors, the ASCII word boundary, a single
character, and one-or-more repetitions of a single character. -/
inductive Node where
  | bol
  | eol
  | wordb
  | chr (k : CharClass)
  | plus (k : CharClass)
deriving DecidableEq, Repr

/-- ASCII word characters, as used by `\b`. -/
def isWordChar (c : Char) : Bool :=
  (decide ('0'.toNat ≤ c.toNat) && decide (c.toNat ≤ '9'.toNat)) ||
  (decide ('a'.toNat ≤ c.toNat) && decide (c.toNat ≤ 'z'.toNat)) ||
  (decide ('A'.toNat ≤ c.toNat) && decide (c.toNat ≤ 'Z'.toNat)) ||
  decide (c = '_')

/-- Is the optional character a word character (no character: not a word character). -/
def isWordAt : Option Char → Bool
  | none => false
  | some c => isWordChar c

/-- The metacharacters that `regexp.QuoteMeta` escapes. -/
def specialChars : List Char :=
  ['\\', '.', '+', '*', '?', '(', ')', '|', '[', ']', '\x7b', '\x7d', '^', '$']

/-- Model of `regexp.QuoteMeta`: a backslash before every metacharacter. -/
def QuoteMeta (s : List Char) : List Char :=
  match s with
  | [] => []
  | c :: rest => if c ∈ specialChars then '\\' :: c :: QuoteMeta rest else c :: QuoteMeta rest

/-- Parser modes while reading a pattern left to right. -/
inductive Mode where
  | normal
  | escape
  | cls (items : List Char)
  | count (digits : List Char)
  | bad
deriving DecidableEq, Repr

/-- Parser state: the mode and the items produced so far, last item first. -/
structure PState where
  mode : Mode
  out : List Node
deriving DecidableEq, Repr

/-- The ranges of a bracket expression body such as `0-9a-fA-F`. -/
def classRanges : List Char → List (Char × Char)
  | a :: '-' :: b :: rest => (a, b) :: classRanges rest
  | a :: rest => (a, a) :: classRanges rest
  | [] => []

/-- Decimal value of a digit string. -/
def digitsValue (ds : List Char) : Nat :=
  ds.foldl (fun n d => 10 * n + (d.toNat - '0'.toNat)) 0

/-- One parsing step. Syntax outside the supported subset puts the parser in
mode `bad`. -/
def parseStep (st : PState) (c : Char) : PState :=
  match st.mode with
  | .bad => st
  | .normal =>
    if c = '\\' then ⟨.escape, st.out⟩
    else if c = '^' then ⟨.normal, .bol :: st.out⟩
    else if c = '$' then ⟨.normal, .eol :: st.out⟩
    else if c = '.' then ⟨.normal, .chr .anyNotNL :: st.out⟩
    else if c = '[' then ⟨.cls [], st.out⟩
    else if c = '+' then
      match st.out with
      | .chr k :: rest => ⟨.normal, .plus k :: rest⟩
      | _ => ⟨.bad, st.out⟩
    else if c = '\x7b' then
      match st.out with
      | .chr _ :: _ => ⟨.count [], st.out⟩
      | _ => ⟨.bad, st.out⟩
    else if c ∈ specialChars then ⟨.bad, st.out⟩
    else ⟨.normal, .chr (.lit c) :: st.out⟩
  | .escape =>
    if c = 'b' then ⟨.normal, .wordb :: st.out⟩
    else if c ∈ specialChars then ⟨.normal, .chr (.lit c) :: st.out⟩
    else ⟨.bad, st.out⟩
  | .cls items =>
    if c = ']' then
      (if items = [] then ⟨.bad, st.out⟩ else ⟨.normal, .chr (.set (classRanges items)) :: st.out⟩)
    else if c = '\\' ∨ c = '[' ∨ c = '^' then ⟨.bad, st.out⟩
    else ⟨.cls (items ++ [c]), st.out⟩
  | .count digits =>
    if c = '\x7d' then
      match st.out with
      | .chr k :: rest =>
        if digits = [] then ⟨.bad, st.out⟩
        else ⟨.normal, List.replicate (digitsValue digits) (.chr k) ++ rest⟩
      | _ => ⟨.bad, st.out⟩
    else if c.isDigit then ⟨.count (digits ++ [c]), st.out⟩
    else ⟨.bad, st.out⟩

/-- Model of `regexp.Compile` on the supported subset: the items of the pattern
in order, or `none` where Go reports an error (or the syntax is unsupported). -/
def Compile (pattern : List Char) : Option (List Node) :=
  let st := pattern.foldl parseStep ⟨.normal, []⟩
  if st.mode = .normal then some st.out.reverse else none

/-- One or more characters of class `k`, then the continuation `cont`; `pre` is
the text already consumed, last character first. -/
def plusLoop (k : CharClass) (cont : List Char → List Char → Bool) :
    List Char → List Char → Bool
  | _, [] => false
  | pre, c :: s => k.test c && (cont (c :: pre) s || plusLoop k cont (c :: pre) s)

/-- Does the item sequence match a prefix of `s`, given the text `pre` to the left
(last character first). -/
def matchHere : List Node → List Char → List Char → Bool
  | [], _, _ => true
  | .bol :: rest, pre, s => pre.isEmpty && matchHere rest pre s
  | .eol :: rest, pre, s => s.isEmpty && matchHere rest pre s
  | .wordb :: rest, pre, s =>
    (isWordAt pre.head? != isWordAt s.head?) && matchHere rest pre s
  | .chr k :: rest, pre, s =>
    match s with
    | [] => false
    | c :: s' => k.test c && matchHere rest (c :: pre) s'
  | .plus k :: rest, pre, s => plusLoop k (fun p t => matchHere rest p t) pre s

/-- Unanchored search: a match starting at some position of `s`. -/
def searchFrom (re : List Node) : List Char → List Char → Bool
  | pre, [] => matchHere re pre []
  | pre, c :: s => matchHere re pre (c :: s) || searchFrom re (c :: pre) s

/-- Model of `(*Regexp).MatchString`. -/
def MatchString (re : List Node) (s : String) : Bool :=
  searchFrom re [] s.toList

/-! ## Managed namespaces -/

/-- The function `lokiNamespaceForRuleCRD`: the remote namespace a rule resource
is stored in, `fmt.Sprintf("%s-%s-%s-%s", prefix, pr.Namespace, pr.Name, pr.UID)`. -/
def lokiNamespaceForRuleCRD (pfx : String) (pr : PrometheusRule) : String :=
  pfx ++ "-" ++ pr.Namespace ++ "-" ++ pr.Name ++ "-" ++ pr.UID

/-- The pattern text
`fmt.Sprintf("^%s-%s-%s-%s$", prefixPart, namespacePart, namePart, uuidPart)`. -/
def managedNamespacePattern (pfx : String) : List Char :=
  let prefixPart := QuoteMeta pfx.toList
  let namespacePart := ".+".toList
  let namePart := ".+".toList
  let uuidPart :=
    "[0-9a-fA-F]\x7b8\x7d\\b-[0-9a-fA-F]\x7b4\x7d\\b-[0-9a-fA-F]\x7b4\x7d\\b-[0-9a-fA-F]\x7b4\x7d\\b-[0-9a-fA-F]\x7b12\x7d".toList
  "^".toList ++ prefixPart ++ "-".toList ++ namespacePart ++ "-".toList ++ namePart
    ++ "-".toList ++ uuidPart ++ "$".toList

/-- The function `isManagedLokiNamespace`: does the remote namespace name match the
managed-namespace pattern. `regexp.MustCompile` panics on a pattern that does not
compile; that case is `false` here and is shown never to arise. -/
def isManagedLokiNamespace (pfx ns : String) : Bool :=
  match Compile (managedNamespacePattern pfx) with
  | some managedNamespaceRegex => MatchString managedNamespaceRegex ns
  | none => false

/-! ## Diff engine -/

/-- Modelled from the spec: the constant `kubernetes.RuleGroupDiffKindAdd`
(package `internal/component/common/kubernetes` is not among the sources). -/
def RuleGroupDiffKindAdd : String := "add"

/-- Modelled from the spec: the constant `kubernetes.RuleGroupDiffKindRemove`
(package `internal/component/common/kubernetes` is not among the sources). -/
def RuleGroupDiffKindRemove : String := "remove"

/-- Modelled from the spec: the constant `kubernetes.RuleGroupDiffKindUpdate`
(package `internal/component/common/kubernetes` is not among the sources). -/
def RuleGroupDiffKindUpdate : String := "update"

/-- Modelled from the spec: the constant `kubernetes.EventTypeResourceChanged`
(package `internal/component/common/kubernetes` is not among the sources). -/
def EventTypeResourceChanged : String := "resource-changed"

/-- The constant `eventTypeSyncLoki`. -/
def eventTypeSyncLoki : String := "sync-loki"

/-- An `Add` entry: desired only. -/
def RuleGroupDiff.add (d : RuleGroup) : RuleGroupDiff := ⟨RuleGroupDiffKindAdd, RuleGroup.zero, d⟩

/-- A `Remove` entry: actual only. -/
def RuleGroupDiff.remove (a : RuleGroup) : RuleGroupDiff :=
  ⟨RuleGroupDiffKindRemove, a, RuleGroup.zero⟩

/-- An `Update` entry: both, with differing content. -/
def RuleGroupDiff.update (d a : RuleGroup) : RuleGroupDiff := ⟨RuleGroupDiffKindUpdate, a, d⟩

/-- The group of a namespace's list that carries the given name. -/
def findGroup (groups : List RuleGroup) (name : String) : Option RuleGroup :=
  groups.find? (fun g => decide (g.Name = name))

/-- Modelled from the spec: the per-namespace part of `kubernetes.DiffRuleState`
(section 4.4; the function is not among the sources). A group present only in
desired gives `Add`; present in both and unequal gives `Update`, equal gives no
entry; present only in observed gives `Remove`. Groups are identified by name. -/
def diffRuleNamespaceState (desired actual : List RuleGroup) : List RuleGroupDiff :=
  desired.filterMap (fun d =>
    match findGroup actual d.Name with
    | none => some (RuleGroupDiff.add d)
    | some a => if a = d then none else some (RuleGroupDiff.update d a))
  ++ (actual.filter (fun a => (findGroup desired a.Name).isNone)).map RuleGroupDiff.remove

/-- Modelled from the spec: `kubernetes.DiffRuleState` (section 4.4; the function
is not among the sources). Every namespace present in desired, observed or both
is compared; a namespace without any diff entry produces no diff. -/
def DiffRuleState (desired actual : RuleGroupsByNamespace) : RuleGroupDiffsByNamespace :=
  ((mapKeys desired ++ mapKeys actual).dedup).filterMap (fun ns =>
    let subDiff := diffRuleNamespaceState ((mapGet desired ns).getD []) ((mapGet actual ns).getD [])
    if subDiff = [] then none else some (ns, subDiff))

/-! ## Collaborators -/

/-- The remote ruler client (`lokiClient`), as functions over the state `W` of
the remote service: each call returns its Go result and the next remote state. -/
structure LokiClient (W : Type) where
  ListRules : W → String → Except Error RuleGroupsByNamespace × W
  CreateRuleGroup : W → String → RuleGroup → Option Error × W
  DeleteRuleGroup : W → String → String → Option Error × W

/-- The rate-limited work queue: pending events, events in flight, the
per-event failure counter of the rate limiter, and the shutdown flag. -/
structure Queue where
  items : List Event
  processing : List Event
  failures : Event → Nat
  shuttingDown : Bool

/-- The queue method `NumRequeues`. -/
def Queue.NumRequeues (q : Queue) (e : Event) : Nat := q.failures e

/-- The queue method `Forget`: reset the failure counter of the event. -/
def Queue.Forget (q : Queue) (e : Event) : Queue :=
  { q with failures := fun x => if x = e then 0 else q.failures x }

/-- The queue method `AddRateLimited`: count one more failure of the event and
enqueue it again unless an equal event is already pending (the delay before it
becomes available is not modelled). -/
def Queue.AddRateLimited (q : Queue) (e : Event) : Queue :=
  { q with
    failures := fun x => if x = e then q.failures x + 1 else q.failures x
    items := if e ∈ q.items then q.items else q.items ++ [e] }

/-- The queue method `Done`: the event is no longer in flight. -/
def Queue.Done (q : Queue) (e : Event) : Queue :=
  { q with processing := q.processing.filter (fun x => decide (x ≠ e)) }

/-- The queue method `Get`: `none` while it would block (nothing pending and no
shutdown), otherwise the event and the shutdown flag. -/
def Queue.Get (q : Queue) : Option (Event × Bool × Queue) :=
  match q.items with
  | [] => if q.shuttingDown then some (⟨"", ""⟩, true, q) else none
  | e :: rest => some (e, false, { q with items := rest, processing := e :: q.processing })

/-- Health of the component as last reported. -/
inductive Health where
  | unknown
  | healthy
  | unhealthy (err : Error)
deriving DecidableEq, Repr

/-- The counters `eventsTotal`, `eventsRetried` and `eventsFailed`, by event type. -/
structure Metrics where
  eventsTotal : String → Nat
  eventsRetried : String → Nat
  eventsFailed : String → Nat

/-- The method `WithLabelValues(typ).Inc()` of a counter. -/
def counterInc (counter : String → Nat) (typ : String) : String → Nat :=
  fun x => if x = typ then counter x + 1 else counter x

/-- Entries of the ghost trace: calls to the remote client, to the listers, to the
queue and to the health reporter, and entries into `applyChanges`. -/
inductive Call where
  | ListRules (ns : String)
  | CreateRuleGroup (ns : String) (group : RuleGroup)
  | DeleteRuleGroup (ns : String) (name : String)
  | ListNamespaces
  | ListPrometheusRules (ns : String)
  | NumRequeues (e : Event)
  | AddRateLimited (e : Event)
  | Forget (e : Event)
  | Done (e : Event)
  | reportHealthy
  | reportUnhealthy (err : Error)
  | applyChanges (ns : String)
deriving DecidableEq, Repr

/-- The outcome of a call that may end in a run-time panic instead of returning. -/
inductive Outcome (α : Type) where
  | returned (a : α)
  | panicked (v : String)

/-- The component. `remote` is the state of the service behind `lokiClient`;
`namespaceLister` and `ruleLister` give the result of listing with the configured
selectors; `yamlMarshal` and `rulefmtParse` are the library functions used by
`convertCRDRuleGroupToRuleGroup` (the parser returns a pointer to its groups,
`none` for the nil pointer it returns when the text cannot be decoded, and its
list of errors); `rangeOrder` is the order in which the runtime iterates over the
diff map. `panics` counts the run-time panics raised so far: a method that returns
a pair has panicked exactly when it leaves the counter greater than it found it,
and the value paired with such a state stands for no value of the program. -/
structure Component (W : Type) where
  LokiNameSpacePrefix : String
  lokiClient : LokiClient W
  remote : W
  namespaceLister : Except Error (List String)
  ruleLister : String → Except Error (List PrometheusRule)
  yamlMarshal : String → Except Error String
  rulefmtParse : String → Option (List RuleGroup) × List Error
  rangeOrder : RuleGroupDiffsByNamespace → RuleGroupDiffsByNamespace
  currentState : RuleGroupsByNamespace
  queue : Queue
  health : Health
  metrics : Metrics
  trace : List Call
  panics : Nat

variable {W : Type}

/-- Append an entry to the ghost trace. -/
def Component.log (c : Component W) (call : Call) : Component W :=
  { c with trace := c.trace ++ [call] }

/-- Modelled from the spec: `reportHealthy` (defined outside the sources): mark
health as nominal. -/
def reportHealthy (c : Component W) : Component W :=
  { c.log Call.reportHealthy with health := Health.healthy }

/-- Modelled from the spec: `reportUnhealthy` (defined outside the sources): mark
health as degraded with the last error. -/
def reportUnhealthy (c : Component W) (err : Error) : Component W :=
  { c.log (Call.reportUnhealthy err) with health := Health.unhealthy err }

/-- The call `c.lokiClient.ListRules(ctx, "")`. -/
def callListRules (c : Component W) : Except Error RuleGroupsByNamespace × Component W :=
  let r := c.lokiClient.ListRules c.remote ""
  (r.1, { c.log (Call.ListRules "") with remote := r.2 })

/-- The call `c.lokiClient.CreateRuleGroup(ctx, namespace, group)`. -/
def callCreateRuleGroup (c : Component W) (ns : String) (group : RuleGroup) :
    Option Error × Component W :=
  let r := c.lokiClient.CreateRuleGroup c.remote ns group
  (r.1, { c.log (Call.CreateRuleGroup ns group) with remote := r.2 })

/-- The call `c.lokiClient.DeleteRuleGroup(ctx, namespace, name)`. -/
def callDeleteRuleGroup (c : Component W) (ns : String) (name : String) :
    Option Error × Component W :=
  let r := c.lokiClient.DeleteRuleGroup c.remote ns name
  (r.1, { c.log (Call.DeleteRuleGroup ns name) with remote := r.2 })

/-! ## The controller -/

/-- The loop of `syncLoki` that deletes every namespace failing the managed check. -/
def dropUnmanaged (pfx : String) (rulesByNamespace : RuleGroupsByNamespace) :
    RuleGroupsByNamespace :=
  (mapKeys rulesByNamespace).foldl
    (fun m ns => if !isManagedLokiNamespace pfx ns then mapDelete m ns else m)
    rulesByNamespace

/-- The method `syncLoki`. -/
def syncLoki (c : Component W) : Option Error × Component W :=
  match callListRules c with
  | (.error err, c1) => (some err, c1)
  | (.ok rulesByNamespace, c1) =>
    (none, { c1 with currentState := dropUnmanaged c1.LokiNameSpacePrefix rulesByNamespace })

/-- The value of the panic raised by reading a field through a nil pointer. -/
def nilDereference : String :=
  "runtime error: invalid memory address or nil pointer dereference"

/-- The function `convertCRDRuleGroupToRuleGroup`; the errors reported by the
parser are discarded, and `groups.Groups` is read through the pointer the parser
returned: a nil pointer makes the call panic. -/
def convertCRDRuleGroupToRuleGroup (c : Component W) (crd : String) :
    Outcome (Except Error (List RuleGroup)) :=
  match c.yamlMarshal crd with
  | .error err => .returned (.error err)
  | .ok buf =>
    match (c.rulefmtParse buf).1 with
    | none => .panicked nilDereference
    | some groups => .returned (.ok groups)

/-- The inner loop of `loadStateFromK8s` over the rule resources of one namespace. -/
def loadRules (c : Component W) :
    List PrometheusRule → RuleGroupsByNamespace → Outcome (Except Error RuleGroupsByNamespace)
  | [], desiredState => .returned (.ok desiredState)
  | pr :: rest, desiredState =>
    let lokiNs := lokiNamespaceForRuleCRD c.LokiNameSpacePrefix pr
    match convertCRDRuleGroupToRuleGroup c pr.Spec with
    | .panicked v => .panicked v
    | .returned (.error err) => .returned (.error (errorfWrap "failed to convert rule group" err))
    | .returned (.ok groups) => loadRules c rest (mapSet desiredState lokiNs groups)

/-- A panic raised by a callee: it is counted in `panics`, and no value is
returned (the error paired with the state only names the panic). -/
def raisePanic {α : Type} (c : Component W) (v : String) : Except Error α × Component W :=
  (.error (.leaf ("panic: " ++ v)), { c with panics := c.panics + 1 })

/-- The outer loop of `loadStateFromK8s` over the matched namespaces. -/
def loadNamespaces :
    Component W → List String → RuleGroupsByNamespace →
      Except Error RuleGroupsByNamespace × Component W
  | c, [], desiredState => (.ok desiredState, c)
  | c, ns :: rest, desiredState =>
    let c1 := c.log (Call.ListPrometheusRules ns)
    match c.ruleLister ns with
    | .error err => (.error (errorfWrap "failed to list rules" err), c1)
    | .ok crdState =>
      match loadRules c crdState desiredState with
      | .panicked v => raisePanic c1 v
      | .returned (.error err) => (.error err, c1)
      | .returned (.ok desiredState1) => loadNamespaces c1 rest desiredState1

/-- The method `loadStateFromK8s`. -/
def loadStateFromK8s (c : Component W) : Except Error RuleGroupsByNamespace × Component W :=
  let c1 := c.log Call.ListNamespaces
  match c.namespaceLister with
  | .error err => (.error (errorfWrap "failed to list namespaces" err), c1)
  | .ok matchedNamespaces => loadNamespaces c1 matchedNamespaces []

/-- The loop of `applyChanges` over the diffs; an error returns at once. A diff of
unknown kind is logged and skipped. The result is `none` when the loop ran to
its end. -/
def applyDiffs : Component W → String → List RuleGroupDiff → Option Error × Component W
  | c, _, [] => (none, c)
  | c, ns, diff :: rest =>
    if diff.Kind = RuleGroupDiffKindAdd then
      match callCreateRuleGroup c ns diff.Desired with
      | (some err, c1) => (some err, c1)
      | (none, c1) => applyDiffs c1 ns rest
    else if diff.Kind = RuleGroupDiffKindRemove then
      match callDeleteRuleGroup c ns diff.Actual.Name with
      | (some err, c1) => (some err, c1)
      | (none, c1) => applyDiffs c1 ns rest
    else if diff.Kind = RuleGroupDiffKindUpdate then
      match callCreateRuleGroup c ns diff.Desired with
      | (some err, c1) => (some err, c1)
      | (none, c1) => applyDiffs c1 ns rest
    else applyDiffs c ns rest

/-- The method `applyChanges`. -/
def applyChanges (c : Component W) (ns : String) (diffs : List RuleGroupDiff) :
    Option Error × Component W :=
  let c0 := c.log (Call.applyChanges ns)
  if diffs.length = 0 then (none, c0)
  else
    match applyDiffs c0 ns diffs with
    | (some err, c1) => (some err, c1)
    | (none, c1) => syncLoki c1

/-- The loop of `reconcileState` over the namespaces of the diff. -/
def reconcileLoop :
    Component W → RuleGroupDiffsByNamespace → Option Error → Option Error × Component W
  | c, [], result => (result, c)
  | c, (ns, diff) :: rest, result =>
    match applyChanges c ns diff with
    | (some err, c1) => reconcileLoop c1 rest (some (multierrorAppend result err))
    | (none, c1) => reconcileLoop c1 rest result

/-- The method `reconcileState` (the deadline of the context is not modelled: an
expired deadline shows as a failing client call). A panic of `loadStateFromK8s`
passes through: nothing after the call runs. -/
def reconcileState (c : Component W) : Option Error × Component W :=
  match loadStateFromK8s c with
  | (.error err, c1) => (some err, c1)
  | (.ok desiredState, c1) =>
    let diffs := DiffRuleState desiredState c1.currentState
    reconcileLoop c1 (c1.rangeOrder diffs) none

/-- The deferred call `c.queue.Done(e)`. -/
def queueDone (c : Component W) (e : Event) : Component W :=
  { c.log (Call.Done e) with queue := c.queue.Done e }

/-- The body of `processEvent`, before the deferred `Done`. -/
def processEventBody (c : Component W) (e : Event) : Option Error × Component W :=
  if e.Typ = EventTypeResourceChanged then reconcileState c
  else if e.Typ = eventTypeSyncLoki then
    match syncLoki c with
    | (some err, c1) => (some err, c1)
    | (none, c1) => reconcileState c1
  else (some (.leaf ("unknown event type: " ++ e.Typ)), c)

/-- The method `processEvent`; the deferred `Done` also runs when the body
panics. -/
def processEvent (c : Component W) (e : Event) : Option Error × Component W :=
  let r := processEventBody c e
  (r.1, queueDone r.2 e)

/-- The statement `c.metrics.eventsTotal.WithLabelValues(string(evt.Typ)).Inc()`. -/
def countEvent (c : Component W) (evt : Event) : Component W :=
  { c with metrics := { c.metrics with eventsTotal := counterInc c.metrics.eventsTotal evt.Typ } }

/-- One iteration of the loop of `eventLoop`, after `Get` returned the event. When
`processEvent` panics, nothing after the call runs. -/
def eventLoopIter (c : Component W) (evt : Event) : Component W :=
  match processEvent (countEvent c evt) evt with
  | (r, c1) =>
    if c1.panics ≠ c.panics then c1
    else
      match r with
      | some err =>
        let retries := c1.queue.NumRequeues evt
        let c2 := c1.log (Call.NumRequeues evt)
        if retries < 5 then
          let c3 := { c2 with metrics :=
            { c2.metrics with eventsRetried := counterInc c2.metrics.eventsRetried evt.Typ } }
          { c3.log (Call.AddRateLimited evt) with queue := c3.queue.AddRateLimited evt }
        else
          let c3 := { c2 with metrics :=
            { c2.metrics with eventsFailed := counterInc c2.metrics.eventsFailed evt.Typ } }
          let c4 := reportUnhealthy c3 err
          { c4.log (Call.Forget evt) with queue := c4.queue.Forget evt }
      | none =>
        let c2 := reportHealthy c1
        { c2.log (Call.Forget evt) with queue := c2.queue.Forget evt }

/-- The method `eventLoop`, for at most `fuel` iterations: it stops when `Get`
reports shutdown (or would block), and when an iteration panics. -/
def eventLoop : Nat → Component W → Component W
  | 0, c => c
  | fuel + 1, c =>
    match c.queue.Get with
    | none => c
    | some (evt, shutdown, q) =>
      if shutdown then c
      else
        let c1 := eventLoopIter { c with queue := q } evt
        if c1.panics ≠ c.panics then c1 else eventLoop fuel c1

/-! ## A remote service for concrete runs -/

/-- Upsert of a group into a namespace's groups: replace the group of the same
name, or append. -/
def upsertGroup (groups : List RuleGroup) (g : RuleGroup) : List RuleGroup :=
  if (findGroup groups g.Name).isSome then
    groups.map (fun x => if x.Name = g.Name then g else x)
  else groups ++ [g]

/-- Removal of the group with the given name. -/
def removeGroup (groups : List RuleGroup) (name : String) : List RuleGroup :=
  groups.filter (fun x => decide (x.Name ≠ name))

/-- A remote service holding a namespace-to-groups store, together with the names
of the groups whose writes it rejects and whether listing fails. -/
structure Store where
  groups : RuleGroupsByNamespace
  rejected : List String
  listFails : Bool
deriving DecidableEq, Repr

/-- A client over `Store`: `CreateRuleGroup` is a replace-by-name, `DeleteRuleGroup`
removes by name, `ListRules` returns the whole store; a write to a rejected group
name fails and changes nothing. -/
def storeClient : LokiClient Store where
  ListRules := fun w _ =>
    if w.listFails then (.error (.leaf "list failed"), w) else (.ok w.groups, w)
  CreateRuleGroup := fun w ns g =>
    if g.Name ∈ w.rejected then (some (.leaf ("create failed: " ++ g.Name)), w)
    else (none, { w with groups := mapSet w.groups ns (upsertGroup ((mapGet w.groups ns).getD []) g) })
  DeleteRuleGroup := fun w ns name =>
    if name ∈ w.rejected then (some (.leaf ("delete failed: " ++ name)), w)
    else
      match mapGet w.groups ns with
      | none => (none, w)
      | some gs => (none, { w with groups := mapSet w.groups ns (removeGroup gs name) })

/-- Split a text at every occurrence of a separator character. -/
def splitOnChar (sep : Char) : List Char → List (List Char)
  | [] => [[]]
  | c :: rest =>
    if c = sep then [] :: splitOnChar sep rest
    else
      match splitOnChar sep rest with
      | [] => [[c]]
      | first :: more => (c :: first) :: more

/-- A rule-format reader for concrete runs: one group per line, written
`name=rule=...=rule`. -/
def exParse (s : String) : List RuleGroup :=
  (splitOnChar '\n' s.toList).map (fun l =>
    ⟨String.mk ((splitOnChar '=' l).headD []), (splitOnChar '=' l).tail.map String.mk⟩)

/-- An empty queue. -/
def Queue.empty : Queue := ⟨[], [], fun _ => 0, false⟩

/-- A component over the store client, with the given prefix, remote store,
cache and rule resources (all in the Kubernetes namespace `ns1`); the parser
reads a specification as one group per line, `name=rule=...=rule`. -/
def storeComponent (pfx : String) (w : Store) (cache : RuleGroupsByNamespace)
    (rules : List PrometheusRule) : Component Store where
  LokiNameSpacePrefix := pfx
  lokiClient := storeClient
  remote := w
  namespaceLister := .ok ["ns1"]
  ruleLister := fun _ => .ok rules
  yamlMarshal := fun s => .ok s
  rulefmtParse := fun s => (some (exParse s), [])
  rangeOrder := fun d => d
  currentState := cache
  queue := Queue.empty
  health := Health.unknown
  metrics := ⟨fun _ => 0, fun _ => 0, fun _ => 0⟩
  trace := []
  panics := 0

/-! ## Scaleway roles (`internal/component/discovery/scaleway/scaleway.go`) -/

/-- The type `Role`: a Go string, that is, a sequence of bytes. -/
structure Role where
  bytes : List UInt8
deriving DecidableEq, Repr

/-- The constant `RoleBaremetal`. -/
def RoleBaremetal : Role := ⟨"baremetal".toUTF8.data.toList⟩

/-- The constant `RoleInstance`. -/
def RoleInstance : Role := ⟨"instance".toUTF8.data.toList⟩

/-- The method `Role.MarshalText`: the raw bytes of the role and a nil error. -/
def Role.MarshalText (r : Role) : List UInt8 × Option Error :=
  (r.bytes, none)

/-- The method `Role.UnmarshalText`: the Go result and the role after the call.
The `%q` formatting of package `fmt` is the parameter `fmtQ`. -/
def Role.UnmarshalText (fmtQ : List UInt8 → String) (r : Role) (text : List UInt8) :
    Option Error × Role :=
  if (⟨text⟩ : Role) = RoleBaremetal ∨ (⟨text⟩ : Role) = RoleInstance then (none, ⟨text⟩)
  else (some (.leaf ("invalid role " ++ fmtQ text)), r)

/-! ## Auxiliary definitions used in the statements -/

/-- The remote call that `applyChanges` makes for a diff in a namespace: an upsert
for `Add` and `Update`, a delete by name for `Remove`, none for another kind. -/
def diffCall (ns : String) (diff : RuleGroupDiff) : Option Call :=
  if diff.Kind = RuleGroupDiffKindAdd then some (Call.CreateRuleGroup ns diff.Desired)
  else if diff.Kind = RuleGroupDiffKindRemove then some (Call.DeleteRuleGroup ns diff.Actual.Name)
  else if diff.Kind = RuleGroupDiffKindUpdate then some (Call.CreateRuleGroup ns diff.Desired)
  else none

/-- Trace entries made by a reconciliation: calls to the remote client and to the
listers, and entries into `applyChanges`. -/
def Call.isReconcileCall : Call → Bool
  | .ListRules _ => true
  | .CreateRuleGroup _ _ => true
  | .DeleteRuleGroup _ _ => true
  | .ListNamespaces => true
  | .ListPrometheusRules _ => true
  | .applyChanges _ => true
  | _ => false

/-- The component `c2` differs from `c1` at most in the remote state, the cache and
a trace extended by reconciliation entries: the configuration, the collaborators,
the queue, the health and the metrics are the same. -/
structure Reconciles (c1 c2 : Component W) : Prop where
  pfx_eq : c2.LokiNameSpacePrefix = c1.LokiNameSpacePrefix
  client_eq : c2.lokiClient = c1.lokiClient
  namespaceLister_eq : c2.namespaceLister = c1.namespaceLister
  ruleLister_eq : c2.ruleLister = c1.ruleLister
  yamlMarshal_eq : c2.yamlMarshal = c1.yamlMarshal
  rulefmtParse_eq : c2.rulefmtParse = c1.rulefmtParse
  rangeOrder_eq : c2.rangeOrder = c1.rangeOrder
  queue_eq : c2.queue = c1.queue
  health_eq : c2.health = c1.health
  metrics_eq : c2.metrics = c1.metrics
  trace_ext : ∃ calls, c2.trace = c1.trace ++ calls ∧ ∀ x ∈ calls, x.isReconcileCall = true

/-- The groups a mapping holds for a namespace (none when the namespace is absent). -/
def groupsOf (m : RuleGroupsByNamespace) (ns : String) : List RuleGroup :=
  (mapGet m ns).getD []

/-- The effect on a namespace's groups, in the store behind `storeClient`, of the
remote operation of one diff. -/
def applyOp (groups : List RuleGroup) (diff : RuleGroupDiff) : List RuleGroup :=
  if diff.Kind = RuleGroupDiffKindAdd then upsertGroup groups diff.Desired
  else if diff.Kind = RuleGroupDiffKindRemove then removeGroup groups diff.Actual.Name
  else if diff.Kind = RuleGroupDiffKindUpdate then upsertGroup groups diff.Desired
  else groups

/-- The diffs that a list of per-namespace diffs holds for one namespace, in order. -/
def opsFor : RuleGroupDiffsByNamespace → String → List RuleGroupDiff
  | [], _ => []
  | (k, ds) :: rest, ns => if k = ns then ds ++ opsFor rest ns else opsFor rest ns

/-- The name of the group that the remote operation of a diff acts on. -/
def touchedName (diff : RuleGroupDiff) : String :=
  if diff.Kind = RuleGroupDiffKindRemove then diff.Actual.Name else diff.Desired.Name

/-- The diff is an `Add`, a `Remove` or an `Update` entry. -/
def RuleGroupDiff.WellFormed (x : RuleGroupDiff) : Prop :=
  (∃ d, x = RuleGroupDiff.add d) ∨ (∃ a, x = RuleGroupDiff.remove a) ∨
    (∃ d a, x = RuleGroupDiff.update d a)

/-- The component talks to the store through `storeClient`, and the store rejects
no write and lists successfully: every remote call succeeds. -/
structure StoreOk (c : Component Store) : Prop where
  client : c.lokiClient = storeClient
  rejected : c.remote.rejected = []
  listFails : c.remote.listFails = false

/-- The cache is what a sync would produce: the managed part of the remote store. -/
def CacheInSync (c : Component Store) : Prop :=
  c.currentState = dropUnmanaged c.LokiNameSpacePrefix c.remote.groups

/-- Hexadecimal digits. -/
def isHexDigit (c : Char) : Bool :=
  (decide ('0'.toNat ≤ c.toNat) && decide (c.toNat ≤ '9'.toNat)) ||
  (decide ('a'.toNat ≤ c.toNat) && decide (c.toNat ≤ 'f'.toNat)) ||
  (decide ('A'.toNat ≤ c.toNat) && decide (c.toNat ≤ 'F'.toNat))

/-- A UUID in text form: five runs of 8, 4, 4, 4 and 12 hexadecimal digits joined
by `-`. -/
def IsUUID (u : List Char) : Prop :=
  ∃ a b c d e : List Char,
    u = a ++ '-' :: (b ++ '-' :: (c ++ '-' :: (d ++ '-' :: e))) ∧
    a.length = 8 ∧ b.length = 4 ∧ c.length = 4 ∧ d.length = 4 ∧ e.length = 12 ∧
    (∀ x ∈ a, isHexDigit x = true) ∧ (∀ x ∈ b, isHexDigit x = true) ∧
    (∀ x ∈ c, isHexDigit x = true) ∧ (∀ x ∈ d, isHexDigit x = true) ∧
    (∀ x ∈ e, isHexDigit x = true)

/-- The compiled item for `[0-9a-fA-F]`. -/
def hexNode : Node := .chr (.set [('0', '9'), ('a', 'f'), ('A', 'F')])

/-- The compiled items of the pattern after the quoted prefix:
`-.+-.+-` then the UUID part, then `$`. -/
def managedTailNodes : List Node :=
  .chr (.lit '-') :: .plus .anyNotNL :: .chr (.lit '-') :: .plus .anyNotNL :: .chr (.lit '-') ::
    (List.replicate 8 hexNode ++ .wordb :: .chr (.lit '-') ::
      (List.replicate 4 hexNode ++ .wordb :: .chr (.lit '-') ::
        (List.replicate 4 hexNode ++ .wordb :: .chr (.lit '-') ::
          (List.replicate 4 hexNode ++ .wordb :: .chr (.lit '-') ::
            (List.replicate 12 hexNode ++ [.eol])))))

/-- Trace entries that mark an entry into `applyChanges`. -/
def Call.isApplyChanges : Call → Bool
  | .applyChanges _ => true
  | _ => false

/-- The result of each invocation of `applyChanges` made by the loop of
`reconcileState` over the given diffs, in the order of the invocations. -/
def applyResults : Component W → RuleGroupDiffsByNamespace → List (String × Option Error)
  | _, [] => []
  | c, (ns, diff) :: rest =>
    (ns, (applyChanges c ns diff).1) :: applyResults (applyChanges c ns diff).2 rest

/-- The diff is of one of the three kinds `Add`, `Remove` and `Update`. -/
def RuleGroupDiff.isKnownKind (diff : RuleGroupDiff) : Bool :=
  decide (diff.Kind = RuleGroupDiffKindAdd) || decide (diff.Kind = RuleGroupDiffKindRemove) ||
    decide (diff.Kind = RuleGroupDiffKindUpdate)

/-- The remote write call of a diff of known kind: `DeleteRuleGroup` by the name of
the actual group for a `Remove`, `CreateRuleGroup` of the desired group for an
`Add` or an `Update`. -/
def writeCall (ns : String) (diff : RuleGroupDiff) : Call :=
  if diff.Kind = RuleGroupDiffKindRemove then Call.DeleteRuleGroup ns diff.Actual.Name
  else Call.CreateRuleGroup ns diff.Desired

/-- The reply of the remote client to the write that a diff asks for, sent when
the service is in state `w`: `CreateRuleGroup` of the desired group for an `Add`
or an `Update`, `DeleteRuleGroup` by the name of the actual group for a `Remove`;
for a diff of another kind nothing is sent. -/
def writeReply (client : LokiClient W) (ns : String) (w : W) (diff : RuleGroupDiff) :
    Option Error × W :=
  if diff.Kind = RuleGroupDiffKindAdd ∨ diff.Kind = RuleGroupDiffKindUpdate then
    client.CreateRuleGroup w ns diff.Desired
  else if diff.Kind = RuleGroupDiffKindRemove then
    client.DeleteRuleGroup w ns diff.Actual.Name
  else (none, w)

/-- The state of the remote service after the writes of the diffs have been sent
to the client one after the other, in list order, and each was answered with nil;
`none` when one of them is answered with an error. -/
def sendWrites (client : LokiClient W) (ns : String) : W → List RuleGroupDiff → Option W
  | w, [] => some w
  | w, diff :: rest =>
    match writeReply client ns w diff with
    | (none, w1) => sendWrites client ns w1 rest
    | (some _, _) => none

/-- Trace entries that are write calls to the remote client. -/
def Call.isWrite : Call → Bool
  | .CreateRuleGroup _ _ => true
  | .DeleteRuleGroup _ _ => true
  | _ => false

/-- Trace entries that are calls to the remote client or to the resource listers. -/
def Call.isClientOrLister : Call → Bool
  | .ListRules _ => true
  | .CreateRuleGroup _ _ => true
  | .DeleteRuleGroup _ _ => true
  | .ListNamespaces => true
  | .ListPrometheusRules _ => true
  | _ => false

/-- The rule resource is among those that `loadStateFromK8s` lists: it is in the
listing of one of the matched namespaces. -/
def IsListed (c : Component W) (pr : PrometheusRule) : Prop :=
  ∃ nss ns crdState, c.namespaceLister = Except.ok nss ∧ ns ∈ nss ∧
    c.ruleLister ns = Except.ok crdState ∧ pr ∈ crdState

/-! ## Example inputs -/

/-- Example rule group named `n`. -/
def exGroup (n : String) : RuleGroup := ⟨n, [n]⟩

/-- Example component: an empty remote store that rejects writes to group `g2`. -/
def exRejecting : Component Store := storeComponent "alloy" ⟨[], ["g2"], false⟩ [] []

/-- Example diff list of three additions, the second of which the store rejects. -/
def exThreeAdds : List RuleGroupDiff :=
  [.add (exGroup "g1"), .add (exGroup "g2"), .add (exGroup "g3")]

/-- Example listing: one namespace of managed shape and one foreign namespace. -/
def exMixedListing : RuleGroupsByNamespace :=
  [("alloy-ns1-r1-64aab764-c95e-4ee9-a932-cd63ba57e6cf", [exGroup "g1"]),
   ("other-tool", [exGroup "x"])]

/-- Example component: the remote store holds `exMixedListing`, the cache is empty. -/
def exMixed : Component Store := storeComponent "alloy" ⟨exMixedListing, [], false⟩ [] []

/-- Example event of a type the controller does not know. -/
def exUnknownEvent : Event := ⟨"bogus", "ns1/r1"⟩

/-- Example remote namespace name of managed shape for prefix `alloy`. -/
def exManagedNs : String := "alloy-ns1-r1-64aab764-c95e-4ee9-a932-cd63ba57e6cf"

/-- Example rule resource `ns1/r1` declaring the groups `G1` and `G2`. -/
def exRule : PrometheusRule :=
  ⟨"ns1", "r1", "64aab764-c95e-4ee9-a932-cd63ba57e6cf", "G1=a\nG2=b"⟩

/-- The desired state loaded from `exRule`. -/
def exDesired : RuleGroupsByNamespace :=
  [(exManagedNs, [⟨"G1", ["a"]⟩, ⟨"G2", ["b"]⟩])]

/-- Example component: the store holds an old `G2` under the managed namespace and
a foreign namespace; the cache is in sync; `exRule` is declared. -/
def exConverging : Component Store :=
  storeComponent "alloy"
    ⟨[(exManagedNs, [⟨"G2", ["old"]⟩]), ("other-tool", [⟨"x", []⟩])], [], false⟩
    [(exManagedNs, [⟨"G2", ["old"]⟩])] [exRule]

/-- Example component: as `exConverging`, with a group `G3` as well in the managed
namespace of the store and of the cache. -/
def exThreeGroups : Component Store :=
  storeComponent "alloy"
    ⟨[(exManagedNs, [⟨"G2", ["old"]⟩, ⟨"G3", ["c"]⟩]), ("other-tool", [⟨"x", []⟩])], [], false⟩
    [(exManagedNs, [⟨"G2", ["old"]⟩, ⟨"G3", ["c"]⟩])] [exRule]

/-- Example diff list for `exThreeGroups`: add `G1`, update `G2`, remove `G3`. -/
def exThreeDiffs : List RuleGroupDiff :=
  [RuleGroupDiff.add ⟨"G1", ["a"]⟩, RuleGroupDiff.update ⟨"G2", ["b"]⟩ ⟨"G2", ["old"]⟩,
    RuleGroupDiff.remove ⟨"G3", ["c"]⟩]

/-- The store of `exThreeGroups` after the writes of `exThreeDiffs`. -/
def exThreeGroupsAfter : Store :=
  ⟨[(exManagedNs, [⟨"G2", ["b"]⟩, ⟨"G1", ["a"]⟩]), ("other-tool", [⟨"x", []⟩])], [], false⟩

/-- Example component: as `exRejecting`, with the event `exUnknownEvent` pending in
the queue. -/
def exQueued : Component Store :=
  { exRejecting with queue := { Queue.empty with items := [exUnknownEvent] } }

/-- Example component with a stale cache: the cache still lists `G1` and `G2`, the
store has lost them. -/
def exStale : Component Store :=
  storeComponent "alloy" ⟨[], [], false⟩ exDesired [exRule]

/-- Example rule resource whose UID is not of UUID shape. -/
def exRuleOddUID : PrometheusRule := ⟨"ns1", "r1", "u1", "G1=a"⟩

/-- Example component declaring `exRuleOddUID`, store and cache empty. -/
def exOddUID : Component Store :=
  storeComponent "alloy" ⟨[], [], false⟩ [] [exRuleOddUID]

/-- Example rule resource declaring two groups of the same name. -/
def exRuleTwice : PrometheusRule :=
  ⟨"ns1", "r1", "64aab764-c95e-4ee9-a932-cd63ba57e6cf", "G1=a\nG1=b"⟩

/-- Example component declaring `exRuleTwice`, store and cache empty. -/
def exTwice : Component Store :=
  storeComponent "alloy" ⟨[], [], false⟩ [] [exRuleTwice]

/-- The desired state loaded from `exRuleOddUID`. -/
def exDesiredOddUID : RuleGroupsByNamespace := [("alloy-ns1-r1-u1", [⟨"G1", ["a"]⟩])]

/-- The desired state loaded from `exRuleTwice`. -/
def exDesiredTwice : RuleGroupsByNamespace :=
  [(exManagedNs, [⟨"G1", ["a"]⟩, ⟨"G1", ["b"]⟩])]

/-- Example rule resource `a-b/c`. -/
def exCollideA : PrometheusRule :=
  ⟨"a-b", "c", "64aab764-c95e-4ee9-a932-cd63ba57e6cf", "G1=a"⟩

/-- Example rule resource `a/b-c`, with the UID of `exCollideA`. -/
def exCollideB : PrometheusRule :=
  ⟨"a", "b-c", "64aab764-c95e-4ee9-a932-cd63ba57e6cf", "G1=a"⟩

/-- Example rule resource `a/b-c` with a UID of its own. -/
def exCollideC : PrometheusRule :=
  ⟨"a", "b-c", "0f0e0d0c-c95e-4ee9-a932-cd63ba57e6cf", "G1=a"⟩

/-- Example component: the store rejects writes to `g2`; two resources are
declared, one naming `g2` and one naming `g3`. -/
def exTwoNamespaces : Component Store :=
  storeComponent "alloy" ⟨[], ["g2"], false⟩ []
    [⟨"ns1", "r1", "64aab764-c95e-4ee9-a932-cd63ba57e6cf", "g2=a"⟩,
     ⟨"ns1", "r2", "0f0e0d0c-c95e-4ee9-a932-cd63ba57e6cf", "g3=a"⟩]

/-- The desired state loaded from the resources of `exTwoNamespaces`. -/
def exDesiredTwoNamespaces : RuleGroupsByNamespace :=
  [("alloy-ns1-r1-64aab764-c95e-4ee9-a932-cd63ba57e6cf", [⟨"g2", ["a"]⟩]),
   ("alloy-ns1-r2-0f0e0d0c-c95e-4ee9-a932-cd63ba57e6cf", [⟨"g3", ["a"]⟩])]

/-- The desired state of the example in the specification. -/
def exSpecDesired : RuleGroupsByNamespace := [("ns-a", [⟨"G1", ["x"]⟩, ⟨"G2", ["new"]⟩])]

/-- The observed state of the example in the specification. -/
def exSpecObserved : RuleGroupsByNamespace := [("ns-a", [⟨"G2", ["old"]⟩])]

/-- Example component: as `exConverging`, with a rule-format parser that reports an
error for every specification it reads. -/
def exParserComplains : Component Store :=
  { exConverging with
    rulefmtParse := fun s => (some (exParse s), [Error.leaf "bad expression"]) }

/-- Example component: as `exConverging`, with a rule-format parser that cannot
decode the specification it reads: it returns the nil pointer and an error. -/
def exParserGivesNil : Component Store :=
  { exConverging with rulefmtParse := fun _ => (none, [Error.leaf "field not found"]) }

/-- Example component: as `exConverging`, with a marshaller that fails. -/
def exMarshalFails : Component Store :=
  { exConverging with yamlMarshal := fun _ => Except.error (Error.leaf "marshal failed") }

/-- Example component whose remote listing fails; the cache holds `exDesired`. -/
def exListFails : Component Store :=
  storeComponent "alloy" ⟨[], [], true⟩ exDesired [exRule]

/-- Example event asking for a sync with the remote service. -/
def exSyncEvent : Event := ⟨eventTypeSyncLoki, ""⟩

/-- Example event reporting a changed resource. -/
def exChangedEvent : Event := ⟨EventTypeResourceChanged, "ns1/r1"⟩

/-- Example diff of a kind that is none of `Add`, `Remove` and `Update`. -/
def exOddKind : RuleGroupDiff := ⟨"rename", exGroup "g1", exGroup "g1"⟩

/-! ## Properties -/

/-! ### Remote-state sync (C1) -/

theorem dropUnmanaged_fold (pfx : String) (ks : List String) (m : RuleGroupsByNamespace) :
    ks.foldl (fun m ns => if !isManagedLokiNamespace pfx ns then mapDelete m ns else m) m
      = m.filter (fun e => !(decide (e.1 ∈ ks) && !isManagedLokiNamespace pfx e.1)) := by
  induction ks generalizing m with
  | nil => simp
  | cons k ks ih =>
    rw [List.foldl_cons, ih]
    by_cases hk : isManagedLokiNamespace pfx k = true
    · simp only [hk, Bool.not_true, Bool.false_eq_true, if_false]
      apply List.filter_congr
      intro e _
      by_cases he : e.1 = k
      · simp [he, hk]
      · simp [he]
    · simp only [Bool.not_eq_true] at hk
      simp only [hk, Bool.not_false, if_true, mapDelete, List.filter_filter]
      apply List.filter_congr
      intro e _
      by_cases he : e.1 = k
      · simp [he, hk]
      · simp [he]

theorem dropUnmanaged_eq_filter (pfx : String) (m : RuleGroupsByNamespace) :
    dropUnmanaged pfx m = m.filter (fun e => isManagedLokiNamespace pfx e.1) := by
  unfold dropUnmanaged
  rw [dropUnmanaged_fold]
  apply List.filter_congr
  intro e he
  have : e.1 ∈ mapKeys m := List.mem_map.mpr ⟨e, he, rfl⟩
  simp [this]

theorem mapGet_filter_key {V : Type} (p : String → Bool) (m : List (String × V)) (k : String) :
    mapGet (m.filter (fun e => p e.1)) k = if p k = true then mapGet m k else none := by
  induction m with
  | nil => simp [mapGet]
  | cons e m ih =>
    obtain ⟨k', v⟩ := e
    by_cases hp : p k' = true
    · simp only [List.filter_cons, hp, if_true, mapGet]
      by_cases hk : k' = k
      · subst hk; simp [hp]
      · simp [hk, ih]
    · simp only [List.filter_cons, hp, mapGet]
      by_cases hk : k' = k
      · subst hk; simp [hp, ih]
      · simp [hk, ih]

theorem syncLoki_ok (c : Component W) (listing : RuleGroupsByNamespace) (w : W)
    (h : c.lokiClient.ListRules c.remote "" = (Except.ok listing, w)) :
    syncLoki c = (none, { (c.log (Call.ListRules "")) with
      remote := w,
      currentState := dropUnmanaged c.LokiNameSpacePrefix listing }) := by
  simp [syncLoki, callListRules, h, Component.log]

theorem syncLoki_error (c : Component W) (err : Error) (w : W)
    (h : c.lokiClient.ListRules c.remote "" = (Except.error err, w)) :
    syncLoki c = (some err, { (c.log (Call.ListRules "")) with remote := w }) := by
  simp [syncLoki, callListRules, h, Component.log]

/-- C1: when the remote client's `ListRules` returns a listing successfully,
`syncLoki` succeeds and leaves as cache (`currentState`) exactly the listing
restricted to the namespaces accepted by `isManagedLokiNamespace` for the
configured prefix: a managed namespace reads back with its rule groups unchanged,
an unmanaged one reads back as absent and is not among the keys of the cache,
whatever its rule groups are. -/
theorem syncLoki_keeps_exactly_managed (c : Component W) (listing : RuleGroupsByNamespace) (w : W)
    (h : c.lokiClient.ListRules c.remote "" = (Except.ok listing, w)) :
    (syncLoki c).1 = none ∧
    (syncLoki c).2.currentState
      = listing.filter (fun e => isManagedLokiNamespace c.LokiNameSpacePrefix e.1) ∧
    (∀ ns, mapGet (syncLoki c).2.currentState ns
      = if isManagedLokiNamespace c.LokiNameSpacePrefix ns = true then mapGet listing ns else none) ∧
    (∀ ns, isManagedLokiNamespace c.LokiNameSpacePrefix ns = false →
      ns ∉ mapKeys (syncLoki c).2.currentState) := by
  rw [syncLoki_ok c listing w h]
  refine ⟨rfl, dropUnmanaged_eq_filter _ _, ?_, ?_⟩
  · intro ns
    simp only [dropUnmanaged_eq_filter]
    exact mapGet_filter_key _ _ _
  · intro ns hns hmem
    simp only [dropUnmanaged_eq_filter, mapKeys, List.mem_map, List.mem_filter] at hmem
    obtain ⟨e, ⟨_, he⟩, rfl⟩ := hmem
    simp [hns] at he

/-- Witness for C1: a store holding one managed and one unmanaged namespace. -/
theorem syncLoki_keeps_exactly_managed_witness :
    (syncLoki exMixed).1 = none ∧
    (syncLoki exMixed).2.currentState
      = exMixedListing.filter (fun e => isManagedLokiNamespace exMixed.LokiNameSpacePrefix e.1) ∧
    (∀ ns, mapGet (syncLoki exMixed).2.currentState ns
      = if isManagedLokiNamespace exMixed.LokiNameSpacePrefix ns = true
        then mapGet exMixedListing ns else none) ∧
    (∀ ns, isManagedLokiNamespace exMixed.LokiNameSpacePrefix ns = false →
      ns ∉ mapKeys (syncLoki exMixed).2.currentState) :=
  syncLoki_keeps_exactly_managed exMixed exMixedListing ⟨exMixedListing, [], false⟩ rfl

/-! ### Applying the diffs of one namespace (C2) -/

theorem applyDiffs_append (c : Component W) (ns : String) (pre post : List RuleGroupDiff) :
    applyDiffs c ns (pre ++ post) =
      match applyDiffs c ns pre with
      | (some err, c1) => (some err, c1)
      | (none, c1) => applyDiffs c1 ns post := by
  induction pre generalizing c with
  | nil => simp [applyDiffs]
  | cons d pre ih =>
    simp only [List.cons_append, applyDiffs]
    split_ifs
    · rcases h : callCreateRuleGroup c ns d.Desired with ⟨_ | e, c1⟩ <;> simp [ih]
    · rcases h : callDeleteRuleGroup c ns d.Actual.Name with ⟨_ | e, c1⟩ <;> simp [ih]
    · rcases h : callCreateRuleGroup c ns d.Desired with ⟨_ | e, c1⟩ <;> simp [ih]
    · exact ih c

theorem applyDiffs_single_trace (c : Component W) (ns : String) (d : RuleGroupDiff) :
    (applyDiffs c ns [d]).2.trace = c.trace ++ (diffCall ns d).toList := by
  simp only [applyDiffs, diffCall]
  split_ifs
  · rcases h : c.lokiClient.CreateRuleGroup c.remote ns d.Desired with ⟨_ | e, w⟩ <;>
      simp [callCreateRuleGroup, h, Component.log]
  · rcases h : c.lokiClient.DeleteRuleGroup c.remote ns d.Actual.Name with ⟨_ | e, w⟩ <;>
      simp [callDeleteRuleGroup, h, Component.log]
  · rcases h : c.lokiClient.CreateRuleGroup c.remote ns d.Desired with ⟨_ | e, w⟩ <;>
      simp [callCreateRuleGroup, h, Component.log]
  · simp

theorem applyDiffs_cons (c : Component W) (ns : String) (d : RuleGroupDiff)
    (rest : List RuleGroupDiff) :
    applyDiffs c ns (d :: rest) =
      match applyDiffs c ns [d] with
      | (some err, c1) => (some err, c1)
      | (none, c1) => applyDiffs c1 ns rest := by
  have := applyDiffs_append c ns [d] rest
  simpa using this

theorem applyDiffs_ok_trace (c : Component W) (ns : String) (ds : List RuleGroupDiff)
    (h : (applyDiffs c ns ds).1 = none) :
    (applyDiffs c ns ds).2.trace = c.trace ++ ds.filterMap (diffCall ns) := by
  induction ds generalizing c with
  | nil => simp [applyDiffs]
  | cons d ds ih =>
    rw [applyDiffs_cons] at h ⊢
    have ht := applyDiffs_single_trace c ns d
    rcases hd : applyDiffs c ns [d] with ⟨_ | e, c1⟩
    · rw [hd] at h ht
      simp only at h ht ⊢
      rw [ih c1 h, ht]
      cases hc : diffCall ns d <;> simp [List.filterMap_cons, hc]
    · rw [hd] at h
      simp at h

theorem applyDiffs_currentState (c : Component W) (ns : String) (ds : List RuleGroupDiff) :
    (applyDiffs c ns ds).2.currentState = c.currentState := by
  induction ds generalizing c with
  | nil => simp [applyDiffs]
  | cons d ds ih =>
    simp only [applyDiffs]
    split_ifs
    · rcases h : callCreateRuleGroup c ns d.Desired with ⟨_ | e, c1⟩ <;>
        simp only [callCreateRuleGroup, Component.log, Prod.mk.injEq] at h <;>
        obtain ⟨_, rfl⟩ := h <;> simp [ih]
    · rcases h : callDeleteRuleGroup c ns d.Actual.Name with ⟨_ | e, c1⟩ <;>
        simp only [callDeleteRuleGroup, Component.log, Prod.mk.injEq] at h <;>
        obtain ⟨_, rfl⟩ := h <;> simp [ih]
    · rcases h : callCreateRuleGroup c ns d.Desired with ⟨_ | e, c1⟩ <;>
        simp only [callCreateRuleGroup, Component.log, Prod.mk.injEq] at h <;>
        obtain ⟨_, rfl⟩ := h <;> simp [ih]
    · exact ih c

/-- C2, as amended: `applyChanges` attempts the remote operations of the diffs in
list order up to and including the first one that fails, and none after it: when
the operations of `pre` succeed and the operation of `d` fails with `e`, the run
on `pre ++ d :: post` is the run of the loop on `pre ++ [d]` alone, it returns `e`,
and the calls it made are the entry marker followed by the operations of `pre` and
of `d` (no operation of `post`, no listing). -/
theorem applyChanges_stops_at_first_failure (c : Component W) (ns : String)
    (pre post : List RuleGroupDiff) (d : RuleGroupDiff) (e : Error)
    (hpre : (applyDiffs (c.log (Call.applyChanges ns)) ns pre).1 = none)
    (hd : (applyDiffs (applyDiffs (c.log (Call.applyChanges ns)) ns pre).2 ns [d]).1 = some e) :
    applyChanges c ns (pre ++ d :: post) = applyDiffs (c.log (Call.applyChanges ns)) ns (pre ++ [d]) ∧
    (applyChanges c ns (pre ++ d :: post)).1 = some e ∧
    (applyChanges c ns (pre ++ d :: post)).2.trace
      = c.trace ++ Call.applyChanges ns :: (pre ++ [d]).filterMap (diffCall ns) := by
  have htr := applyDiffs_ok_trace _ ns pre hpre
  have hs := applyDiffs_single_trace (applyDiffs (c.log (Call.applyChanges ns)) ns pre).2 ns d
  rcases hp : applyDiffs (c.log (Call.applyChanges ns)) ns pre with ⟨r1, c1⟩
  rw [hp] at hpre hd htr hs
  simp only at hpre hd htr hs
  subst hpre
  rcases hq : applyDiffs c1 ns [d] with ⟨r2, c2⟩
  rw [hq] at hd hs
  simp only at hd hs
  subst hd
  have h1 : applyDiffs (c.log (Call.applyChanges ns)) ns (pre ++ [d]) = (some e, c2) := by
    rw [applyDiffs_append, hp]; simp [hq]
  have h2 : applyDiffs (c.log (Call.applyChanges ns)) ns (pre ++ d :: post) = (some e, c2) := by
    rw [applyDiffs_append, hp]; simp only; rw [applyDiffs_cons, hq]
  have h3 : applyChanges c ns (pre ++ d :: post) = (some e, c2) := by
    simp [applyChanges, h2]
  rw [h3, h1]
  refine ⟨rfl, rfl, ?_⟩
  simp only [hs, htr, Component.log]
  cases hc : diffCall ns d <;> simp [List.filterMap_append, hc]

set_option maxRecDepth 100000 in
/-- Witness for C2 as amended: three additions, the second rejected by the store. -/
theorem applyChanges_stops_at_first_failure_witness :
    applyChanges exRejecting "ns"
        ([RuleGroupDiff.add (exGroup "g1")] ++ RuleGroupDiff.add (exGroup "g2") ::
          [RuleGroupDiff.add (exGroup "g3")])
      = applyDiffs (exRejecting.log (Call.applyChanges "ns")) "ns"
          ([RuleGroupDiff.add (exGroup "g1")] ++ [RuleGroupDiff.add (exGroup "g2")]) ∧
    (applyChanges exRejecting "ns"
        ([RuleGroupDiff.add (exGroup "g1")] ++ RuleGroupDiff.add (exGroup "g2") ::
          [RuleGroupDiff.add (exGroup "g3")])).1 = some (Error.leaf "create failed: g2") ∧
    (applyChanges exRejecting "ns"
        ([RuleGroupDiff.add (exGroup "g1")] ++ RuleGroupDiff.add (exGroup "g2") ::
          [RuleGroupDiff.add (exGroup "g3")])).2.trace
      = exRejecting.trace ++ Call.applyChanges "ns" ::
          ([RuleGroupDiff.add (exGroup "g1")] ++ [RuleGroupDiff.add (exGroup "g2")]).filterMap
            (diffCall "ns") :=
  applyChanges_stops_at_first_failure exRejecting "ns" [RuleGroupDiff.add (exGroup "g1")]
    [RuleGroupDiff.add (exGroup "g3")] (RuleGroupDiff.add (exGroup "g2"))
    (Error.leaf "create failed: g2") (by decide) (by decide)

set_option maxRecDepth 100000 in
/-- C2, counterexample: with three additions of which the store rejects the
second, `applyChanges` returns the error of the second, has sent the first, and
never sends the third. -/
theorem applyChanges_third_not_attempted :
    (applyChanges exRejecting "ns" exThreeAdds).1 = some (Error.leaf "create failed: g2") ∧
    Call.CreateRuleGroup "ns" (exGroup "g1") ∈ (applyChanges exRejecting "ns" exThreeAdds).2.trace ∧
    Call.CreateRuleGroup "ns" (exGroup "g2") ∈ (applyChanges exRejecting "ns" exThreeAdds).2.trace ∧
    Call.CreateRuleGroup "ns" (exGroup "g3") ∉ (applyChanges exRejecting "ns" exThreeAdds).2.trace := by
  decide

/-! ### What a reconciliation leaves untouched -/

theorem Reconciles.refl (c : Component W) : Reconciles c c :=
  ⟨rfl, rfl, rfl, rfl, rfl, rfl, rfl, rfl, rfl, rfl, [], by simp, by simp⟩

theorem Reconciles.trans {c1 c2 c3 : Component W} (h12 : Reconciles c1 c2)
    (h23 : Reconciles c2 c3) : Reconciles c1 c3 := by
  obtain ⟨a1, a2, a3, a4, a5, a6, a7, a8, a9, a10, l1, ht1, hp1⟩ := h12
  obtain ⟨b1, b2, b3, b4, b5, b6, b7, b8, b9, b10, l2, ht2, hp2⟩ := h23
  refine ⟨b1.trans a1, b2.trans a2, b3.trans a3, b4.trans a4, b5.trans a5, b6.trans a6,
    b7.trans a7, b8.trans a8, b9.trans a9, b10.trans a10, l1 ++ l2, ?_, ?_⟩
  · rw [ht2, ht1, List.append_assoc]
  · intro x hx
    rcases List.mem_append.mp hx with h | h
    · exact hp1 x h
    · exact hp2 x h

theorem Reconciles.log (c : Component W) (call : Call) (h : call.isReconcileCall = true) :
    Reconciles c (c.log call) :=
  ⟨rfl, rfl, rfl, rfl, rfl, rfl, rfl, rfl, rfl, rfl, [call], rfl, by simpa using h⟩

theorem callListRules_reconciles (c : Component W) : Reconciles c (callListRules c).2 :=
  ⟨rfl, rfl, rfl, rfl, rfl, rfl, rfl, rfl, rfl, rfl, [Call.ListRules ""], rfl,
    by simp [Call.isReconcileCall]⟩

theorem callCreateRuleGroup_reconciles (c : Component W) (ns : String) (g : RuleGroup) :
    Reconciles c (callCreateRuleGroup c ns g).2 :=
  ⟨rfl, rfl, rfl, rfl, rfl, rfl, rfl, rfl, rfl, rfl, [Call.CreateRuleGroup ns g], rfl,
    by simp [Call.isReconcileCall]⟩

theorem callDeleteRuleGroup_reconciles (c : Component W) (ns : String) (name : String) :
    Reconciles c (callDeleteRuleGroup c ns name).2 :=
  ⟨rfl, rfl, rfl, rfl, rfl, rfl, rfl, rfl, rfl, rfl, [Call.DeleteRuleGroup ns name], rfl,
    by simp [Call.isReconcileCall]⟩

theorem syncLoki_reconciles (c : Component W) : Reconciles c (syncLoki c).2 := by
  have h := callListRules_reconciles c
  unfold syncLoki
  rcases hc : callListRules c with ⟨_ | listing, c1⟩
  · rw [hc] at h; exact h
  · rw [hc] at h
    obtain ⟨a1, a2, a3, a4, a5, a6, a7, a8, a9, a10, ht⟩ := h
    exact ⟨a1, a2, a3, a4, a5, a6, a7, a8, a9, a10, ht⟩

theorem applyDiffs_reconciles (c : Component W) (ns : String) (ds : List RuleGroupDiff) :
    Reconciles c (applyDiffs c ns ds).2 := by
  induction ds generalizing c with
  | nil => exact Reconciles.refl c
  | cons d ds ih =>
    simp only [applyDiffs]
    split_ifs
    · have h := callCreateRuleGroup_reconciles c ns d.Desired
      rcases hc : callCreateRuleGroup c ns d.Desired with ⟨_ | e, c1⟩ <;> rw [hc] at h
      · exact h.trans (ih c1)
      · exact h
    · have h := callDeleteRuleGroup_reconciles c ns d.Actual.Name
      rcases hc : callDeleteRuleGroup c ns d.Actual.Name with ⟨_ | e, c1⟩ <;> rw [hc] at h
      · exact h.trans (ih c1)
      · exact h
    · have h := callCreateRuleGroup_reconciles c ns d.Desired
      rcases hc : callCreateRuleGroup c ns d.Desired with ⟨_ | e, c1⟩ <;> rw [hc] at h
      · exact h.trans (ih c1)
      · exact h
    · exact ih c

theorem applyChanges_reconciles (c : Component W) (ns : String) (ds : List RuleGroupDiff) :
    Reconciles c (applyChanges c ns ds).2 := by
  have h0 : Reconciles c (c.log (Call.applyChanges ns)) := Reconciles.log c _ rfl
  simp only [applyChanges]
  split_ifs
  · exact h0
  · have h1 := applyDiffs_reconciles (c.log (Call.applyChanges ns)) ns ds
    rcases hc : applyDiffs (c.log (Call.applyChanges ns)) ns ds with ⟨_ | e, c1⟩ <;> rw [hc] at h1
    · exact h0.trans (h1.trans (syncLoki_reconciles c1))
    · exact h0.trans h1

theorem reconcileLoop_reconciles (c : Component W) (ds : RuleGroupDiffsByNamespace)
    (result : Option Error) : Reconciles c (reconcileLoop c ds result).2 := by
  induction ds generalizing c result with
  | nil => exact Reconciles.refl c
  | cons d ds ih =>
    obtain ⟨ns, diff⟩ := d
    simp only [reconcileLoop]
    have h := applyChanges_reconciles c ns diff
    rcases hc : applyChanges c ns diff with ⟨_ | e, c1⟩ <;> rw [hc] at h
    · exact h.trans (ih c1 _)
    · exact h.trans (ih c1 _)

theorem raisePanic_reconciles {α : Type} (c : Component W) (v : String) :
    Reconciles c (raisePanic c v : Except Error α × Component W).2 :=
  ⟨rfl, rfl, rfl, rfl, rfl, rfl, rfl, rfl, rfl, rfl, [], by simp [raisePanic], by simp⟩

theorem loadNamespaces_reconciles (c : Component W) (nss : List String)
    (desiredState : RuleGroupsByNamespace) :
    Reconciles c (loadNamespaces c nss desiredState).2 := by
  induction nss generalizing c desiredState with
  | nil => exact Reconciles.refl c
  | cons ns nss ih =>
    have h0 : Reconciles c (c.log (Call.ListPrometheusRules ns)) := Reconciles.log c _ rfl
    simp only [loadNamespaces]
    rcases c.ruleLister ns with err | crdState
    · exact h0
    · dsimp only
      rcases loadRules c crdState desiredState with (err | d1) | v
      · exact h0
      · exact h0.trans (ih _ _)
      · exact h0.trans (raisePanic_reconciles _ v)

theorem loadStateFromK8s_reconciles (c : Component W) :
    Reconciles c (loadStateFromK8s c).2 := by
  have h0 : Reconciles c (c.log Call.ListNamespaces) := Reconciles.log c _ rfl
  simp only [loadStateFromK8s]
  rcases c.namespaceLister with err | nss
  · exact h0
  · exact h0.trans (loadNamespaces_reconciles _ _ _)

theorem reconcileState_reconciles (c : Component W) : Reconciles c (reconcileState c).2 := by
  have h := loadStateFromK8s_reconciles c
  simp only [reconcileState]
  rcases hc : loadStateFromK8s c with ⟨err | desired, c1⟩ <;> rw [hc] at h
  · exact h
  · exact h.trans (reconcileLoop_reconciles _ _ _)

theorem processEventBody_reconciles (c : Component W) (e : Event) :
    Reconciles c (processEventBody c e).2 := by
  unfold processEventBody
  split_ifs
  · exact reconcileState_reconciles c
  · have h := syncLoki_reconciles c
    rcases hc : syncLoki c with ⟨_ | err, c1⟩ <;> rw [hc] at h
    · exact h.trans (reconcileState_reconciles c1)
    · exact h
  · exact Reconciles.refl c

theorem Reconciles.count_eq {c1 c2 : Component W} (h : Reconciles c1 c2) (x : Call)
    (hx : x.isReconcileCall = false) : c2.trace.count x = c1.trace.count x := by
  obtain ⟨calls, ht, hp⟩ := h.trace_ext
  rw [ht, List.count_append]
  have : calls.count x = 0 := by
    apply List.count_eq_zero.mpr
    intro hmem
    have := hp x hmem
    rw [hx] at this
    exact Bool.noConfusion this
  omega

/-! ### Panics: only the load of the desired state can raise one -/

theorem syncLoki_panics (c : Component W) : (syncLoki c).2.panics = c.panics := by
  simp only [syncLoki]
  rcases hc : callListRules c with ⟨_ | listing, c1⟩ <;>
    simp [callListRules, Component.log] at hc <;> simp [← hc.2]

theorem applyDiffs_panics (c : Component W) (ns : String) (ds : List RuleGroupDiff) :
    (applyDiffs c ns ds).2.panics = c.panics := by
  induction ds generalizing c with
  | nil => rfl
  | cons d ds ih =>
    have hcreate : ∀ g, (callCreateRuleGroup c ns g).2.panics = c.panics := fun _ => rfl
    have hdelete : ∀ n, (callDeleteRuleGroup c ns n).2.panics = c.panics := fun _ => rfl
    simp only [applyDiffs]
    split_ifs
    · have h := hcreate d.Desired
      rcases hc : callCreateRuleGroup c ns d.Desired with ⟨_ | e, c1⟩ <;> rw [hc] at h
      · exact (ih c1).trans h
      · exact h
    · have h := hdelete d.Actual.Name
      rcases hc : callDeleteRuleGroup c ns d.Actual.Name with ⟨_ | e, c1⟩ <;> rw [hc] at h
      · exact (ih c1).trans h
      · exact h
    · have h := hcreate d.Desired
      rcases hc : callCreateRuleGroup c ns d.Desired with ⟨_ | e, c1⟩ <;> rw [hc] at h
      · exact (ih c1).trans h
      · exact h
    · exact ih c

theorem applyChanges_panics (c : Component W) (ns : String) (ds : List RuleGroupDiff) :
    (applyChanges c ns ds).2.panics = c.panics := by
  simp only [applyChanges]
  split_ifs
  · rfl
  · have h1 := applyDiffs_panics (c.log (Call.applyChanges ns)) ns ds
    rcases hc : applyDiffs (c.log (Call.applyChanges ns)) ns ds with ⟨_ | e, c1⟩ <;> rw [hc] at h1
    · exact (syncLoki_panics c1).trans h1
    · exact h1

theorem reconcileLoop_panics (c : Component W) (ds : RuleGroupDiffsByNamespace)
    (result : Option Error) : (reconcileLoop c ds result).2.panics = c.panics := by
  induction ds generalizing c result with
  | nil => rfl
  | cons d ds ih =>
    obtain ⟨ns, diff⟩ := d
    have h := applyChanges_panics c ns diff
    simp only [reconcileLoop]
    rcases hc : applyChanges c ns diff with ⟨_ | e, c1⟩ <;> rw [hc] at h
    · exact (ih c1 _).trans h
    · exact (ih c1 _).trans h

/-- A load that returns a desired state has not panicked. -/
theorem loadNamespaces_panics_of_ok (c : Component W) (nss : List String)
    (desiredState desired : RuleGroupsByNamespace)
    (h : (loadNamespaces c nss desiredState).1 = Except.ok desired) :
    (loadNamespaces c nss desiredState).2.panics = c.panics := by
  induction nss generalizing c desiredState with
  | nil => rfl
  | cons ns nss ih =>
    simp only [loadNamespaces] at h ⊢
    rcases hr : c.ruleLister ns with err | crdState <;> rw [hr] at h <;> simp only at h ⊢
    · simp at h
    · rcases hl : loadRules c crdState desiredState with (err | d1) | v <;>
        rw [hl] at h <;> simp only at h ⊢
      · simp at h
      · exact ih _ _ h
      · simp [raisePanic] at h

theorem loadStateFromK8s_panics_of_ok (c : Component W) (desired : RuleGroupsByNamespace)
    (h : (loadStateFromK8s c).1 = Except.ok desired) :
    (loadStateFromK8s c).2.panics = c.panics := by
  simp only [loadStateFromK8s] at h ⊢
  rcases hn : c.namespaceLister with err | nss <;> rw [hn] at h <;> simp only at h ⊢
  · simp at h
  · exact loadNamespaces_panics_of_ok _ _ _ _ h

theorem reconcileState_panics_of_ok (c : Component W) (h : (reconcileState c).1 = none) :
    (reconcileState c).2.panics = c.panics := by
  simp only [reconcileState] at h ⊢
  rcases hl : loadStateFromK8s c with ⟨err | desired, c1⟩
  · rw [hl] at h; simp at h
  · have hp := loadStateFromK8s_panics_of_ok c desired (by rw [hl])
    rw [hl] at hp
    exact (reconcileLoop_panics _ _ _).trans hp

/-- A call of `processEvent` that returns nil has not panicked. -/
theorem processEvent_panics_of_ok (c : Component W) (e : Event)
    (h : (processEvent c e).1 = none) : (processEvent c e).2.panics = c.panics := by
  simp only [processEvent, queueDone, Component.log] at h ⊢
  unfold processEventBody at h ⊢
  split_ifs at h ⊢
  · exact reconcileState_panics_of_ok c h
  · have hs := syncLoki_panics c
    rcases hc : syncLoki c with ⟨_ | err, c1⟩ <;> rw [hc] at h hs
    · exact (reconcileState_panics_of_ok c1 h).trans hs
    · simp at h

/-! ### Retry budget of the event loop (C3) -/

theorem processEvent_queue_failures (c : Component W) (e : Event) :
    (processEvent c e).2.queue.failures = c.queue.failures := by
  have h := (processEventBody_reconciles c e).queue_eq
  simp [processEvent, queueDone, Queue.Done, Component.log, h]

theorem processEvent_queue_items (c : Component W) (e : Event) :
    (processEvent c e).2.queue.items = c.queue.items := by
  have h := (processEventBody_reconciles c e).queue_eq
  simp [processEvent, queueDone, Queue.Done, Component.log, h]

theorem processEvent_count_addRateLimited (c : Component W) (e evt : Event) :
    (processEvent c e).2.trace.count (Call.AddRateLimited evt)
      = c.trace.count (Call.AddRateLimited evt) := by
  have h := (processEventBody_reconciles c e).count_eq (Call.AddRateLimited evt) rfl
  simp [processEvent, queueDone, Component.log, List.count_append, h]

theorem eventLoopIter_retry (c : Component W) (evt : Event) (err : Error)
    (hfail : (processEvent (countEvent c evt) evt).1 = some err)
    (hret : (processEvent (countEvent c evt) evt).2.panics = c.panics)
    (hlt : c.queue.NumRequeues evt < 5) :
    (eventLoopIter c evt).trace.count (Call.AddRateLimited evt)
        = c.trace.count (Call.AddRateLimited evt) + 1 ∧
    (eventLoopIter c evt).trace.getLast? = some (Call.AddRateLimited evt) ∧
    (eventLoopIter c evt).queue.NumRequeues evt = c.queue.NumRequeues evt + 1 ∧
    evt ∈ (eventLoopIter c evt).queue.items ∧
    (eventLoopIter c evt).panics = c.panics ∧
    (eventLoopIter c evt).queue.items
      = (if evt ∈ c.queue.items then c.queue.items else c.queue.items ++ [evt]) := by
  have hq := processEvent_queue_failures (countEvent c evt) evt
  have hc := processEvent_count_addRateLimited (countEvent c evt) evt evt
  have hi := processEvent_queue_items (countEvent c evt) evt
  rcases hp : processEvent (countEvent c evt) evt with ⟨r, c1⟩
  rw [hp] at hfail hq hc hret hi
  simp only at hfail hq hc hret hi
  subst hfail
  have hi1 : c1.queue.items = c.queue.items := hi
  have hlt1 : c1.queue.NumRequeues evt < 5 := by
    simpa [Queue.NumRequeues, hq, countEvent] using hlt
  simp only [eventLoopIter, hp, hlt1, if_true, hret, ne_eq, not_true_eq_false, if_false]
  refine ⟨?_, ?_, ?_, ?_, ?_, ?_⟩
  · simp [Component.log, List.count_append, hc, countEvent]
  · simp [Component.log]
  · simp [Component.log, Queue.AddRateLimited, Queue.NumRequeues, hq, countEvent]
  · simp only [Component.log, Queue.AddRateLimited]
    split_ifs with hmem
    · exact hmem
    · simp
  · simp [Component.log, hret]
  · simp [Component.log, Queue.AddRateLimited, hi1]

theorem eventLoopIter_abandon (c : Component W) (evt : Event) (err : Error)
    (hfail : (processEvent (countEvent c evt) evt).1 = some err)
    (hret : (processEvent (countEvent c evt) evt).2.panics = c.panics)
    (hge : ¬ c.queue.NumRequeues evt < 5) :
    (eventLoopIter c evt).trace.count (Call.AddRateLimited evt)
        = c.trace.count (Call.AddRateLimited evt) ∧
    (eventLoopIter c evt).queue.NumRequeues evt = 0 ∧
    (eventLoopIter c evt).health = Health.unhealthy err ∧
    (eventLoopIter c evt).panics = c.panics ∧
    (eventLoopIter c evt).queue.items = c.queue.items ∧
    (eventLoopIter c evt).trace.getLast? = some (Call.Forget evt) := by
  have hq := processEvent_queue_failures (countEvent c evt) evt
  have hc := processEvent_count_addRateLimited (countEvent c evt) evt evt
  have hi := processEvent_queue_items (countEvent c evt) evt
  rcases hp : processEvent (countEvent c evt) evt with ⟨r, c1⟩
  rw [hp] at hfail hq hc hret hi
  simp only at hfail hq hc hret hi
  subst hfail
  have hi1 : c1.queue.items = c.queue.items := hi
  have hge1 : ¬ c1.queue.NumRequeues evt < 5 := by
    simpa [Queue.NumRequeues, hq, countEvent] using hge
  simp only [eventLoopIter, hp, hge1, if_false, hret, ne_eq, not_true_eq_false]
  refine ⟨?_, ?_, ?_, ?_, ?_, ?_⟩
  · simp [Component.log, reportUnhealthy, List.count_append, hc, countEvent]
  · simp [Component.log, Queue.Forget, Queue.NumRequeues]
  · simp [Component.log, reportUnhealthy]
  · simp [Component.log, reportUnhealthy, hret]
  · simp [Component.log, reportUnhealthy, Queue.Forget, hi1]
  · simp [Component.log, reportUnhealthy]

theorem eventLoopIter_success_forgets (c : Component W) (evt : Event)
    (hok : (processEvent (countEvent c evt) evt).1 = none) :
    (eventLoopIter c evt).queue.NumRequeues evt = 0 ∧
    (eventLoopIter c evt).panics = c.panics := by
  have hret := processEvent_panics_of_ok (countEvent c evt) evt hok
  rcases hp : processEvent (countEvent c evt) evt with ⟨r, c1⟩
  rw [hp] at hok hret
  simp only at hok hret
  subst hok
  have hret1 : c1.panics = c.panics := hret
  simp [eventLoopIter, hp, Component.log, Queue.Forget, Queue.NumRequeues, hret1, reportHealthy]

theorem processEvent_unknown_fails (c : Component W) (e : Event)
    (h1 : e.Typ ≠ EventTypeResourceChanged) (h2 : e.Typ ≠ eventTypeSyncLoki) :
    (processEvent c e).1 = some (Error.leaf ("unknown event type: " ++ e.Typ)) := by
  simp [processEvent, processEventBody, h1, h2]

theorem processEvent_unknown_panics (c : Component W) (e : Event)
    (h1 : e.Typ ≠ EventTypeResourceChanged) (h2 : e.Typ ≠ eventTypeSyncLoki) :
    (processEvent c e).2.panics = c.panics := by
  simp [processEvent, processEventBody, h1, h2, queueDone, Component.log]

theorem eventLoop_of_empty (n : Nat) (c : Component W) (h : c.queue.items = []) :
    eventLoop n c = c := by
  cases n with
  | zero => rfl
  | succ n =>
    simp only [eventLoop, Queue.Get, h]
    by_cases hs : c.queue.shuttingDown <;> simp [hs]

theorem eventLoop_one (c : Component W) (evt : Event) (rest : List Event)
    (h : c.queue.items = evt :: rest) :
    eventLoop 1 c = eventLoopIter { c with queue :=
      { c.queue with items := rest, processing := evt :: c.queue.processing } } evt := by
  simp [eventLoop, Queue.Get, h]

/-- As long as no iteration has panicked, running `n + m` iterations is running
`m` iterations after `n`. -/
theorem eventLoop_add (n m : Nat) (c : Component W)
    (h : (eventLoop n c).panics = c.panics) :
    eventLoop (n + m) c = eventLoop m (eventLoop n c) := by
  induction n generalizing c with
  | zero => simp [eventLoop]
  | succ n ih =>
    have hnm : n + 1 + m = (n + m) + 1 := by omega
    rw [hnm]
    rcases hg : c.queue.Get with _ | ⟨evt, shutdown, q⟩
    · have hc : ∀ k, eventLoop k c = c := by
        intro k
        cases k with
        | zero => rfl
        | succ k => simp [eventLoop, hg]
      rw [hc, hc, hc]
    · by_cases hs : shutdown = true
      · have hc : ∀ k, eventLoop k c = c := by
          intro k
          cases k with
          | zero => rfl
          | succ k => simp [eventLoop, hg, hs]
        rw [hc, hc, hc]
      · by_cases hp : (eventLoopIter { c with queue := q } evt).panics = c.panics
        · have e1 : ∀ k, eventLoop (k + 1) c
              = eventLoop k (eventLoopIter { c with queue := q } evt) := by
            intro k
            simp [eventLoop, hg, hs, hp]
          rw [e1 (n + m), e1 n]
          rw [e1 n] at h
          exact ih _ (h.trans hp.symm)
        · have e1 : eventLoop (n + 1) c = eventLoopIter { c with queue := q } evt := by
            simp [eventLoop, hg, hs, hp]
          rw [e1] at h
          exact absurd h hp

/-- The state after `n` iterations of the loop, for an event that is alone in the
queue and fresh, and whose processing fails (by returning an error) each time it
is taken from the queue in the first six iterations. -/
theorem eventLoop_failing_state (c : Component W) (evt : Event)
    (hitems : c.queue.items = [evt])
    (hfresh : c.queue.NumRequeues evt = 0)
    (hfail : ∀ n, n < 6 → ∀ q, (eventLoop n c).queue.Get = some (evt, false, q) →
      (processEvent (countEvent { eventLoop n c with queue := q } evt) evt).1 ≠ none ∧
      (processEvent (countEvent { eventLoop n c with queue := q } evt) evt).2.panics
        = (eventLoop n c).panics)
    (n : Nat) (hn : n ≤ 5) :
    (eventLoop n c).queue.items = [evt] ∧
    (eventLoop n c).queue.NumRequeues evt = n ∧
    (eventLoop n c).trace.count (Call.AddRateLimited evt)
      = c.trace.count (Call.AddRateLimited evt) + n ∧
    (eventLoop n c).panics = c.panics ∧
    (0 < n → (eventLoop n c).trace.getLast? = some (Call.AddRateLimited evt)) := by
  induction n with
  | zero => exact ⟨hitems, hfresh, rfl, rfl, fun h => absurd h (by omega)⟩
  | succ n ih =>
    obtain ⟨i1, i2, i3, i4, _⟩ := ih (by omega)
    have hstep : eventLoop (n + 1) c = eventLoop 1 (eventLoop n c) := eventLoop_add n 1 c i4
    have hget : (eventLoop n c).queue.Get = some (evt, false,
        { (eventLoop n c).queue with
          items := [], processing := evt :: (eventLoop n c).queue.processing }) := by
      simp [Queue.Get, i1]
    obtain ⟨hne, hret⟩ := hfail n (by omega) _ hget
    obtain ⟨err, herr⟩ := Option.ne_none_iff_exists'.mp hne
    rw [hstep, eventLoop_one _ evt [] i1]
    obtain ⟨r1, r2, r3, _, r5, r6⟩ := eventLoopIter_retry _ evt err herr hret
      (by simp only [Queue.NumRequeues] at i2 ⊢; omega)
    refine ⟨?_, ?_, ?_, ?_, fun _ => r2⟩
    · rw [r6]; simp
    · rw [r3]; simp only [Queue.NumRequeues] at i2 ⊢; omega
    · rw [r1]; simp only at i3 ⊢; omega
    · rw [r5]; exact i4

/-- C3: with `NumRequeues(e)` counting the `AddRateLimited(e)` calls since the last
`Forget(e)`: for an event that is alone in the queue and fresh, and whose
processing fails (returns an error) every time `eventLoop` takes it from the
queue, `eventLoop` re-enqueues the event with `AddRateLimited` on its 1st to 5th
failure (after iteration `n` of these the call is the last action, it has been
made `n` times, the counter is `n` and the event is pending again), and abandons
it on its 6th failure: `AddRateLimited` is not called a 6th time, the event is
forgotten and no longer pending, the component is reported unhealthy with the
error, and the loop does not take the event up again. And after any pass of
`eventLoop` in which processing of the event succeeds, its `NumRequeues` is
zero. -/
theorem eventLoop_retry_budget (c : Component W) (evt : Event)
    (hitems : c.queue.items = [evt])
    (hfresh : c.queue.NumRequeues evt = 0)
    (hfail : ∀ n, n < 6 → ∀ q, (eventLoop n c).queue.Get = some (evt, false, q) →
      (processEvent (countEvent { eventLoop n c with queue := q } evt) evt).1 ≠ none ∧
      (processEvent (countEvent { eventLoop n c with queue := q } evt) evt).2.panics
        = (eventLoop n c).panics) :
    (∀ n, n < 5 →
      (eventLoop (n + 1) c).trace.count (Call.AddRateLimited evt)
        = c.trace.count (Call.AddRateLimited evt) + (n + 1) ∧
      (eventLoop (n + 1) c).trace.getLast? = some (Call.AddRateLimited evt) ∧
      (eventLoop (n + 1) c).queue.NumRequeues evt = n + 1 ∧
      (eventLoop (n + 1) c).queue.items = [evt]) ∧
    ((eventLoop 6 c).trace.count (Call.AddRateLimited evt)
        = c.trace.count (Call.AddRateLimited evt) + 5 ∧
      (eventLoop 6 c).trace.getLast? = some (Call.Forget evt) ∧
      (eventLoop 6 c).queue.NumRequeues evt = 0 ∧
      (eventLoop 6 c).queue.items = [] ∧
      (∃ err, (eventLoop 6 c).health = Health.unhealthy err) ∧
      ∀ k, eventLoop (6 + k) c = eventLoop 6 c) ∧
    (∀ (c2 : Component W) (q : Queue), c2.queue.Get = some (evt, false, q) →
      (processEvent (countEvent { c2 with queue := q } evt) evt).1 = none →
      (eventLoop 1 c2).queue.NumRequeues evt = 0) := by
  refine ⟨?_, ?_, ?_⟩
  · intro n hn
    obtain ⟨i1, i2, i3, _, i5⟩ := eventLoop_failing_state c evt hitems hfresh hfail (n + 1)
      (by omega)
    exact ⟨i3, i5 (by omega), i2, i1⟩
  · obtain ⟨i1, i2, i3, i4, _⟩ := eventLoop_failing_state c evt hitems hfresh hfail 5
      (by omega)
    have hstep : eventLoop 6 c = eventLoop 1 (eventLoop 5 c) := eventLoop_add 5 1 c i4
    have hget : (eventLoop 5 c).queue.Get = some (evt, false,
        { (eventLoop 5 c).queue with
          items := [], processing := evt :: (eventLoop 5 c).queue.processing }) := by
      simp [Queue.Get, i1]
    obtain ⟨hne, hret⟩ := hfail 5 (by omega) _ hget
    obtain ⟨err, herr⟩ := Option.ne_none_iff_exists'.mp hne
    obtain ⟨r1, r2, r3, r4, r5, r6⟩ := eventLoopIter_abandon
      { eventLoop 5 c with queue := { (eventLoop 5 c).queue with
          items := [], processing := evt :: (eventLoop 5 c).queue.processing } }
      evt err herr hret (by simp only [Queue.NumRequeues] at i2 ⊢; omega)
    have h6 : eventLoop 6 c = eventLoopIter
        { eventLoop 5 c with queue := { (eventLoop 5 c).queue with
          items := [], processing := evt :: (eventLoop 5 c).queue.processing } } evt := by
      rw [hstep, eventLoop_one _ evt [] i1]
    have hp6 : (eventLoop 6 c).panics = c.panics := by
      rw [h6, r4]; exact i4
    have hi6 : (eventLoop 6 c).queue.items = [] := by
      rw [h6, r5]
    refine ⟨?_, ?_, ?_, hi6, ⟨err, ?_⟩, ?_⟩
    · rw [h6, r1]; exact i3
    · rw [h6]; exact r6
    · rw [h6]; exact r2
    · rw [h6]; exact r3
    · intro k
      rw [eventLoop_add 6 k c hp6]
      exact eventLoop_of_empty k _ hi6
  · intro c2 q hget hok
    have hiter : eventLoop 1 c2 = eventLoopIter { c2 with queue := q } evt := by
      simp [eventLoop, hget]
    rw [hiter]
    exact (eventLoopIter_success_forgets _ evt hok).1

/-- Witness for C3: an event of unknown type, alone in the queue, fails every time
it is processed. -/
theorem eventLoop_retry_budget_witness :
    (∀ n, n < 5 →
      (eventLoop (n + 1) exQueued).trace.count (Call.AddRateLimited exUnknownEvent)
        = exQueued.trace.count (Call.AddRateLimited exUnknownEvent) + (n + 1) ∧
      (eventLoop (n + 1) exQueued).trace.getLast? = some (Call.AddRateLimited exUnknownEvent) ∧
      (eventLoop (n + 1) exQueued).queue.NumRequeues exUnknownEvent = n + 1 ∧
      (eventLoop (n + 1) exQueued).queue.items = [exUnknownEvent]) ∧
    ((eventLoop 6 exQueued).trace.count (Call.AddRateLimited exUnknownEvent)
        = exQueued.trace.count (Call.AddRateLimited exUnknownEvent) + 5 ∧
      (eventLoop 6 exQueued).trace.getLast? = some (Call.Forget exUnknownEvent) ∧
      (eventLoop 6 exQueued).queue.NumRequeues exUnknownEvent = 0 ∧
      (eventLoop 6 exQueued).queue.items = [] ∧
      (∃ err, (eventLoop 6 exQueued).health = Health.unhealthy err) ∧
      ∀ k, eventLoop (6 + k) exQueued = eventLoop 6 exQueued) :=
  ⟨(eventLoop_retry_budget exQueued exUnknownEvent rfl rfl (by
      intro n _ q _
      exact ⟨by
        rw [processEvent_unknown_fails _ _ (by decide) (by decide)]
        exact Option.some_ne_none _,
        processEvent_unknown_panics _ _ (by decide) (by decide)⟩)).1,
    (eventLoop_retry_budget exQueued exUnknownEvent rfl rfl (by
      intro n _ q _
      exact ⟨by
        rw [processEvent_unknown_fails _ _ (by decide) (by decide)]
        exact Option.some_ne_none _,
        processEvent_unknown_panics _ _ (by decide) (by decide)⟩)).2.1⟩

/-! ### The diff of desired against observed state (C4) -/

theorem mapGet_eq_none_of_not_mem {V : Type} (m : List (String × V)) (k : String)
    (h : k ∉ mapKeys m) : mapGet m k = none := by
  induction m with
  | nil => rfl
  | cons e m ih =>
    obtain ⟨k', v⟩ := e
    simp only [mapKeys, List.map_cons, List.mem_cons, not_or] at h
    simp only [mapGet]
    rw [if_neg (fun hk => h.1 hk.symm)]
    exact ih h.2

theorem mapGet_filterMap_keys {V : Type} (g : String → Option V) (ks : List String)
    (k : String) :
    mapGet (ks.filterMap (fun x => (g x).map (fun v => (x, v)))) k
      = if k ∈ ks then g k else none := by
  induction ks with
  | nil => simp [mapGet]
  | cons x ks ih =>
    rw [List.filterMap_cons]
    cases hg : g x with
    | none =>
      simp only [Option.map_none']
      rw [ih]
      by_cases hk : k = x
      · subst hk; simp [hg]
      · simp [hk]
    | some v =>
      simp only [Option.map_some', mapGet]
      by_cases hk : x = k
      · subst hk; simp [hg]
      · rw [if_neg hk, ih]
        have : ¬ k = x := fun h => hk h.symm
        simp [this]

theorem DiffRuleState_get (desired actual : RuleGroupsByNamespace) (ns : String) :
    (mapGet (DiffRuleState desired actual) ns).getD []
      = diffRuleNamespaceState ((mapGet desired ns).getD []) ((mapGet actual ns).getD []) := by
  have hform : DiffRuleState desired actual
      = ((mapKeys desired ++ mapKeys actual).dedup).filterMap (fun x =>
          (if diffRuleNamespaceState ((mapGet desired x).getD []) ((mapGet actual x).getD []) = []
            then none
            else some (diffRuleNamespaceState ((mapGet desired x).getD [])
              ((mapGet actual x).getD []))).map (fun v => (x, v))) := by
    unfold DiffRuleState
    apply List.filterMap_congr
    intro x _
    by_cases h : diffRuleNamespaceState ((mapGet desired x).getD []) ((mapGet actual x).getD []) = []
    · simp [h]
    · simp [h]
  rw [hform, mapGet_filterMap_keys]
  by_cases hmem : ns ∈ (mapKeys desired ++ mapKeys actual).dedup
  · rw [if_pos hmem]
    by_cases h : diffRuleNamespaceState ((mapGet desired ns).getD []) ((mapGet actual ns).getD []) = []
    · simp [h]
    · simp [h]
  · rw [if_neg hmem]
    rw [List.mem_dedup, List.mem_append, not_or] at hmem
    rw [mapGet_eq_none_of_not_mem _ _ hmem.1, mapGet_eq_none_of_not_mem _ _ hmem.2]
    rfl

theorem count_filterMap_of_iff {α β : Type} [DecidableEq α] [DecidableEq β]
    (f : α → Option β) (x : α) (y : β) (h : ∀ z, f z = some y ↔ z = x) (l : List α) :
    (l.filterMap f).count y = l.count x := by
  induction l with
  | nil => rfl
  | cons z l ih =>
    rw [List.filterMap_cons]
    cases hf : f z with
    | none =>
      have hz : ¬ z = x := fun hzx => by
        have := (h z).mpr hzx
        rw [hf] at this
        exact Option.noConfusion this
      simp only
      rw [ih, List.count_cons_of_ne (fun hxz => hz hxz.symm)]
    | some w =>
      simp only
      by_cases hw : w = y
      · subst hw
        have hz : z = x := (h z).mp hf
        subst hz
        simp [ih]
      · have hz : ¬ z = x := fun hzx => by
          have := (h z).mpr hzx
          rw [hf] at this
          exact hw (Option.some.inj this)
        rw [List.count_cons_of_ne (fun hyw => hw hyw.symm), ih,
          List.count_cons_of_ne (fun hxz => hz hxz.symm)]

theorem count_filterMap_eq_zero {α β : Type} [DecidableEq β]
    (f : α → Option β) (y : β) (h : ∀ z, f z ≠ some y) (l : List α) :
    (l.filterMap f).count y = 0 := by
  apply List.count_eq_zero.mpr
  intro hmem
  obtain ⟨z, _, hz⟩ := List.mem_filterMap.mp hmem
  exact h z hz

/-- The entry, if any, that a desired group contributes to the diff of its namespace. -/
theorem diffRuleNamespaceState_eq (desired actual : List RuleGroup) :
    diffRuleNamespaceState desired actual
      = desired.filterMap (fun d =>
          match findGroup actual d.Name with
          | none => some (RuleGroupDiff.add d)
          | some a => if a = d then none else some (RuleGroupDiff.update d a))
        ++ (actual.filterMap (fun a =>
          if (findGroup desired a.Name).isNone then some (RuleGroupDiff.remove a) else none)) := by
  unfold diffRuleNamespaceState
  congr 1
  induction actual with
  | nil => rfl
  | cons a actual ih =>
    by_cases h : (findGroup desired a.Name).isNone = true
    · simp only [List.filter_cons, h, if_true, List.map_cons, List.filterMap_cons]
      rw [ih]
    · simp only [Bool.not_eq_true] at h
      simp only [List.filter_cons, h, List.filterMap_cons, Bool.false_eq_true, if_false]
      rw [ih]

theorem findGroup_name {groups : List RuleGroup} {name : String} {g : RuleGroup}
    (h : findGroup groups name = some g) : g.Name = name ∧ g ∈ groups := by
  unfold findGroup at h
  have h1 := List.find?_some h
  have h2 := List.mem_of_find?_eq_some h
  exact ⟨by simpa using h1, h2⟩

theorem findGroup_ne_none_of_mem {groups : List RuleGroup} {g : RuleGroup} (h : g ∈ groups) :
    findGroup groups g.Name ≠ none := by
  unfold findGroup
  intro hn
  rw [List.find?_eq_none] at hn
  have := hn g h
  simp at this

theorem addEntry_iff (O : List RuleGroup) (d z : RuleGroup) (hd : findGroup O d.Name = none) :
    (match findGroup O z.Name with
      | none => some (RuleGroupDiff.add z)
      | some a => if a = z then none else some (RuleGroupDiff.update z a))
        = some (RuleGroupDiff.add d) ↔ z = d := by
  constructor
  · intro h
    cases hz : findGroup O z.Name with
    | none =>
      rw [hz] at h
      simpa [RuleGroupDiff.add] using h
    | some a =>
      rw [hz] at h
      by_cases haz : a = z
      · simp [haz] at h
      · simp [haz, RuleGroupDiff.add, RuleGroupDiff.update, RuleGroupDiffKindAdd,
          RuleGroupDiffKindUpdate] at h
  · intro h
    subst h
    rw [hd]

theorem updateEntry_iff (O : List RuleGroup) (d a z : RuleGroup)
    (hd : findGroup O d.Name = some a) (hne : a ≠ d) :
    (match findGroup O z.Name with
      | none => some (RuleGroupDiff.add z)
      | some b => if b = z then none else some (RuleGroupDiff.update z b))
        = some (RuleGroupDiff.update d a) ↔ z = d := by
  constructor
  · intro h
    cases hz : findGroup O z.Name with
    | none =>
      rw [hz] at h
      simp [RuleGroupDiff.add, RuleGroupDiff.update, RuleGroupDiffKindAdd,
        RuleGroupDiffKindUpdate] at h
    | some b =>
      rw [hz] at h
      by_cases hbz : b = z
      · simp [hbz] at h
      · simp only [hbz, if_false, Option.some.injEq, RuleGroupDiff.update,
          RuleGroupDiff.mk.injEq, true_and] at h
        exact h.2
  · intro h
    subst h
    rw [hd]
    simp [hne]

theorem removeEntry_iff (D : List RuleGroup) (a z : RuleGroup)
    (ha : findGroup D a.Name = none) :
    (if (findGroup D z.Name).isNone then some (RuleGroupDiff.remove z) else none)
        = some (RuleGroupDiff.remove a) ↔ z = a := by
  constructor
  · intro h
    split_ifs at h
    simpa [RuleGroupDiff.remove] using h
  · intro h
    subst h
    simp [ha]

theorem desiredEntry_not_remove (O : List RuleGroup) (a z : RuleGroup) :
    (match findGroup O z.Name with
      | none => some (RuleGroupDiff.add z)
      | some b => if b = z then none else some (RuleGroupDiff.update z b))
        ≠ some (RuleGroupDiff.remove a) := by
  intro h
  cases hz : findGroup O z.Name with
  | none =>
    rw [hz] at h
    simp [RuleGroupDiff.add, RuleGroupDiff.remove, RuleGroupDiffKindAdd,
      RuleGroupDiffKindRemove] at h
  | some b =>
    rw [hz] at h
    by_cases hbz : b = z
    · simp [hbz] at h
    · simp [hbz, RuleGroupDiff.update, RuleGroupDiff.remove, RuleGroupDiffKindUpdate,
        RuleGroupDiffKindRemove] at h

theorem observedEntry_not_add (D : List RuleGroup) (d z : RuleGroup) :
    (if (findGroup D z.Name).isNone then some (RuleGroupDiff.remove z) else none)
        ≠ some (RuleGroupDiff.add d) := by
  intro h
  split_ifs at h
  simp [RuleGroupDiff.add, RuleGroupDiff.remove, RuleGroupDiffKindAdd,
    RuleGroupDiffKindRemove] at h

theorem observedEntry_not_update (D : List RuleGroup) (d a z : RuleGroup) :
    (if (findGroup D z.Name).isNone then some (RuleGroupDiff.remove z) else none)
        ≠ some (RuleGroupDiff.update d a) := by
  intro h
  split_ifs at h
  simp [RuleGroupDiff.update, RuleGroupDiff.remove, RuleGroupDiffKindUpdate,
    RuleGroupDiffKindRemove] at h

theorem diffRuleNamespaceState_mem (D O : List RuleGroup) (x : RuleGroupDiff)
    (hx : x ∈ diffRuleNamespaceState D O) :
    (∃ d ∈ D, findGroup O d.Name = none ∧ x = RuleGroupDiff.add d) ∨
    (∃ a ∈ O, findGroup D a.Name = none ∧ x = RuleGroupDiff.remove a) ∨
    (∃ d ∈ D, ∃ a, findGroup O d.Name = some a ∧ a ≠ d ∧ x = RuleGroupDiff.update d a) := by
  rw [diffRuleNamespaceState_eq] at hx
  rcases List.mem_append.mp hx with h | h
  · obtain ⟨d, hd, hfd⟩ := List.mem_filterMap.mp h
    cases hfg : findGroup O d.Name with
    | none =>
      rw [hfg] at hfd
      exact Or.inl ⟨d, hd, hfg, (Option.some.inj hfd).symm⟩
    | some a =>
      rw [hfg] at hfd
      by_cases hda : a = d
      · simp [hda] at hfd
      · simp only [hda, if_false] at hfd
        exact Or.inr (Or.inr ⟨d, hd, a, hfg, hda, (Option.some.inj hfd).symm⟩)
  · obtain ⟨a, ha, hfa⟩ := List.mem_filterMap.mp h
    cases hfg : findGroup D a.Name with
    | none =>
      simp only [hfg, Option.isNone_none, if_true] at hfa
      exact Or.inr (Or.inl ⟨a, ha, hfg, (Option.some.inj hfa).symm⟩)
    | some g => simp [hfg] at hfa

/-- C4: for all desired and observed namespace-to-rule-group mappings and every
namespace, with `D` and `O` the desired and observed groups of the namespace
(groups being identified by name), the diff computed by `DiffRuleState` holds for
that namespace: one `Add` per occurrence in `D` of a group whose name is absent
from `O` (exactly one for a group occurring once); one `Remove` per occurrence in
`O` of a group whose name is absent from `D`; one `Update` per occurrence in `D` of
a group whose namesake in `O` has unequal content; no entry at all (no `Add`, no
`Update`, no `Remove`) for a group of `D` whose namesake in `O` has equal content;
and nothing else. -/
theorem DiffRuleState_entries (desired observed : RuleGroupsByNamespace) (ns : String) :
    (∀ d, findGroup ((mapGet observed ns).getD []) d.Name = none →
      ((mapGet (DiffRuleState desired observed) ns).getD []).count (RuleGroupDiff.add d)
        = ((mapGet desired ns).getD []).count d) ∧
    (∀ a, findGroup ((mapGet desired ns).getD []) a.Name = none →
      ((mapGet (DiffRuleState desired observed) ns).getD []).count (RuleGroupDiff.remove a)
        = ((mapGet observed ns).getD []).count a) ∧
    (∀ d a, findGroup ((mapGet observed ns).getD []) d.Name = some a → a ≠ d →
      ((mapGet (DiffRuleState desired observed) ns).getD []).count (RuleGroupDiff.update d a)
        = ((mapGet desired ns).getD []).count d) ∧
    (∀ d, d ∈ (mapGet desired ns).getD [] →
      findGroup ((mapGet observed ns).getD []) d.Name = some d →
      RuleGroupDiff.add d ∉ (mapGet (DiffRuleState desired observed) ns).getD [] ∧
      (∀ a, RuleGroupDiff.update d a ∉ (mapGet (DiffRuleState desired observed) ns).getD []) ∧
      (∀ a, a.Name = d.Name →
        RuleGroupDiff.remove a ∉ (mapGet (DiffRuleState desired observed) ns).getD [])) ∧
    (∀ x ∈ (mapGet (DiffRuleState desired observed) ns).getD [],
      (∃ d ∈ (mapGet desired ns).getD [],
        findGroup ((mapGet observed ns).getD []) d.Name = none ∧ x = RuleGroupDiff.add d) ∨
      (∃ a ∈ (mapGet observed ns).getD [],
        findGroup ((mapGet desired ns).getD []) a.Name = none ∧ x = RuleGroupDiff.remove a) ∨
      (∃ d ∈ (mapGet desired ns).getD [], ∃ a,
        findGroup ((mapGet observed ns).getD []) d.Name = some a ∧ a ≠ d ∧
          x = RuleGroupDiff.update d a)) := by
  rw [DiffRuleState_get]
  generalize (mapGet desired ns).getD [] = D
  generalize (mapGet observed ns).getD [] = O
  refine ⟨?_, ?_, ?_, ?_, diffRuleNamespaceState_mem D O⟩
  · intro d hd
    rw [diffRuleNamespaceState_eq, List.count_append,
      count_filterMap_of_iff _ d _ (fun z => addEntry_iff O d z hd),
      count_filterMap_eq_zero _ _ (fun z => observedEntry_not_add D d z)]
    rfl
  · intro a ha
    rw [diffRuleNamespaceState_eq, List.count_append,
      count_filterMap_eq_zero _ _ (fun z => desiredEntry_not_remove O a z),
      count_filterMap_of_iff _ a _ (fun z => removeEntry_iff D a z ha)]
    omega
  · intro d a hda hne
    rw [diffRuleNamespaceState_eq, List.count_append,
      count_filterMap_of_iff _ d _ (fun z => updateEntry_iff O d a z hda hne),
      count_filterMap_eq_zero _ _ (fun z => observedEntry_not_update D d a z)]
    rfl
  · intro d hdD hsame
    refine ⟨?_, ?_, ?_⟩
    · intro hx
      rcases diffRuleNamespaceState_mem D O _ hx with
        ⟨d2, _, hnone, h⟩ | ⟨a, _, _, h⟩ | ⟨d2, _, a, _, _, h⟩
      · have : d = d2 := by simpa [RuleGroupDiff.add] using h
        subst this
        rw [hsame] at hnone
        exact Option.noConfusion hnone
      · simp [RuleGroupDiff.add, RuleGroupDiff.remove, RuleGroupDiffKindAdd,
          RuleGroupDiffKindRemove] at h
      · simp [RuleGroupDiff.add, RuleGroupDiff.update, RuleGroupDiffKindAdd,
          RuleGroupDiffKindUpdate] at h
    · intro a hx
      rcases diffRuleNamespaceState_mem D O _ hx with
        ⟨d2, _, _, h⟩ | ⟨a2, _, _, h⟩ | ⟨d2, _, a2, hsome, hne, h⟩
      · simp [RuleGroupDiff.add, RuleGroupDiff.update, RuleGroupDiffKindAdd,
          RuleGroupDiffKindUpdate] at h
      · simp [RuleGroupDiff.update, RuleGroupDiff.remove, RuleGroupDiffKindUpdate,
          RuleGroupDiffKindRemove] at h
      · simp only [RuleGroupDiff.update, RuleGroupDiff.mk.injEq, true_and] at h
        obtain ⟨h1, h2⟩ := h
        subst h1 h2
        rw [hsame] at hsome
        exact hne (Option.some.inj hsome).symm
    · intro a hname hx
      rcases diffRuleNamespaceState_mem D O _ hx with
        ⟨d2, _, _, h⟩ | ⟨a2, _, hnone, h⟩ | ⟨d2, _, a2, _, _, h⟩
      · simp [RuleGroupDiff.add, RuleGroupDiff.remove, RuleGroupDiffKindAdd,
          RuleGroupDiffKindRemove] at h
      · have : a = a2 := by simpa [RuleGroupDiff.remove] using h
        subst this
        rw [hname] at hnone
        exact findGroup_ne_none_of_mem hdD hnone
      · simp [RuleGroupDiff.update, RuleGroupDiff.remove, RuleGroupDiffKindUpdate,
          RuleGroupDiffKindRemove] at h

/-- Witness for C4: the example of the specification, desired `[G1, G2]` against
observed `[G2-old]` in namespace `ns-a`. -/
theorem DiffRuleState_entries_witness :
    ((mapGet (DiffRuleState exSpecDesired exSpecObserved) "ns-a").getD []).count
        (RuleGroupDiff.add ⟨"G1", ["x"]⟩)
      = ((mapGet exSpecDesired "ns-a").getD []).count ⟨"G1", ["x"]⟩ :=
  (DiffRuleState_entries exSpecDesired exSpecObserved "ns-a").1 ⟨"G1", ["x"]⟩ (by decide)

/-! ### Convergence of a reconciliation against the store (C5) -/

theorem mapGet_mapSet {V : Type} (m : List (String × V)) (k : String) (v : V) (k2 : String) :
    mapGet (mapSet m k v) k2 = if k2 = k then some v else mapGet m k2 := by
  induction m with
  | nil =>
    simp only [mapSet, mapGet]
    by_cases h : k = k2
    · simp [h]
    · have : ¬ k2 = k := fun h2 => h h2.symm
      simp [h, this]
  | cons e m ih =>
    obtain ⟨k', v'⟩ := e
    simp only [mapSet]
    by_cases hk : k' = k
    · subst hk
      simp only [if_true, mapGet]
      by_cases h : k' = k2
      · simp [h]
      · have : ¬ k2 = k' := fun h2 => h h2.symm
        simp [h, this]
    · simp only [hk, if_false, mapGet, ih]
      by_cases h : k' = k2
      · subst h
        simp [hk]
      · simp [h]

theorem groupsOf_mapSet (m : RuleGroupsByNamespace) (k : String) (v : List RuleGroup)
    (k2 : String) : groupsOf (mapSet m k v) k2 = if k2 = k then v else groupsOf m k2 := by
  unfold groupsOf
  rw [mapGet_mapSet]
  split_ifs <;> rfl

theorem findGroup_map_replace (groups : List RuleGroup) (g : RuleGroup) (n : String) :
    findGroup (groups.map (fun x => if x.Name = g.Name then g else x)) n
      = if n = g.Name then (if (findGroup groups g.Name).isSome then some g else none)
        else findGroup groups n := by
  induction groups with
  | nil => simp [findGroup]
  | cons x groups ih =>
    unfold findGroup at ih ⊢
    by_cases hx : x.Name = g.Name
    · simp only [List.map_cons, hx, if_true, List.find?_cons]
      by_cases hn : n = g.Name
      · subst hn; simp
      · have h1 : ¬ g.Name = n := fun h => hn h.symm
        simp only [h1, decide_False, hn, if_false]
        rw [ih]
        simp [hn]
    · simp only [List.map_cons, hx, if_false, List.find?_cons]
      by_cases hxn : x.Name = n
      · subst hxn
        simp [hx]
      · simp only [hxn, decide_False]
        rw [ih]

theorem findGroup_append_single (groups : List RuleGroup) (g : RuleGroup) (n : String) :
    findGroup (groups ++ [g]) n
      = match findGroup groups n with
        | some x => some x
        | none => if g.Name = n then some g else none := by
  unfold findGroup
  rw [List.find?_append]
  cases h : List.find? (fun x => decide (x.Name = n)) groups with
  | some x => simp
  | none =>
    by_cases hg : g.Name = n
    · simp [hg]
    · simp [hg]

theorem findGroup_upsert (groups : List RuleGroup) (g : RuleGroup) (n : String) :
    findGroup (upsertGroup groups g) n = if n = g.Name then some g else findGroup groups n := by
  unfold upsertGroup
  by_cases h : (findGroup groups g.Name).isSome = true
  · rw [if_pos h, findGroup_map_replace]
    by_cases hn : n = g.Name
    · simp [hn, h]
    · simp [hn]
  · rw [if_neg h, findGroup_append_single]
    simp only [Bool.not_eq_true, Option.not_isSome, Option.isNone_iff_eq_none] at h
    by_cases hn : n = g.Name
    · subst hn
      simp [h]
    · have h1 : ¬ g.Name = n := fun h2 => hn h2.symm
      cases findGroup groups n <;> simp [hn, h1]

theorem findGroup_remove (groups : List RuleGroup) (name n : String) :
    findGroup (removeGroup groups name) n = if n = name then none else findGroup groups n := by
  unfold removeGroup findGroup
  induction groups with
  | nil => simp
  | cons x groups ih =>
    by_cases hx : x.Name = name
    · simp only [List.filter_cons, hx, ne_eq, not_true_eq_false, decide_False,
        Bool.false_eq_true, if_false, ih, List.find?_cons]
      by_cases hn : n = name
      · simp [hn]
      · have : ¬ name = n := fun h => hn h.symm
        simp [hn, this]
    · simp only [List.filter_cons, hx, ne_eq, not_false_eq_true, decide_True, if_true,
        List.find?_cons, ih]
      by_cases hxn : x.Name = n
      · subst hxn
        simp [hx]
      · simp [hxn]

theorem findGroup_applyOp_add (groups : List RuleGroup) (d : RuleGroup) (n : String) :
    findGroup (applyOp groups (RuleGroupDiff.add d)) n
      = if n = d.Name then some d else findGroup groups n := by
  simp [applyOp, RuleGroupDiff.add, findGroup_upsert]

theorem findGroup_applyOp_update (groups : List RuleGroup) (d a : RuleGroup) (n : String) :
    findGroup (applyOp groups (RuleGroupDiff.update d a)) n
      = if n = d.Name then some d else findGroup groups n := by
  simp [applyOp, RuleGroupDiff.update, RuleGroupDiffKindUpdate, RuleGroupDiffKindAdd,
    RuleGroupDiffKindRemove, findGroup_upsert]

theorem findGroup_applyOp_remove (groups : List RuleGroup) (a : RuleGroup) (n : String) :
    findGroup (applyOp groups (RuleGroupDiff.remove a)) n
      = if n = a.Name then none else findGroup groups n := by
  simp [applyOp, RuleGroupDiff.remove, RuleGroupDiffKindAdd, RuleGroupDiffKindRemove,
    findGroup_remove]

theorem findGroup_applyOp (groups : List RuleGroup) (op : RuleGroupDiff) (n : String)
    (hwf : op.WellFormed) :
    findGroup (applyOp groups op) n
      = if n = touchedName op then
          (if op.Kind = RuleGroupDiffKindRemove then none else some op.Desired)
        else findGroup groups n := by
  rcases hwf with ⟨d, rfl⟩ | ⟨a, rfl⟩ | ⟨d, a, rfl⟩
  · rw [findGroup_applyOp_add]
    simp [touchedName, RuleGroupDiff.add, RuleGroupDiffKindAdd, RuleGroupDiffKindRemove]
  · rw [findGroup_applyOp_remove]
    simp [touchedName, RuleGroupDiff.remove]
  · rw [findGroup_applyOp_update]
    simp [touchedName, RuleGroupDiff.update, RuleGroupDiffKindUpdate, RuleGroupDiffKindRemove]

theorem fold_applyOp_find_some (d : RuleGroup) (ops : List RuleGroupDiff)
    (groups : List RuleGroup)
    (hwf : ∀ op ∈ ops, op.WellFormed)
    (hup : ∀ op ∈ ops, touchedName op = d.Name →
      op.Kind ≠ RuleGroupDiffKindRemove ∧ op.Desired = d)
    (hsome : findGroup groups d.Name = some d ∨ ∃ op ∈ ops, touchedName op = d.Name) :
    findGroup (ops.foldl applyOp groups) d.Name = some d := by
  induction ops generalizing groups with
  | nil =>
    rcases hsome with h | ⟨op, hop, _⟩
    · exact h
    · cases hop
  | cons op ops ih =>
    rw [List.foldl_cons]
    apply ih
    · intro x hx; exact hwf x (List.mem_cons_of_mem _ hx)
    · intro x hx; exact hup x (List.mem_cons_of_mem _ hx)
    · by_cases ht : touchedName op = d.Name
      · left
        rw [findGroup_applyOp _ _ _ (hwf op (List.mem_cons_self _ _))]
        obtain ⟨h1, h2⟩ := hup op (List.mem_cons_self _ _) ht
        simp [ht, h1, h2]
      · rcases hsome with h | ⟨x, hx, hxt⟩
        · left
          rw [findGroup_applyOp _ _ _ (hwf op (List.mem_cons_self _ _))]
          have : ¬ d.Name = touchedName op := fun h2 => ht h2.symm
          simp [this, h]
        · right
          rcases List.mem_cons.mp hx with rfl | hx2
          · exact absurd hxt ht
          · exact ⟨x, hx2, hxt⟩

theorem fold_applyOp_find_none (n : String) (ops : List RuleGroupDiff)
    (groups : List RuleGroup)
    (hwf : ∀ op ∈ ops, op.WellFormed)
    (hrm : ∀ op ∈ ops, touchedName op = n → op.Kind = RuleGroupDiffKindRemove)
    (hnone : findGroup groups n = none ∨ ∃ op ∈ ops, touchedName op = n) :
    findGroup (ops.foldl applyOp groups) n = none := by
  induction ops generalizing groups with
  | nil =>
    rcases hnone with h | ⟨op, hop, _⟩
    · exact h
    · cases hop
  | cons op ops ih =>
    rw [List.foldl_cons]
    apply ih
    · intro x hx; exact hwf x (List.mem_cons_of_mem _ hx)
    · intro x hx; exact hrm x (List.mem_cons_of_mem _ hx)
    · by_cases ht : touchedName op = n
      · left
        rw [findGroup_applyOp _ _ _ (hwf op (List.mem_cons_self _ _))]
        have h1 := hrm op (List.mem_cons_self _ _) ht
        simp [ht, h1]
      · rcases hnone with h | ⟨x, hx, hxt⟩
        · left
          rw [findGroup_applyOp _ _ _ (hwf op (List.mem_cons_self _ _))]
          have : ¬ n = touchedName op := fun h2 => ht h2.symm
          simp [this, h]
        · right
          rcases List.mem_cons.mp hx with rfl | hx2
          · exact absurd hxt ht
          · exact ⟨x, hx2, hxt⟩

theorem diffRuleNamespaceState_wellFormed (D O : List RuleGroup) :
    ∀ op ∈ diffRuleNamespaceState D O, op.WellFormed := by
  intro op hop
  rcases diffRuleNamespaceState_mem D O op hop with
    ⟨d, _, _, h⟩ | ⟨a, _, _, h⟩ | ⟨d, _, a, _, _, h⟩
  · exact Or.inl ⟨d, h⟩
  · exact Or.inr (Or.inl ⟨a, h⟩)
  · exact Or.inr (Or.inr ⟨d, a, h⟩)

theorem findGroup_of_mem_nodup {D : List RuleGroup} (hnd : (D.map (fun g => g.Name)).Nodup)
    {d : RuleGroup} (hd : d ∈ D) : findGroup D d.Name = some d := by
  induction D with
  | nil => cases hd
  | cons x D ih =>
    simp only [List.map_cons, List.nodup_cons, List.mem_map, not_exists, not_and] at hnd
    unfold findGroup
    rw [List.find?_cons]
    rcases List.mem_cons.mp hd with rfl | hd2
    · simp
    · have hne : ¬ x.Name = d.Name := fun h => hnd.1 d hd2 h.symm
      simp only [hne, decide_False]
      exact ih hnd.2 hd2

theorem diffRuleNamespaceState_eq_nil (D R : List RuleGroup)
    (hA : ∀ d ∈ D, findGroup R d.Name = some d)
    (hB : ∀ n, findGroup D n = none → findGroup R n = none) :
    diffRuleNamespaceState D R = [] := by
  rw [diffRuleNamespaceState_eq, List.append_eq_nil]
  constructor
  · rw [List.filterMap_eq_nil_iff]
    intro d hd
    rw [hA d hd]
    simp
  · rw [List.filterMap_eq_nil_iff]
    intro r hr
    cases h : findGroup D r.Name with
    | none => exact absurd (hB _ h) (findGroup_ne_none_of_mem hr)
    | some g => simp

/-- Applying the diff of a namespace to the observed groups leaves nothing to diff. -/
theorem diff_after_apply_eq_nil (D O : List RuleGroup)
    (hnd : (D.map (fun g => g.Name)).Nodup) :
    diffRuleNamespaceState D ((diffRuleNamespaceState D O).foldl applyOp O) = [] := by
  have hwf := diffRuleNamespaceState_wellFormed D O
  apply diffRuleNamespaceState_eq_nil
  · intro d hd
    apply fold_applyOp_find_some d _ _ hwf
    · intro op hop ht
      rcases diffRuleNamespaceState_mem D O op hop with
        ⟨d2, hd2, _, rfl⟩ | ⟨a, _, hnone, rfl⟩ | ⟨d2, hd2, a, _, _, rfl⟩
      · have hname : d2.Name = d.Name := by
          simpa [touchedName, RuleGroupDiff.add, RuleGroupDiffKindAdd,
            RuleGroupDiffKindRemove] using ht
        have h1 := findGroup_of_mem_nodup hnd hd
        have h2 := findGroup_of_mem_nodup hnd hd2
        rw [hname, h1] at h2
        have : d = d2 := Option.some.inj h2
        subst this
        simp [RuleGroupDiff.add, RuleGroupDiffKindAdd, RuleGroupDiffKindRemove]
      · have hname : a.Name = d.Name := by
          simpa [touchedName, RuleGroupDiff.remove] using ht
        rw [hname] at hnone
        exact absurd hnone (findGroup_ne_none_of_mem hd)
      · have hname : d2.Name = d.Name := by
          simpa [touchedName, RuleGroupDiff.update, RuleGroupDiffKindUpdate,
            RuleGroupDiffKindRemove] using ht
        have h1 := findGroup_of_mem_nodup hnd hd
        have h2 := findGroup_of_mem_nodup hnd hd2
        rw [hname, h1] at h2
        have : d = d2 := Option.some.inj h2
        subst this
        simp [RuleGroupDiff.update, RuleGroupDiffKindUpdate, RuleGroupDiffKindRemove]
    · cases hO : findGroup O d.Name with
      | none =>
        right
        refine ⟨RuleGroupDiff.add d, ?_, ?_⟩
        · rw [diffRuleNamespaceState_eq]
          apply List.mem_append_left
          exact List.mem_filterMap.mpr ⟨d, hd, by rw [hO]⟩
        · simp [touchedName, RuleGroupDiff.add, RuleGroupDiffKindAdd, RuleGroupDiffKindRemove]
      | some a =>
        by_cases hda : a = d
        · left; rw [hda]
        · right
          refine ⟨RuleGroupDiff.update d a, ?_, ?_⟩
          · rw [diffRuleNamespaceState_eq]
            apply List.mem_append_left
            exact List.mem_filterMap.mpr ⟨d, hd, by rw [hO]; simp [hda]⟩
          · simp [touchedName, RuleGroupDiff.update, RuleGroupDiffKindUpdate,
              RuleGroupDiffKindRemove]
  · intro n hn
    apply fold_applyOp_find_none n _ _ hwf
    · intro op hop ht
      rcases diffRuleNamespaceState_mem D O op hop with
        ⟨d2, hd2, _, rfl⟩ | ⟨a, _, _, rfl⟩ | ⟨d2, hd2, a, _, _, rfl⟩
      · have hname : d2.Name = n := by
          simpa [touchedName, RuleGroupDiff.add, RuleGroupDiffKindAdd,
            RuleGroupDiffKindRemove] using ht
        rw [← hname] at hn
        exact absurd hn (findGroup_ne_none_of_mem hd2)
      · rfl
      · have hname : d2.Name = n := by
          simpa [touchedName, RuleGroupDiff.update, RuleGroupDiffKindUpdate,
            RuleGroupDiffKindRemove] using ht
        rw [← hname] at hn
        exact absurd hn (findGroup_ne_none_of_mem hd2)
    · cases hO : findGroup O n with
      | none => left; rfl
      | some a =>
        right
        obtain ⟨hname, hmem⟩ := findGroup_name hO
        refine ⟨RuleGroupDiff.remove a, ?_, ?_⟩
        · rw [diffRuleNamespaceState_eq]
          apply List.mem_append_right
          exact List.mem_filterMap.mpr ⟨a, hmem, by rw [hname, hn]; rfl⟩
        · simpa [touchedName, RuleGroupDiff.remove] using hname

theorem callCreateRuleGroup_store (c : Component Store) (hok : StoreOk c) (ns : String)
    (g : RuleGroup) :
    (callCreateRuleGroup c ns g).1 = none ∧ StoreOk (callCreateRuleGroup c ns g).2 ∧
    (∀ k, groupsOf (callCreateRuleGroup c ns g).2.remote.groups k
      = if k = ns then upsertGroup (groupsOf c.remote.groups ns) g
        else groupsOf c.remote.groups k) := by
  obtain ⟨h1, h2, h3⟩ := hok
  refine ⟨?_, ⟨?_, ?_, ?_⟩, ?_⟩
  · simp [callCreateRuleGroup, h1, storeClient, h2]
  · simp [callCreateRuleGroup, Component.log, h1]
  · simp [callCreateRuleGroup, h1, storeClient, h2]
  · simp [callCreateRuleGroup, h1, storeClient, h2, h3]
  · intro k
    simp only [callCreateRuleGroup, h1, storeClient, h2, List.not_mem_nil, if_false]
    rw [groupsOf_mapSet]
    rfl

theorem callDeleteRuleGroup_store (c : Component Store) (hok : StoreOk c) (ns : String)
    (name : String) :
    (callDeleteRuleGroup c ns name).1 = none ∧ StoreOk (callDeleteRuleGroup c ns name).2 ∧
    (∀ k, groupsOf (callDeleteRuleGroup c ns name).2.remote.groups k
      = if k = ns then removeGroup (groupsOf c.remote.groups ns) name
        else groupsOf c.remote.groups k) := by
  obtain ⟨h1, h2, h3⟩ := hok
  cases hg : mapGet c.remote.groups ns with
  | none =>
    refine ⟨?_, ⟨?_, ?_, ?_⟩, ?_⟩
    · simp [callDeleteRuleGroup, h1, storeClient, h2, hg]
    · simp [callDeleteRuleGroup, Component.log, h1]
    · simp [callDeleteRuleGroup, h1, storeClient, h2, hg]
    · simp [callDeleteRuleGroup, h1, storeClient, h2, h3, hg]
    · intro k
      simp only [callDeleteRuleGroup, h1, storeClient, h2, List.not_mem_nil, if_false, hg]
      by_cases hk : k = ns
      · subst hk
        simp [groupsOf, hg, removeGroup]
      · simp [hk]
  | some gs =>
    refine ⟨?_, ⟨?_, ?_, ?_⟩, ?_⟩
    · simp [callDeleteRuleGroup, h1, storeClient, h2, hg]
    · simp [callDeleteRuleGroup, Component.log, h1]
    · simp [callDeleteRuleGroup, h1, storeClient, h2, hg]
    · simp [callDeleteRuleGroup, h1, storeClient, h2, h3, hg]
    · intro k
      simp only [callDeleteRuleGroup, h1, storeClient, h2, List.not_mem_nil, if_false, hg]
      rw [groupsOf_mapSet]
      simp [groupsOf, hg]

theorem applyDiffs_store (c : Component Store) (hok : StoreOk c) (ns : String)
    (ds : List RuleGroupDiff) :
    (applyDiffs c ns ds).1 = none ∧ StoreOk (applyDiffs c ns ds).2 ∧
    (∀ k, groupsOf (applyDiffs c ns ds).2.remote.groups k
      = if k = ns then ds.foldl applyOp (groupsOf c.remote.groups ns)
        else groupsOf c.remote.groups k) := by
  induction ds generalizing c with
  | nil => exact ⟨rfl, hok, fun k => by by_cases hk : k = ns <;> simp [applyDiffs, hk]⟩
  | cons d ds ih =>
    simp only [applyDiffs, List.foldl_cons, applyOp]
    split_ifs with hA hR hU
    · obtain ⟨e1, e2, e3⟩ := callCreateRuleGroup_store c hok ns d.Desired
      rcases hc : callCreateRuleGroup c ns d.Desired with ⟨r, c1⟩
      rw [hc] at e1 e2 e3
      simp only at e1 e2 e3
      subst e1
      obtain ⟨i1, i2, i3⟩ := ih c1 e2
      refine ⟨i1, i2, fun k => ?_⟩
      rw [i3 k, e3 ns, e3 k]
      by_cases hk : k = ns <;> simp [hk]
    · obtain ⟨e1, e2, e3⟩ := callDeleteRuleGroup_store c hok ns d.Actual.Name
      rcases hc : callDeleteRuleGroup c ns d.Actual.Name with ⟨r, c1⟩
      rw [hc] at e1 e2 e3
      simp only at e1 e2 e3
      subst e1
      obtain ⟨i1, i2, i3⟩ := ih c1 e2
      refine ⟨i1, i2, fun k => ?_⟩
      rw [i3 k, e3 ns, e3 k]
      by_cases hk : k = ns <;> simp [hk]
    · obtain ⟨e1, e2, e3⟩ := callCreateRuleGroup_store c hok ns d.Desired
      rcases hc : callCreateRuleGroup c ns d.Desired with ⟨r, c1⟩
      rw [hc] at e1 e2 e3
      simp only at e1 e2 e3
      subst e1
      obtain ⟨i1, i2, i3⟩ := ih c1 e2
      refine ⟨i1, i2, fun k => ?_⟩
      rw [i3 k, e3 ns, e3 k]
      by_cases hk : k = ns <;> simp [hk]
    · exact ih c hok

theorem syncLoki_store (c : Component Store) (hok : StoreOk c) :
    (syncLoki c).1 = none ∧ StoreOk (syncLoki c).2 ∧ CacheInSync (syncLoki c).2 ∧
    (syncLoki c).2.remote = c.remote := by
  obtain ⟨h1, h2, h3⟩ := hok
  have hl : c.lokiClient.ListRules c.remote "" = (Except.ok c.remote.groups, c.remote) := by
    simp [h1, storeClient, h3]
  rw [syncLoki_ok c _ _ hl]
  exact ⟨rfl, ⟨h1, h2, h3⟩, rfl, rfl⟩

theorem applyChanges_store (c : Component Store) (hok : StoreOk c) (hsync : CacheInSync c)
    (ns : String) (ds : List RuleGroupDiff) :
    (applyChanges c ns ds).1 = none ∧ StoreOk (applyChanges c ns ds).2 ∧
    CacheInSync (applyChanges c ns ds).2 ∧
    (∀ k, groupsOf (applyChanges c ns ds).2.remote.groups k
      = if k = ns then ds.foldl applyOp (groupsOf c.remote.groups ns)
        else groupsOf c.remote.groups k) := by
  have hok0 : StoreOk (c.log (Call.applyChanges ns)) := ⟨hok.client, hok.rejected, hok.listFails⟩
  simp only [applyChanges]
  split_ifs with hlen
  · have : ds = [] := List.length_eq_zero.mp hlen
    subst this
    exact ⟨rfl, hok0, hsync, fun k => by by_cases hk : k = ns <;> simp [Component.log, hk]⟩
  · obtain ⟨e1, e2, e3⟩ := applyDiffs_store (c.log (Call.applyChanges ns)) hok0 ns ds
    rcases hc : applyDiffs (c.log (Call.applyChanges ns)) ns ds with ⟨r, c1⟩
    rw [hc] at e1 e2 e3
    simp only at e1 e2 e3
    subst e1
    obtain ⟨s1, s2, s3, s4⟩ := syncLoki_store c1 e2
    refine ⟨s1, s2, s3, fun k => ?_⟩
    rw [s4, e3 k]
    rfl

theorem reconcileLoop_store (c : Component Store) (hok : StoreOk c) (hsync : CacheInSync c)
    (diffs : RuleGroupDiffsByNamespace) :
    (reconcileLoop c diffs none).1 = none ∧ StoreOk (reconcileLoop c diffs none).2 ∧
    CacheInSync (reconcileLoop c diffs none).2 ∧
    (∀ k, groupsOf (reconcileLoop c diffs none).2.remote.groups k
      = (opsFor diffs k).foldl applyOp (groupsOf c.remote.groups k)) := by
  induction diffs generalizing c with
  | nil => exact ⟨rfl, hok, hsync, fun k => rfl⟩
  | cons e diffs ih =>
    obtain ⟨ns, diff⟩ := e
    obtain ⟨a1, a2, a3, a4⟩ := applyChanges_store c hok hsync ns diff
    simp only [reconcileLoop]
    rcases hc : applyChanges c ns diff with ⟨r, c1⟩
    rw [hc] at a1 a2 a3 a4
    simp only at a1 a2 a3 a4
    subst a1
    simp only
    obtain ⟨i1, i2, i3, i4⟩ := ih c1 a2 a3
    refine ⟨i1, i2, i3, fun k => ?_⟩
    rw [i4 k, a4 k]
    simp only [opsFor]
    by_cases hk : k = ns
    · subst hk
      simp [List.foldl_append]
    · have : ¬ ns = k := fun h => hk h.symm
      simp [hk, this]

theorem loadNamespaces_state (c : Component W) (nss : List String)
    (desiredState : RuleGroupsByNamespace) :
    (loadNamespaces c nss desiredState).2.remote = c.remote ∧
    (loadNamespaces c nss desiredState).2.currentState = c.currentState := by
  induction nss generalizing c desiredState with
  | nil => exact ⟨rfl, rfl⟩
  | cons ns nss ih =>
    simp only [loadNamespaces]
    rcases c.ruleLister ns with err | crdState
    · exact ⟨rfl, rfl⟩
    · dsimp only
      rcases loadRules c crdState desiredState with (err | d1) | v
      · exact ⟨rfl, rfl⟩
      · exact ih _ _
      · exact ⟨rfl, rfl⟩

theorem loadStateFromK8s_state (c : Component W) :
    (loadStateFromK8s c).2.remote = c.remote ∧
    (loadStateFromK8s c).2.currentState = c.currentState := by
  simp only [loadStateFromK8s]
  rcases c.namespaceLister with err | nss
  · exact ⟨rfl, rfl⟩
  · exact loadNamespaces_state _ _ _

theorem mapGet_some_mem {V : Type} {m : List (String × V)} {k : String} {v : V}
    (h : mapGet m k = some v) : (k, v) ∈ m := by
  induction m with
  | nil => simp [mapGet] at h
  | cons e m ih =>
    obtain ⟨k', v'⟩ := e
    simp only [mapGet] at h
    by_cases hk : k' = k
    · subst hk
      simp only [if_true, Option.some.injEq] at h
      subst h
      exact List.mem_cons_self _ _
    · simp only [hk, if_false] at h
      exact List.mem_cons_of_mem _ (ih h)

theorem opsFor_eq_nil_of_not_mem (diffs : RuleGroupDiffsByNamespace) (k : String)
    (h : k ∉ mapKeys diffs) : opsFor diffs k = [] := by
  induction diffs with
  | nil => rfl
  | cons e diffs ih =>
    obtain ⟨k', ds⟩ := e
    simp only [mapKeys, List.map_cons, List.mem_cons, not_or] at h
    simp only [opsFor]
    rw [if_neg (fun hk => h.1 hk.symm)]
    exact ih h.2

theorem opsFor_of_nodup (diffs : RuleGroupDiffsByNamespace) (k : String)
    (hnd : (mapKeys diffs).Nodup) : opsFor diffs k = (mapGet diffs k).getD [] := by
  induction diffs with
  | nil => rfl
  | cons e diffs ih =>
    obtain ⟨k', ds⟩ := e
    simp only [mapKeys, List.map_cons, List.nodup_cons] at hnd
    simp only [opsFor, mapGet]
    by_cases hk : k' = k
    · subst hk
      simp only [if_true, Option.getD_some]
      rw [opsFor_eq_nil_of_not_mem _ _ hnd.1]
      simp
    · simp only [hk, if_false]
      exact ih hnd.2

theorem mapGet_of_mem_nodup {V : Type} {m : List (String × V)} {k : String} {v : V}
    (hnd : (mapKeys m).Nodup) (h : (k, v) ∈ m) : mapGet m k = some v := by
  induction m with
  | nil => cases h
  | cons e m ih =>
    obtain ⟨k', v'⟩ := e
    simp only [mapKeys, List.map_cons, List.nodup_cons, List.mem_map, not_exists,
      not_and] at hnd
    simp only [mapGet]
    rcases List.mem_cons.mp h with heq | hmem
    · simp only [Prod.mk.injEq] at heq
      simp [heq.1, heq.2]
    · have hne : ¬ k' = k := fun hk => hnd.1 (k, v) hmem hk.symm
      simp only [hne, if_false]
      exact ih hnd.2 hmem

theorem mapKeys_nodup_of_perm {V : Type} {m1 m2 : List (String × V)} (hp : m1.Perm m2)
    (hnd : (mapKeys m2).Nodup) : (mapKeys m1).Nodup := by
  unfold mapKeys at hnd ⊢
  exact (hp.map (fun e => e.1)).nodup_iff.mpr hnd

theorem mapGet_perm {V : Type} {m1 m2 : List (String × V)} (hp : m1.Perm m2)
    (hnd : (mapKeys m2).Nodup) (k : String) : mapGet m1 k = mapGet m2 k := by
  have hnd1 : (mapKeys m1).Nodup := mapKeys_nodup_of_perm hp hnd
  cases h2 : mapGet m2 k with
  | some v => exact mapGet_of_mem_nodup hnd1 (hp.mem_iff.mpr (mapGet_some_mem h2))
  | none =>
    cases h1 : mapGet m1 k with
    | none => rfl
    | some v =>
      have := mapGet_of_mem_nodup hnd (hp.mem_iff.mp (mapGet_some_mem h1))
      rw [h2] at this
      exact Option.noConfusion this

theorem DiffRuleState_keys_nodup (desired actual : RuleGroupsByNamespace) :
    (mapKeys (DiffRuleState desired actual)).Nodup := by
  have hsub : ∀ (ks : List String) (g : String → Option (String × List RuleGroupDiff)),
      (∀ x v, g x = some v → v.1 = x) →
      List.Sublist (mapKeys (ks.filterMap g)) ks := by
    intro ks g hg
    induction ks with
    | nil => exact List.Sublist.slnil
    | cons x ks ih =>
      rw [List.filterMap_cons]
      cases hx : g x with
      | none => exact List.Sublist.cons _ ih
      | some v =>
        simp only [mapKeys, List.map_cons]
        rw [hg x v hx]
        exact List.Sublist.cons₂ _ ih
  unfold DiffRuleState
  apply List.Nodup.sublist (hsub _ _ ?_) (List.nodup_dedup _)
  intro x v hv
  simp only at hv
  split_ifs at hv
  rw [← Option.some.inj hv]

theorem DiffRuleState_eq_nil (desired actual : RuleGroupsByNamespace)
    (h : ∀ ns, diffRuleNamespaceState (groupsOf desired ns) (groupsOf actual ns) = []) :
    DiffRuleState desired actual = [] := by
  unfold DiffRuleState
  rw [List.filterMap_eq_nil_iff]
  intro ns _
  have := h ns
  unfold groupsOf at this
  simp [this]

/-- C5, as amended: with the remote service a namespace-to-groups store behind
`storeClient` in which every call succeeds, if the cache is in sync with the store
when the reconciliation starts, every desired namespace is a managed one, and no
desired namespace holds two groups of the same name, then whatever the order in
which the namespaces of the diff are visited, `reconcileState` returns nil, leaves
the cache in sync with the store, and diffing the same desired state against the
cache (as it stands, or refreshed once more by `syncLoki`) yields the empty diff
set. -/
theorem reconcileState_converges (c : Component Store) (desired : RuleGroupsByNamespace)
    (hok : StoreOk c)
    (hload : (loadStateFromK8s c).1 = Except.ok desired)
    (horder : (c.rangeOrder (DiffRuleState desired c.currentState)).Perm
      (DiffRuleState desired c.currentState))
    (hsync : CacheInSync c)
    (hmanaged : ∀ ns ∈ mapKeys desired, isManagedLokiNamespace c.LokiNameSpacePrefix ns = true)
    (hnames : ∀ e ∈ desired, (e.2.map (fun g => g.Name)).Nodup) :
    (reconcileState c).1 = none ∧
    CacheInSync (reconcileState c).2 ∧
    DiffRuleState desired (reconcileState c).2.currentState = [] ∧
    DiffRuleState desired (syncLoki (reconcileState c).2).2.currentState = [] := by
  have hrec := loadStateFromK8s_reconciles c
  obtain ⟨hrem, hcur⟩ := loadStateFromK8s_state c
  rcases hl : loadStateFromK8s c with ⟨r, c1⟩
  rw [hl] at hload hrec hrem hcur
  simp only at hload hrem hcur
  subst hload
  have hok1 : StoreOk c1 := by
    refine ⟨?_, ?_, ?_⟩
    · rw [hrec.client_eq]; exact hok.client
    · rw [hrem]; exact hok.rejected
    · rw [hrem]; exact hok.listFails
  have hsync1 : CacheInSync c1 := by
    unfold CacheInSync
    rw [hcur, hrem, hrec.pfx_eq]
    exact hsync
  have hstate : reconcileState c
      = reconcileLoop c1 (c1.rangeOrder (DiffRuleState desired c1.currentState)) none := by
    simp [reconcileState, hl]
  rw [hstate, hrec.rangeOrder_eq, hcur]
  obtain ⟨l1, l2, l3, l4⟩ := reconcileLoop_store c1 hok1 hsync1
    (c.rangeOrder (DiffRuleState desired c.currentState))
  have hloopRec := reconcileLoop_reconciles c1
    (c.rangeOrder (DiffRuleState desired c.currentState)) none
  generalize reconcileLoop c1 (c.rangeOrder (DiffRuleState desired c.currentState)) none = res
    at l1 l2 l3 l4 hloopRec
  have hpfx : res.2.LokiNameSpacePrefix = c.LokiNameSpacePrefix := by
    rw [hloopRec.pfx_eq, hrec.pfx_eq]
  -- the groups of every namespace in the final cache leave nothing to diff
  have hkey : ∀ ns, diffRuleNamespaceState (groupsOf desired ns)
      (groupsOf res.2.currentState ns) = [] := by
    intro ns
    have hcache : groupsOf res.2.currentState ns
        = if isManagedLokiNamespace c.LokiNameSpacePrefix ns = true
          then groupsOf res.2.remote.groups ns else [] := by
      unfold groupsOf
      rw [l3, dropUnmanaged_eq_filter, mapGet_filter_key, hpfx]
      split_ifs <;> rfl
    rw [hcache]
    by_cases hm : isManagedLokiNamespace c.LokiNameSpacePrefix ns = true
    · rw [if_pos hm, l4 ns, hrem]
      have hnd := DiffRuleState_keys_nodup desired c.currentState
      have hops : opsFor (c.rangeOrder (DiffRuleState desired c.currentState)) ns
          = diffRuleNamespaceState (groupsOf desired ns) (groupsOf c.remote.groups ns) := by
        rw [opsFor_of_nodup _ _ (mapKeys_nodup_of_perm horder hnd),
          mapGet_perm horder hnd, DiffRuleState_get]
        have : (mapGet c.currentState ns).getD [] = groupsOf c.remote.groups ns := by
          unfold groupsOf
          rw [hsync, dropUnmanaged_eq_filter, mapGet_filter_key, if_pos hm]
        rw [this]
        rfl
      rw [hops]
      apply diff_after_apply_eq_nil
      unfold groupsOf
      cases hg : mapGet desired ns with
      | none => simp
      | some v => exact hnames (ns, v) (mapGet_some_mem hg)
    · rw [if_neg hm]
      have hnot : ns ∉ mapKeys desired := fun hmem => hm (hmanaged ns hmem)
      unfold groupsOf
      rw [mapGet_eq_none_of_not_mem _ _ hnot]
      rfl
  refine ⟨l1, ?_, DiffRuleState_eq_nil _ _ hkey, ?_⟩
  · exact l3
  · obtain ⟨s1, s2, s3, s4⟩ := syncLoki_store res.2 l2
    have hsame : (syncLoki res.2).2.currentState = res.2.currentState := by
      rw [s3, s4, (syncLoki_reconciles res.2).pfx_eq]
      exact l3.symm
    rw [hsame]
    exact DiffRuleState_eq_nil _ _ hkey

set_option maxRecDepth 100000 in
/-- Witness for C5 as amended: the store holds an old `G2`, the resource declares
`G1` and `G2`. -/
theorem reconcileState_converges_witness :
    (reconcileState exConverging).1 = none ∧
    CacheInSync (reconcileState exConverging).2 ∧
    DiffRuleState exDesired (reconcileState exConverging).2.currentState = [] ∧
    DiffRuleState exDesired (syncLoki (reconcileState exConverging).2).2.currentState = [] :=
  reconcileState_converges exConverging exDesired ⟨rfl, rfl, rfl⟩ rfl (List.Perm.refl _)
    (by unfold CacheInSync; decide) (by decide) (by decide)

set_option maxRecDepth 100000 in
/-- C5, counterexample: with the store behind `storeClient` and every remote call
succeeding, the diff of the same desired state against the refreshed cache is not
empty after `reconcileState` (which returns nil) in each of three runs: the cache
was stale (it listed groups the store had lost); the declaring resource has a UID
that is not of UUID shape, so its namespace is filtered out of the cache; the
resource declares two groups of one name with different content. -/
theorem reconcileState_rediff_not_empty :
    ((loadStateFromK8s exStale).1 = Except.ok exDesired ∧
      (reconcileState exStale).1 = none ∧
      DiffRuleState exDesired (syncLoki (reconcileState exStale).2).2.currentState ≠ []) ∧
    ((loadStateFromK8s exOddUID).1 = Except.ok exDesiredOddUID ∧
      (reconcileState exOddUID).1 = none ∧
      DiffRuleState exDesiredOddUID (syncLoki (reconcileState exOddUID).2).2.currentState ≠ []) ∧
    ((loadStateFromK8s exTwice).1 = Except.ok exDesiredTwice ∧
      (reconcileState exTwice).1 = none ∧
      DiffRuleState exDesiredTwice (syncLoki (reconcileState exTwice).2).2.currentState ≠ []) := by
  refine ⟨⟨rfl, ?_, ?_⟩, ⟨rfl, ?_, ?_⟩, ⟨rfl, ?_, ?_⟩⟩ <;> decide

/-! ### The managed-namespace pattern (C6, C7) -/

theorem parseStep_quoted (out : List Node) (c : Char) (rest : List Char) :
    (QuoteMeta [c] ++ rest).foldl parseStep ⟨Mode.normal, out⟩
      = rest.foldl parseStep ⟨Mode.normal, Node.chr (CharClass.lit c) :: out⟩ := by
  by_cases hc : c ∈ specialChars
  · have hb : c ≠ 'b' := by
      intro h; subst h; revert hc; decide
    simp [QuoteMeta, hc, parseStep, hb]
  · have h := hc
    simp only [specialChars, List.mem_cons, List.mem_singleton, not_or, List.not_mem_nil,
      or_false] at h
    obtain ⟨h1, h2, h3, h4, h5, h6, h7, h8, h9, h10, h11, h12, h13, h14⟩ := h
    simp [QuoteMeta, hc, parseStep, h1, h2, h3, h9, h11, h13, h14]

theorem QuoteMeta_cons (c : Char) (s : List Char) :
    QuoteMeta (c :: s) = QuoteMeta [c] ++ QuoteMeta s := by
  by_cases hc : c ∈ specialChars <;> simp [QuoteMeta, hc]

theorem parse_quoted (p : List Char) (out : List Node) (rest : List Char) :
    (QuoteMeta p ++ rest).foldl parseStep ⟨Mode.normal, out⟩
      = rest.foldl parseStep
          ⟨Mode.normal, (p.map (fun c => Node.chr (CharClass.lit c))).reverse ++ out⟩ := by
  induction p generalizing out with
  | nil => simp [QuoteMeta]
  | cons c p ih =>
    rw [QuoteMeta_cons, List.append_assoc, parseStep_quoted, ih]
    simp

theorem parseStep_bad (out : List Node) (c : Char) :
    parseStep ⟨Mode.bad, out⟩ c = ⟨Mode.bad, out⟩ := rfl

theorem parse_bad (s : List Char) (out : List Node) :
    s.foldl parseStep ⟨Mode.bad, out⟩ = ⟨Mode.bad, out⟩ := by
  induction s with
  | nil => rfl
  | cons c s ih => rw [List.foldl_cons, parseStep_bad, ih]

theorem parseStep_frame (m : Mode) (o out : List Node) (c : Char)
    (h : (parseStep ⟨m, o⟩ c).mode ≠ Mode.bad) :
    parseStep ⟨m, o ++ out⟩ c = ⟨(parseStep ⟨m, o⟩ c).mode, (parseStep ⟨m, o⟩ c).out ++ out⟩ := by
  cases m with
  | bad => exact absurd rfl h
  | normal =>
    simp only [parseStep] at h ⊢
    split_ifs at h ⊢
    all_goals first
      | rfl
      | exact absurd rfl h
      | (rcases o with _ | ⟨x, o⟩
         · exact absurd rfl h
         · cases x <;> rfl)
  | escape =>
    simp only [parseStep] at h ⊢
    split_ifs at h ⊢ <;> rfl
  | cls items =>
    simp only [parseStep] at h ⊢
    split_ifs at h ⊢ <;> rfl
  | count digits =>
    by_cases hc : c = '\x7d'
    · rcases o with _ | ⟨x, o⟩
      · simp [parseStep, hc] at h
      · cases x with
        | chr k =>
          by_cases hd : digits = []
          · simp [parseStep, hc, hd] at h
          · simp [parseStep, hc, hd]
        | bol => simp [parseStep, hc] at h
        | eol => simp [parseStep, hc] at h
        | wordb => simp [parseStep, hc] at h
        | plus k => simp [parseStep, hc] at h
    · by_cases hg : c.isDigit = true
      · simp [parseStep, hc, hg]
      · simp [parseStep, hc, hg] at h

theorem parse_frame (s : List Char) (m : Mode) (o out : List Node)
    (h : (s.foldl parseStep ⟨m, o⟩).mode ≠ Mode.bad) :
    s.foldl parseStep ⟨m, o ++ out⟩
      = ⟨(s.foldl parseStep ⟨m, o⟩).mode, (s.foldl parseStep ⟨m, o⟩).out ++ out⟩ := by
  induction s generalizing m o with
  | nil => rfl
  | cons c s ih =>
    rw [List.foldl_cons] at h ⊢
    by_cases hb : (parseStep ⟨m, o⟩ c).mode = Mode.bad
    · have : parseStep ⟨m, o⟩ c = ⟨Mode.bad, (parseStep ⟨m, o⟩ c).out⟩ := by
        rw [← hb]
      rw [this, parse_bad] at h
      exact absurd rfl h
    · rw [List.foldl_cons, parseStep_frame m o out c hb]
      exact ih _ _ h

set_option maxRecDepth 100000 in
theorem parse_tail_closed :
    ("-.+-.+-[0-9a-fA-F]\x7b8\x7d\\b-[0-9a-fA-F]\x7b4\x7d\\b-[0-9a-fA-F]\x7b4\x7d\\b-[0-9a-fA-F]\x7b4\x7d\\b-[0-9a-fA-F]\x7b12\x7d$".toList).foldl
        parseStep ⟨Mode.normal, []⟩
      = ⟨Mode.normal, managedTailNodes.reverse⟩ := by
  decide

theorem parse_tail (out : List Node) :
    ("-.+-.+-[0-9a-fA-F]\x7b8\x7d\\b-[0-9a-fA-F]\x7b4\x7d\\b-[0-9a-fA-F]\x7b4\x7d\\b-[0-9a-fA-F]\x7b4\x7d\\b-[0-9a-fA-F]\x7b12\x7d$".toList).foldl
        parseStep ⟨Mode.normal, out⟩
      = ⟨Mode.normal, managedTailNodes.reverse ++ out⟩ := by
  have h := parse_frame
    ("-.+-.+-[0-9a-fA-F]\x7b8\x7d\\b-[0-9a-fA-F]\x7b4\x7d\\b-[0-9a-fA-F]\x7b4\x7d\\b-[0-9a-fA-F]\x7b4\x7d\\b-[0-9a-fA-F]\x7b12\x7d$".toList)
    Mode.normal [] out
  rw [parse_tail_closed] at h
  simpa using h (by simp)

/-- The managed-namespace pattern compiles for every prefix: to the start anchor,
the characters of the prefix taken literally, and the fixed tail. -/
theorem Compile_managedNamespacePattern (pfx : String) :
    Compile (managedNamespacePattern pfx)
      = some (Node.bol :: (pfx.toList.map (fun c => Node.chr (CharClass.lit c))
          ++ managedTailNodes)) := by
  have hpat : managedNamespacePattern pfx
      = '^' :: (QuoteMeta pfx.toList ++
          "-.+-.+-[0-9a-fA-F]\x7b8\x7d\\b-[0-9a-fA-F]\x7b4\x7d\\b-[0-9a-fA-F]\x7b4\x7d\\b-[0-9a-fA-F]\x7b4\x7d\\b-[0-9a-fA-F]\x7b12\x7d$".toList) := by
    simp [managedNamespacePattern]
  have hstart : parseStep ⟨Mode.normal, []⟩ '^' = ⟨Mode.normal, [Node.bol]⟩ := by decide
  unfold Compile
  simp only [hpat, List.foldl_cons, hstart, parse_quoted, parse_tail]
  simp

theorem searchFrom_bol_nonempty (rest : List Node) (pre s : List Char) (hpre : pre ≠ []) :
    searchFrom (Node.bol :: rest) pre s = false := by
  induction s generalizing pre with
  | nil =>
    cases pre with
    | nil => exact absurd rfl hpre
    | cons x pre => simp [searchFrom, matchHere]
  | cons c s ih =>
    cases pre with
    | nil => exact absurd rfl hpre
    | cons x pre =>
      simp only [searchFrom, matchHere, List.isEmpty_cons, Bool.false_and, Bool.false_or]
      exact ih _ (List.cons_ne_nil _ _)

theorem searchFrom_bol (rest : List Node) (s : List Char) :
    searchFrom (Node.bol :: rest) [] s = matchHere rest [] s := by
  cases s with
  | nil => simp [searchFrom, matchHere]
  | cons c s =>
    simp only [searchFrom, matchHere, List.isEmpty_nil, Bool.true_and]
    rw [searchFrom_bol_nonempty rest [c] s (List.cons_ne_nil _ _)]
    simp

theorem matchHere_chr (k : CharClass) (rest : List Node) (pre s : List Char) :
    matchHere (Node.chr k :: rest) pre s = true
      ↔ ∃ c t, s = c :: t ∧ k.test c = true ∧ matchHere rest (c :: pre) t = true := by
  cases s with
  | nil => simp [matchHere]
  | cons x s =>
    simp only [matchHere, Bool.and_eq_true, List.cons.injEq]
    constructor
    · rintro ⟨h1, h2⟩
      exact ⟨x, s, ⟨rfl, rfl⟩, h1, h2⟩
    · rintro ⟨c, t, ⟨rfl, rfl⟩, h1, h2⟩
      exact ⟨h1, h2⟩

theorem matchHere_lits (p : List Char) (rest : List Node) (pre s : List Char) :
    matchHere (p.map (fun c => Node.chr (CharClass.lit c)) ++ rest) pre s = true
      ↔ ∃ t, s = p ++ t ∧ matchHere rest (p.reverse ++ pre) t = true := by
  induction p generalizing pre s with
  | nil => simp
  | cons c p ih =>
    rw [List.map_cons, List.cons_append, matchHere_chr]
    constructor
    · rintro ⟨x, t, rfl, hx, hm⟩
      have hxc : x = c := by simpa [CharClass.test] using hx
      subst hxc
      obtain ⟨t2, rfl, hm2⟩ := (ih (x :: pre) t).mp hm
      exact ⟨t2, rfl, by simpa using hm2⟩
    · rintro ⟨t, rfl, hm⟩
      refine ⟨c, p ++ t, rfl, by simp [CharClass.test], ?_⟩
      exact (ih (c :: pre) (p ++ t)).mpr ⟨t, rfl, by simpa using hm⟩

theorem plusLoop_iff (k : CharClass) (cont : List Char → List Char → Bool)
    (pre s : List Char) :
    plusLoop k cont pre s = true
      ↔ ∃ a b, a ≠ [] ∧ (∀ x ∈ a, k.test x = true) ∧ s = a ++ b ∧
          cont (a.reverse ++ pre) b = true := by
  induction s generalizing pre with
  | nil =>
    simp only [plusLoop, Bool.false_eq_true, false_iff, not_exists, not_and]
    intro a b ha _ hs
    cases a with
    | nil => exact absurd rfl ha
    | cons x a => simp at hs
  | cons c s ih =>
    simp only [plusLoop, Bool.and_eq_true, Bool.or_eq_true, ih]
    constructor
    · rintro ⟨hc, h | ⟨a, b, _, hall, rfl, hcont⟩⟩
      · exact ⟨[c], s, List.cons_ne_nil _ _, by simpa using hc, rfl, by simpa using h⟩
      · refine ⟨c :: a, b, List.cons_ne_nil _ _, ?_, rfl, ?_⟩
        · intro x hx
          rcases List.mem_cons.mp hx with rfl | hx
          · exact hc
          · exact hall x hx
        · simpa using hcont
    · rintro ⟨a, b, ha, hall, hs, hcont⟩
      cases a with
      | nil => exact absurd rfl ha
      | cons x a =>
        simp only [List.cons_append, List.cons.injEq] at hs
        obtain ⟨rfl, rfl⟩ := hs
        refine ⟨hall c (List.mem_cons_self _ _), ?_⟩
        cases a with
        | nil => left; simpa using hcont
        | cons y a =>
          right
          refine ⟨y :: a, b, List.cons_ne_nil _ _, ?_, rfl, ?_⟩
          · intro z hz
            exact hall z (List.mem_cons_of_mem _ hz)
          · simpa using hcont

theorem matchHere_plus (k : CharClass) (rest : List Node) (pre s : List Char) :
    matchHere (Node.plus k :: rest) pre s = true
      ↔ ∃ a b, a ≠ [] ∧ (∀ x ∈ a, k.test x = true) ∧ s = a ++ b ∧
          matchHere rest (a.reverse ++ pre) b = true := by
  simp only [matchHere]
  exact plusLoop_iff k _ pre s

theorem hexNode_test (c : Char) :
    (CharClass.set [('0', '9'), ('a', 'f'), ('A', 'F')]).test c = isHexDigit c := by
  simp [CharClass.test, isHexDigit, Bool.or_assoc]

theorem matchHere_hexes (n : Nat) (rest : List Node) (pre s : List Char) :
    matchHere (List.replicate n hexNode ++ rest) pre s = true
      ↔ ∃ a t, s = a ++ t ∧ a.length = n ∧ (∀ x ∈ a, isHexDigit x = true) ∧
          matchHere rest (a.reverse ++ pre) t = true := by
  induction n generalizing pre s with
  | zero =>
    simp only [List.replicate_zero, List.nil_append, List.length_eq_zero]
    constructor
    · intro h
      exact ⟨[], s, rfl, rfl, by simp, by simpa using h⟩
    · rintro ⟨a, t, rfl, rfl, _, h⟩
      simpa using h
  | succ n ih =>
    rw [List.replicate_succ, List.cons_append]
    unfold hexNode
    rw [matchHere_chr]
    simp only [hexNode_test]
    constructor
    · rintro ⟨c, t, rfl, hc, hm⟩
      have hm2 := (ih (c :: pre) t).mp (by unfold hexNode; exact hm)
      obtain ⟨a, t2, rfl, hlen, hall, hrest⟩ := hm2
      refine ⟨c :: a, t2, rfl, by simp [hlen], ?_, by simpa using hrest⟩
      intro x hx
      rcases List.mem_cons.mp hx with rfl | hx
      · exact hc
      · exact hall x hx
    · rintro ⟨a, t, rfl, hlen, hall, hrest⟩
      cases a with
      | nil => simp at hlen
      | cons c a =>
        refine ⟨c, a ++ t, rfl, hall c (List.mem_cons_self _ _), ?_⟩
        have := (ih (c :: pre) (a ++ t)).mpr
          ⟨a, t, rfl, by simpa using hlen, fun x hx => hall x (List.mem_cons_of_mem _ hx),
            by simpa using hrest⟩
        unfold hexNode at this
        exact this

theorem isWordChar_of_hex (c : Char) (h : isHexDigit c = true) : isWordChar c = true := by
  simp only [isHexDigit, Bool.or_eq_true, Bool.and_eq_true, decide_eq_true_eq] at h
  simp only [isWordChar, Bool.or_eq_true, Bool.and_eq_true, decide_eq_true_eq]
  have hf : 'f'.toNat ≤ 'z'.toNat := by decide
  have hF : 'F'.toNat ≤ 'Z'.toNat := by decide
  rcases h with (h | h) | h
  · exact Or.inl (Or.inl (Or.inl h))
  · exact Or.inl (Or.inl (Or.inr ⟨h.1, le_trans h.2 hf⟩))
  · exact Or.inl (Or.inr ⟨h.1, le_trans h.2 hF⟩)

theorem matchHere_dash (rest : List Node) (h : Char) (pre s : List Char)
    (hw : isWordChar h = true) :
    matchHere (Node.wordb :: Node.chr (CharClass.lit '-') :: rest) (h :: pre) s = true
      ↔ ∃ t, s = '-' :: t ∧ matchHere rest ('-' :: h :: pre) t = true := by
  cases s with
  | nil => simp [matchHere]
  | cons x s =>
    simp only [matchHere, List.head?_cons, isWordAt, hw, CharClass.test, Bool.and_eq_true,
      decide_eq_true_eq, List.cons.injEq]
    constructor
    · rintro ⟨_, rfl, hm⟩
      exact ⟨s, ⟨rfl, rfl⟩, hm⟩
    · rintro ⟨t, ⟨rfl, rfl⟩, hm⟩
      refine ⟨?_, rfl, hm⟩
      decide

theorem matchHere_hexes_dash (n : Nat) (rest : List Node) (pre s : List Char) :
    matchHere (List.replicate (n + 1) hexNode ++
        Node.wordb :: Node.chr (CharClass.lit '-') :: rest) pre s = true
      ↔ ∃ a t, s = a ++ '-' :: t ∧ a.length = n + 1 ∧ (∀ x ∈ a, isHexDigit x = true) ∧
          matchHere rest ('-' :: (a.reverse ++ pre)) t = true := by
  rw [matchHere_hexes]
  constructor
  · rintro ⟨a, t, rfl, hlen, hall, hm⟩
    have hne : a.reverse ≠ [] := by
      intro h
      have : a = [] := by simpa using h
      subst this
      simp at hlen
    obtain ⟨h, r, hr⟩ := List.exists_cons_of_ne_nil hne
    have hh : h ∈ a := by
      have : h ∈ a.reverse := by rw [hr]; exact List.mem_cons_self _ _
      simpa using this
    rw [hr, List.cons_append, matchHere_dash rest h _ _ (isWordChar_of_hex h (hall h hh))] at hm
    obtain ⟨t2, rfl, hm2⟩ := hm
    refine ⟨a, t2, rfl, hlen, hall, ?_⟩
    rw [hr]
    exact hm2
  · rintro ⟨a, t, rfl, hlen, hall, hm⟩
    have hne : a.reverse ≠ [] := by
      intro h
      have : a = [] := by simpa using h
      subst this
      simp at hlen
    obtain ⟨h, r, hr⟩ := List.exists_cons_of_ne_nil hne
    have hh : h ∈ a := by
      have : h ∈ a.reverse := by rw [hr]; exact List.mem_cons_self _ _
      simpa using this
    refine ⟨a, '-' :: t, rfl, hlen, hall, ?_⟩
    rw [hr, List.cons_append, matchHere_dash rest h _ _ (isWordChar_of_hex h (hall h hh))]
    refine ⟨t, rfl, ?_⟩
    rw [hr] at hm
    exact hm

theorem matchHere_eol (pre s : List Char) :
    matchHere [Node.eol] pre s = true ↔ s = [] := by
  cases s <;> simp [matchHere]

theorem matchHere_uuid (pre s : List Char) :
    matchHere (List.replicate 8 hexNode ++ .wordb :: .chr (.lit '-') ::
      (List.replicate 4 hexNode ++ .wordb :: .chr (.lit '-') ::
        (List.replicate 4 hexNode ++ .wordb :: .chr (.lit '-') ::
          (List.replicate 4 hexNode ++ .wordb :: .chr (.lit '-') ::
            (List.replicate 12 hexNode ++ [.eol]))))) pre s = true ↔ IsUUID s := by
  constructor
  · intro h
    obtain ⟨a, t1, rfl, ha, hha, h1⟩ := (matchHere_hexes_dash 7 _ _ _).mp h
    obtain ⟨b, t2, rfl, hb, hhb, h2⟩ := (matchHere_hexes_dash 3 _ _ _).mp h1
    obtain ⟨c, t3, rfl, hc, hhc, h3⟩ := (matchHere_hexes_dash 3 _ _ _).mp h2
    obtain ⟨d, t4, rfl, hd, hhd, h4⟩ := (matchHere_hexes_dash 3 _ _ _).mp h3
    obtain ⟨e, t5, rfl, he, hhe, h5⟩ := (matchHere_hexes 12 _ _ _).mp h4
    have : t5 = [] := (matchHere_eol _ _).mp h5
    subst this
    exact ⟨a, b, c, d, e, by simp, ha, hb, hc, hd, he, hha, hhb, hhc, hhd, hhe⟩
  · rintro ⟨a, b, c, d, e, rfl, ha, hb, hc, hd, he, hha, hhb, hhc, hhd, hhe⟩
    refine (matchHere_hexes_dash 7 _ _ _).mpr ⟨a, _, rfl, ha, hha, ?_⟩
    refine (matchHere_hexes_dash 3 _ _ _).mpr ⟨b, _, rfl, hb, hhb, ?_⟩
    refine (matchHere_hexes_dash 3 _ _ _).mpr ⟨c, _, rfl, hc, hhc, ?_⟩
    refine (matchHere_hexes_dash 3 _ _ _).mpr ⟨d, _, rfl, hd, hhd, ?_⟩
    refine (matchHere_hexes 12 _ _ _).mpr ⟨e, [], by simp, he, hhe, ?_⟩
    exact (matchHere_eol _ _).mpr rfl

theorem anyNotNL_test (x : Char) : CharClass.anyNotNL.test x = true ↔ x ≠ '\n' := by
  simp [CharClass.test]

theorem matchHere_managedTail (pre s : List Char) :
    matchHere managedTailNodes pre s = true
      ↔ ∃ n m u, s = '-' :: (n ++ '-' :: (m ++ '-' :: u)) ∧
          n ≠ [] ∧ (∀ x ∈ n, x ≠ '\n') ∧ m ≠ [] ∧ (∀ x ∈ m, x ≠ '\n') ∧ IsUUID u := by
  unfold managedTailNodes
  constructor
  · intro h
    obtain ⟨c1, t1, rfl, hc1, h1⟩ := (matchHere_chr _ _ _ _).mp h
    obtain ⟨n, t2, hn, hhn, rfl, h2⟩ := (matchHere_plus _ _ _ _).mp h1
    obtain ⟨c2, t3, rfl, hc2, h3⟩ := (matchHere_chr _ _ _ _).mp h2
    obtain ⟨m, t4, hm, hhm, rfl, h4⟩ := (matchHere_plus _ _ _ _).mp h3
    obtain ⟨c3, t5, rfl, hc3, h5⟩ := (matchHere_chr _ _ _ _).mp h4
    have hu := (matchHere_uuid _ _).mp h5
    have e1 : c1 = '-' := by simpa [CharClass.test] using hc1
    have e2 : c2 = '-' := by simpa [CharClass.test] using hc2
    have e3 : c3 = '-' := by simpa [CharClass.test] using hc3
    subst e1 e2 e3
    exact ⟨n, m, t5, rfl, hn, fun x hx => (anyNotNL_test x).mp (hhn x hx), hm,
      fun x hx => (anyNotNL_test x).mp (hhm x hx), hu⟩
  · rintro ⟨n, m, u, rfl, hn, hhn, hm, hhm, hu⟩
    refine (matchHere_chr _ _ _ _).mpr ⟨'-', _, rfl, by simp [CharClass.test], ?_⟩
    refine (matchHere_plus _ _ _ _).mpr
      ⟨n, _, hn, fun x hx => (anyNotNL_test x).mpr (hhn x hx), rfl, ?_⟩
    refine (matchHere_chr _ _ _ _).mpr ⟨'-', _, rfl, by simp [CharClass.test], ?_⟩
    refine (matchHere_plus _ _ _ _).mpr
      ⟨m, _, hm, fun x hx => (anyNotNL_test x).mpr (hhm x hx), rfl, ?_⟩
    refine (matchHere_chr _ _ _ _).mpr ⟨'-', _, rfl, by simp [CharClass.test], ?_⟩
    exact (matchHere_uuid _ _).mpr hu

/-- The names accepted by `isManagedLokiNamespace`, for every prefix and every
name: the literal prefix, `-`, a non-empty part free of line feeds, `-`, another
such part, `-`, a UUID, and nothing else. -/
theorem isManagedLokiNamespace_iff_shape (pfx ns : String) :
    isManagedLokiNamespace pfx ns = true
      ↔ ∃ n m u : List Char, ns.toList = pfx.toList ++ '-' :: (n ++ '-' :: (m ++ '-' :: u)) ∧
          n ≠ [] ∧ (∀ x ∈ n, x ≠ '\n') ∧ m ≠ [] ∧ (∀ x ∈ m, x ≠ '\n') ∧ IsUUID u := by
  unfold isManagedLokiNamespace
  rw [Compile_managedNamespacePattern]
  simp only [MatchString]
  rw [searchFrom_bol, matchHere_lits]
  constructor
  · rintro ⟨t, ht, hm⟩
    obtain ⟨n, m, u, rfl, h⟩ := (matchHere_managedTail _ _).mp hm
    exact ⟨n, m, u, ht, h⟩
  · rintro ⟨n, m, u, hs, h⟩
    exact ⟨_, hs, (matchHere_managedTail _ _).mpr ⟨n, m, u, rfl, h⟩⟩

theorem toList_ne_nil_of_ne_empty {s : String} (h : s ≠ "") : s.toList ≠ [] := by
  intro hnil
  apply h
  apply String.ext
  simpa using hnil

/-- C6: for every prefix (metacharacters included) and every candidate name that
contains no line break, `isManagedLokiNamespace` accepts the name if and only if
it is the literal prefix, then `-`, then a non-empty namespace part, then `-`,
then a non-empty name part, then `-`, then a UUID of 8-4-4-4-12 hexadecimal
digits, with nothing before or after. -/
theorem isManagedLokiNamespace_iff (pfx name : String) (hnl : '\n' ∉ name.toList) :
    isManagedLokiNamespace pfx name = true
      ↔ ∃ nsPart namePart uuid : String,
          name = pfx ++ "-" ++ nsPart ++ "-" ++ namePart ++ "-" ++ uuid ∧
          nsPart ≠ "" ∧ namePart ≠ "" ∧ IsUUID uuid.toList := by
  rw [isManagedLokiNamespace_iff_shape]
  constructor
  · rintro ⟨n, m, u, hs, hn, _, hm, _, hu⟩
    refine ⟨String.mk n, String.mk m, String.mk u, ?_, ?_, ?_, hu⟩
    · apply String.ext
      simp only [String.toList] at hs
      simp [String.data_append, hs]
    · intro h
      apply hn
      have := congrArg String.toList h
      simpa using this
    · intro h
      apply hm
      have := congrArg String.toList h
      simpa using this
  · rintro ⟨nsPart, namePart, uuid, hs, hn, hm, hu⟩
    have hmem : ∀ x, x ∈ nsPart.toList ∨ x ∈ namePart.toList → x ∈ name.toList := by
      intro x hx
      rw [hs]
      simp only [String.toList, String.data_append, List.mem_append]
      rcases hx with hx | hx
      · exact Or.inl (Or.inl (Or.inl (Or.inl (Or.inr hx))))
      · exact Or.inl (Or.inl (Or.inr hx))
    refine ⟨nsPart.toList, namePart.toList, uuid.toList, ?_, toList_ne_nil_of_ne_empty hn, ?_,
      toList_ne_nil_of_ne_empty hm, ?_, hu⟩
    · rw [hs]
      simp [String.toList, String.data_append]
    · intro x hx hxn
      subst hxn
      exact hnl (hmem _ (Or.inl hx))
    · intro x hx hxn
      subst hxn
      exact hnl (hmem _ (Or.inr hx))

set_option maxRecDepth 100000 in
/-- Witness for C6: a prefix containing metacharacters. -/
theorem isManagedLokiNamespace_iff_witness :
    isManagedLokiNamespace "al.(oy" "al.(oy-ns1-r1-64aab764-c95e-4ee9-a932-cd63ba57e6cf" = true
      ↔ ∃ nsPart namePart uuid : String,
          "al.(oy-ns1-r1-64aab764-c95e-4ee9-a932-cd63ba57e6cf"
            = "al.(oy" ++ "-" ++ nsPart ++ "-" ++ namePart ++ "-" ++ uuid ∧
          nsPart ≠ "" ∧ namePart ≠ "" ∧ IsUUID uuid.toList :=
  isManagedLokiNamespace_iff "al.(oy" "al.(oy-ns1-r1-64aab764-c95e-4ee9-a932-cd63ba57e6cf"
    (by decide)

/-- C7: for every prefix and every rule resource whose namespace and name are
non-empty and free of line breaks and whose UID is a UUID of 8-4-4-4-12
hexadecimal digits, the name produced by `lokiNamespaceForRuleCRD` is accepted by
`isManagedLokiNamespace` with the same prefix. -/
theorem lokiNamespaceForRuleCRD_isManaged (pfx : String) (pr : PrometheusRule)
    (hns : pr.Namespace ≠ "") (hnsNL : '\n' ∉ pr.Namespace.toList)
    (hname : pr.Name ≠ "") (hnameNL : '\n' ∉ pr.Name.toList)
    (huid : IsUUID pr.UID.toList) :
    isManagedLokiNamespace pfx (lokiNamespaceForRuleCRD pfx pr) = true := by
  rw [isManagedLokiNamespace_iff_shape]
  refine ⟨pr.Namespace.toList, pr.Name.toList, pr.UID.toList, ?_,
    toList_ne_nil_of_ne_empty hns, ?_, toList_ne_nil_of_ne_empty hname, ?_, huid⟩
  · simp [lokiNamespaceForRuleCRD, String.toList, String.data_append]
  · intro x hx hxn
    subst hxn
    exact hnsNL hx
  · intro x hx hxn
    subst hxn
    exact hnameNL hx

theorem exRule_uid_isUUID : IsUUID exRule.UID.toList :=
  ⟨"64aab764".toList, "c95e".toList, "4ee9".toList, "a932".toList, "cd63ba57e6cf".toList,
    by decide, by decide, by decide, by decide, by decide, by decide, by decide, by decide,
    by decide, by decide, by decide⟩

/-- Witness for C7: the resource `ns1/r1` under a prefix with metacharacters. -/
theorem lokiNamespaceForRuleCRD_isManaged_witness :
    isManagedLokiNamespace "al.(oy" (lokiNamespaceForRuleCRD "al.(oy" exRule) = true :=
  lokiNamespaceForRuleCRD_isManaged "al.(oy" exRule (by decide) (by decide) (by decide)
    (by decide) exRule_uid_isUUID

/-! ### Uniqueness of the remote namespace names (C8) -/

theorem append_sep_inj (sep : Char) (a b x y : List Char) (ha : sep ∉ a) (hb : sep ∉ b)
    (h : a ++ sep :: x = b ++ sep :: y) : a = b ∧ x = y := by
  induction a generalizing b with
  | nil =>
    cases b with
    | nil => exact ⟨rfl, by simpa using h⟩
    | cons c b =>
      simp only [List.nil_append, List.cons_append, List.cons.injEq] at h
      exact absurd (h.1 ▸ List.mem_cons_self _ _) hb
  | cons c a ih =>
    cases b with
    | nil =>
      simp only [List.nil_append, List.cons_append, List.cons.injEq] at h
      exact absurd (h.1 ▸ List.mem_cons_self _ _) ha
    | cons d b =>
      simp only [List.cons_append, List.cons.injEq] at h
      obtain ⟨rfl, h2⟩ := h
      obtain ⟨r1, r2⟩ := ih b (fun hm => ha (List.mem_cons_of_mem _ hm))
        (fun hm => hb (List.mem_cons_of_mem _ hm)) h2
      exact ⟨by rw [r1], r2⟩

theorem lokiNamespaceForRuleCRD_toList (pfx : String) (pr : PrometheusRule) :
    (lokiNamespaceForRuleCRD pfx pr).toList
      = pfx.toList ++ '-' :: (pr.Namespace.toList ++ '-' :: (pr.Name.toList ++ '-' ::
          pr.UID.toList)) := by
  simp [lokiNamespaceForRuleCRD, String.toList, String.data_append]

/-- Two rule resources get different remote namespace names whenever their UIDs
differ and have the same length, and also whenever they differ in namespace, name
or UID and neither their namespaces nor their names contain `-`. -/
theorem lokiNamespaceForRuleCRD_distinct (pfx : String) (a b : PrometheusRule)
    (h : (a.UID ≠ b.UID ∧ a.UID.length = b.UID.length) ∨
      ((a.Namespace ≠ b.Namespace ∨ a.Name ≠ b.Name ∨ a.UID ≠ b.UID) ∧
        '-' ∉ a.Namespace.toList ∧ '-' ∉ b.Namespace.toList ∧
        '-' ∉ a.Name.toList ∧ '-' ∉ b.Name.toList)) :
    lokiNamespaceForRuleCRD pfx a ≠ lokiNamespaceForRuleCRD pfx b := by
  intro heq
  have hl := congrArg String.toList heq
  rw [lokiNamespaceForRuleCRD_toList, lokiNamespaceForRuleCRD_toList] at hl
  have hl2 := List.append_cancel_left hl
  simp only [List.cons.injEq, true_and] at hl2
  rcases h with ⟨hne, hlen⟩ | ⟨hne, h1, h2, h3, h4⟩
  · have e : (a.Namespace.toList ++ '-' :: (a.Name.toList ++ ['-'])) ++ a.UID.toList
        = (b.Namespace.toList ++ '-' :: (b.Name.toList ++ ['-'])) ++ b.UID.toList := by
      simpa using hl2
    have hlen2 : a.UID.toList.length = b.UID.toList.length := hlen
    have := (List.append_inj' e hlen2).2
    exact hne (String.ext this)
  · obtain ⟨e1, r1⟩ := append_sep_inj '-' _ _ _ _ h1 h2 hl2
    obtain ⟨e2, e3⟩ := append_sep_inj '-' _ _ _ _ h3 h4 r1
    rcases hne with hn | hn | hn
    · exact hn (String.ext e1)
    · exact hn (String.ext e2)
    · exact hn (String.ext e3)

/-- The uniqueness of UIDs is what keeps the names apart: the records `a-b/c` and
`a/b-c`, were they to carry one and the same UID, would get the same name. -/
theorem lokiNamespaceForRuleCRD_collision :
    exCollideA.Namespace ≠ exCollideB.Namespace ∧ exCollideA.Name ≠ exCollideB.Name ∧
    lokiNamespaceForRuleCRD "alloy" exCollideA = lokiNamespaceForRuleCRD "alloy" exCollideB := by
  decide

theorem IsUUID.length_eq {u : List Char} (h : IsUUID u) : u.length = 36 := by
  obtain ⟨a, b, c, d, e, rfl, ha, hb, hc, hd, he, _⟩ := h
  simp only [List.length_append, List.length_cons]
  omega

/-- C8: for a fixed prefix, rule resources as the cluster holds them (the UID of a
resource is a UUID, and two resources that carry the same UID are one and the same
resource) get collision-free names: any two that differ in namespace, name or UID
get different remote namespace names. -/
theorem lokiNamespaceForRuleCRD_collision_free (pfx : String) (a b : PrometheusRule)
    (ha : IsUUID a.UID.toList) (hb : IsUUID b.UID.toList)
    (huniq : a.UID = b.UID → a.Namespace = b.Namespace ∧ a.Name = b.Name)
    (hdiff : a.Namespace ≠ b.Namespace ∨ a.Name ≠ b.Name ∨ a.UID ≠ b.UID) :
    lokiNamespaceForRuleCRD pfx a ≠ lokiNamespaceForRuleCRD pfx b := by
  have hne : a.UID ≠ b.UID := by
    intro heq
    obtain ⟨h1, h2⟩ := huniq heq
    rcases hdiff with h | h | h
    · exact h h1
    · exact h h2
    · exact h heq
  have hlen : a.UID.length = b.UID.length := by
    have h1 : a.UID.toList.length = 36 := ha.length_eq
    have h2 : b.UID.toList.length = 36 := hb.length_eq
    exact h1.trans h2.symm
  exact lokiNamespaceForRuleCRD_distinct pfx a b (Or.inl ⟨hne, hlen⟩)

/-- Witness for C8: the resources `a-b/c` and `a/b-c`, each with a UUID of its
own. -/
theorem lokiNamespaceForRuleCRD_collision_free_witness :
    IsUUID exCollideA.UID.toList ∧ IsUUID exCollideC.UID.toList ∧
    (exCollideA.UID = exCollideC.UID →
      exCollideA.Namespace = exCollideC.Namespace ∧ exCollideA.Name = exCollideC.Name) ∧
    (exCollideA.Namespace ≠ exCollideC.Namespace ∨ exCollideA.Name ≠ exCollideC.Name ∨
      exCollideA.UID ≠ exCollideC.UID) ∧
    lokiNamespaceForRuleCRD "alloy" exCollideA ≠ lokiNamespaceForRuleCRD "alloy" exCollideC :=
  have ha : IsUUID exCollideA.UID.toList :=
    ⟨"64aab764".toList, "c95e".toList, "4ee9".toList, "a932".toList, "cd63ba57e6cf".toList,
      by decide, by decide, by decide, by decide, by decide, by decide, by decide, by decide,
      by decide, by decide, by decide⟩
  have hb : IsUUID exCollideC.UID.toList :=
    ⟨"0f0e0d0c".toList, "c95e".toList, "4ee9".toList, "a932".toList, "cd63ba57e6cf".toList,
      by decide, by decide, by decide, by decide, by decide, by decide, by decide, by decide,
      by decide, by decide, by decide⟩
  ⟨ha, hb, fun h => absurd h (by decide), Or.inl (by decide),
    lokiNamespaceForRuleCRD_collision_free "alloy" exCollideA exCollideC ha hb
      (fun h => absurd h (by decide)) (Or.inl (by decide))⟩

/-! ### Aggregation of the per-namespace errors (C9) and the follow-up sync (C10) -/

theorem syncLoki_trace (c : Component W) :
    (syncLoki c).2.trace = c.trace ++ [Call.ListRules ""] := by
  simp only [syncLoki]
  rcases h : callListRules c with ⟨r, c1⟩
  have ht : c1.trace = c.trace ++ [Call.ListRules ""] := by
    have := congrArg (fun p => p.2.trace) h
    simpa [callListRules, Component.log] using this.symm
  cases r <;> simpa using ht

theorem applyDiffs_trace (c : Component W) (ns : String) (ds : List RuleGroupDiff) :
    ∃ n, (applyDiffs c ns ds).2.trace = c.trace ++ (ds.take n).filterMap (diffCall ns) := by
  induction ds generalizing c with
  | nil => exact ⟨0, by simp [applyDiffs]⟩
  | cons d ds ih =>
    rw [applyDiffs_cons]
    have ht := applyDiffs_single_trace c ns d
    rcases hd : applyDiffs c ns [d] with ⟨_ | e, c1⟩
    · rw [hd] at ht
      simp only at ht ⊢
      obtain ⟨n, hn⟩ := ih c1
      refine ⟨n + 1, ?_⟩
      rw [hn, ht, List.take_succ_cons]
      cases hc : diffCall ns d <;> simp [List.filterMap_cons, hc]
    · rw [hd] at ht
      simp only at ht ⊢
      refine ⟨1, ?_⟩
      rw [ht]
      cases hc : diffCall ns d <;> simp [List.filterMap_cons, hc]

theorem diffCall_not_marker (ns : String) (l : List RuleGroupDiff) :
    (l.filterMap (diffCall ns)).filter Call.isApplyChanges = [] := by
  rw [List.filter_eq_nil_iff]
  intro x hx
  obtain ⟨d, _, hd⟩ := List.mem_filterMap.mp hx
  unfold diffCall at hd
  split_ifs at hd <;> (cases hd; simp [Call.isApplyChanges])

theorem applyChanges_markers (c : Component W) (ns : String) (ds : List RuleGroupDiff) :
    (applyChanges c ns ds).2.trace.filter Call.isApplyChanges
      = c.trace.filter Call.isApplyChanges ++ [Call.applyChanges ns] := by
  simp only [applyChanges]
  split_ifs
  · simp [Component.log, Call.isApplyChanges]
  · obtain ⟨n, hn⟩ := applyDiffs_trace (c.log (Call.applyChanges ns)) ns ds
    rcases hc : applyDiffs (c.log (Call.applyChanges ns)) ns ds with ⟨_ | e, c1⟩
    · rw [hc] at hn
      simp only at hn ⊢
      rw [syncLoki_trace, hn]
      simp [Component.log, List.filter_append, diffCall_not_marker, Call.isApplyChanges]
    · rw [hc] at hn
      simp only at hn ⊢
      rw [hn]
      simp [Component.log, List.filter_append, diffCall_not_marker, Call.isApplyChanges]

theorem reconcileLoop_markers (c : Component W) (diffs : RuleGroupDiffsByNamespace)
    (result : Option Error) :
    (reconcileLoop c diffs result).2.trace.filter Call.isApplyChanges
      = c.trace.filter Call.isApplyChanges ++ diffs.map (fun e => Call.applyChanges e.1) := by
  induction diffs generalizing c result with
  | nil => simp [reconcileLoop]
  | cons e diffs ih =>
    obtain ⟨ns, diff⟩ := e
    have hm := applyChanges_markers c ns diff
    simp only [reconcileLoop]
    rcases hc : applyChanges c ns diff with ⟨_ | err, c1⟩ <;> rw [hc] at hm <;>
      simp only at hm ⊢ <;> rw [ih, hm] <;> simp

theorem reconcileLoop_result (c : Component W) (diffs : RuleGroupDiffsByNamespace)
    (result : Option Error) :
    (reconcileLoop c diffs result).1
      = ((applyResults c diffs).filterMap (fun r => r.2)).foldl
          (fun acc e => some (multierrorAppend acc e)) result := by
  induction diffs generalizing c result with
  | nil => rfl
  | cons e diffs ih =>
    obtain ⟨ns, diff⟩ := e
    simp only [reconcileLoop, applyResults]
    rcases hc : applyChanges c ns diff with ⟨_ | err, c1⟩
    · simp only [List.filterMap_cons]
      exact ih c1 result
    · simp only [List.filterMap_cons, List.foldl_cons]
      exact ih c1 _

theorem multierror_fold (errs : List Error) (es : List String) :
    errs.foldl (fun acc e => some (multierrorAppend acc e)) (some (Error.multi es))
      = some (Error.multi (es ++ (errs.map Error.flat).flatten)) := by
  induction errs generalizing es with
  | nil => simp
  | cons e errs ih =>
    rw [List.foldl_cons]
    have h1 : multierrorAppend (some (Error.multi es)) e = Error.multi (es ++ e.flat) := rfl
    rw [h1, ih]
    simp

theorem multierror_fold_none (errs : List Error) :
    errs.foldl (fun acc e => some (multierrorAppend acc e)) none
      = if errs = [] then none else some (Error.multi (errs.map Error.flat).flatten) := by
  cases errs with
  | nil => rfl
  | cons e errs =>
    rw [List.foldl_cons]
    have h1 : multierrorAppend none e = Error.multi e.flat := rfl
    rw [h1, multierror_fold]
    simp

theorem applyResults_keys (c : Component W) (diffs : RuleGroupDiffsByNamespace) :
    (applyResults c diffs).map (fun r => r.1) = diffs.map (fun e => e.1) := by
  induction diffs generalizing c with
  | nil => rfl
  | cons e diffs ih =>
    obtain ⟨ns, diff⟩ := e
    simp only [applyResults, List.map_cons]
    rw [ih]

theorem loadStateFromK8s_markers (c : Component W) :
    (loadStateFromK8s c).2.trace.filter Call.isApplyChanges
      = c.trace.filter Call.isApplyChanges := by
  have hgen : ∀ (nss : List String) (c : Component W) (d : RuleGroupsByNamespace),
      (loadNamespaces c nss d).2.trace.filter Call.isApplyChanges
        = c.trace.filter Call.isApplyChanges := by
    intro nss
    induction nss with
    | nil => intro c d; rfl
    | cons ns nss ih =>
      intro c d
      simp only [loadNamespaces]
      rcases c.ruleLister ns with err | crdState
      · simp [Component.log, Call.isApplyChanges]
      · dsimp only
        rcases loadRules c crdState d with (err | d1) | v
        · simp [Component.log, Call.isApplyChanges]
        · rw [ih]
          simp [Component.log, Call.isApplyChanges]
        · simp [raisePanic, Component.log, Call.isApplyChanges]
  simp only [loadStateFromK8s]
  rcases c.namespaceLister with err | nss
  · simp [Component.log, Call.isApplyChanges]
  · dsimp only
    rw [hgen]
    simp [Component.log, Call.isApplyChanges]

/-- C9: when the desired state loads successfully, `reconcileState` enters
`applyChanges` once for every namespace of the diff, in the order of the
iteration, whether or not an earlier namespace failed; it returns nil if and only
if every one of these invocations returned nil; and otherwise it returns one
combined error holding, in order, the errors of all the failed namespaces (so
the error of every failed namespace is contained in it). -/
theorem reconcileState_aggregates (c : Component W) (desired : RuleGroupsByNamespace)
    (hload : (loadStateFromK8s c).1 = Except.ok desired) :
    (reconcileState c).2.trace.filter Call.isApplyChanges
      = c.trace.filter Call.isApplyChanges ++
          ((loadStateFromK8s c).2.rangeOrder
            (DiffRuleState desired (loadStateFromK8s c).2.currentState)).map
            (fun e => Call.applyChanges e.1) ∧
    (applyResults (loadStateFromK8s c).2 ((loadStateFromK8s c).2.rangeOrder
        (DiffRuleState desired (loadStateFromK8s c).2.currentState))).map (fun r => r.1)
      = ((loadStateFromK8s c).2.rangeOrder
          (DiffRuleState desired (loadStateFromK8s c).2.currentState)).map (fun e => e.1) ∧
    ((reconcileState c).1 = none ↔
      ∀ r ∈ applyResults (loadStateFromK8s c).2 ((loadStateFromK8s c).2.rangeOrder
        (DiffRuleState desired (loadStateFromK8s c).2.currentState)), r.2 = none) ∧
    (∀ ns err, (ns, some err) ∈ applyResults (loadStateFromK8s c).2
        ((loadStateFromK8s c).2.rangeOrder
          (DiffRuleState desired (loadStateFromK8s c).2.currentState)) →
      ∃ errs, (reconcileState c).1 = some (Error.multi errs) ∧ ∀ m ∈ err.flat, m ∈ errs) ∧
    ((reconcileState c).1 ≠ none →
      (reconcileState c).1 = some (Error.multi
        (((applyResults (loadStateFromK8s c).2 ((loadStateFromK8s c).2.rangeOrder
          (DiffRuleState desired (loadStateFromK8s c).2.currentState))).filterMap
            (fun r => r.2)).map Error.flat).flatten)) := by
  have hmark := loadStateFromK8s_markers c
  rcases hl : loadStateFromK8s c with ⟨r, c1⟩
  rw [hl] at hload hmark
  simp only at hload hmark ⊢
  subst hload
  have hstate : reconcileState c
      = reconcileLoop c1 (c1.rangeOrder (DiffRuleState desired c1.currentState)) none := by
    simp [reconcileState, hl]
  rw [hstate]
  generalize c1.rangeOrder (DiffRuleState desired c1.currentState) = diffs
  have hres := reconcileLoop_result c1 diffs none
  rw [multierror_fold_none] at hres
  refine ⟨?_, applyResults_keys c1 diffs, ?_, ?_, ?_⟩
  · rw [reconcileLoop_markers, hmark]
  · rw [hres]
    constructor
    · intro h r hr
      by_cases hnil : (applyResults c1 diffs).filterMap (fun r => r.2) = []
      · rw [List.filterMap_eq_nil_iff] at hnil
        exact hnil r hr
      · rw [if_neg hnil] at h
        exact Option.noConfusion h
    · intro h
      have hnil : (applyResults c1 diffs).filterMap (fun r => r.2) = [] := by
        rw [List.filterMap_eq_nil_iff]
        exact h
      rw [if_pos hnil]
  · intro ns err hmem
    have hin : err ∈ (applyResults c1 diffs).filterMap (fun r => r.2) :=
      List.mem_filterMap.mpr ⟨(ns, some err), hmem, rfl⟩
    have hnil : (applyResults c1 diffs).filterMap (fun r => r.2) ≠ [] :=
      List.ne_nil_of_mem hin
    rw [hres, if_neg hnil]
    refine ⟨_, rfl, ?_⟩
    intro m hm
    rw [List.mem_flatten]
    exact ⟨err.flat, List.mem_map.mpr ⟨err, hin, rfl⟩, hm⟩
  · intro hne
    rw [hres] at hne ⊢
    by_cases hnil : (applyResults c1 diffs).filterMap (fun r => r.2) = []
    · rw [if_pos hnil] at hne
      exact absurd rfl hne
    · rw [if_neg hnil]

/-- Witness for C9: two namespaces, the first of which fails. -/
theorem reconcileState_aggregates_witness :
    ((reconcileState exTwoNamespaces).1 = none ↔
      ∀ r ∈ applyResults (loadStateFromK8s exTwoNamespaces).2
        ((loadStateFromK8s exTwoNamespaces).2.rangeOrder
          (DiffRuleState exDesiredTwoNamespaces
            (loadStateFromK8s exTwoNamespaces).2.currentState)), r.2 = none) :=
  (reconcileState_aggregates exTwoNamespaces exDesiredTwoNamespaces rfl).2.2.1

theorem applyChanges_of_ok (c : Component W) (ns : String) (diffs : List RuleGroupDiff)
    (hne : diffs ≠ [])
    (hok : (applyDiffs (c.log (Call.applyChanges ns)) ns diffs).1 = none) :
    applyChanges c ns diffs = syncLoki (applyDiffs (c.log (Call.applyChanges ns)) ns diffs).2 := by
  have hlen : ¬ diffs.length = 0 := fun h => hne (List.length_eq_zero.mp h)
  simp only [applyChanges, hlen, if_false]
  rcases hc : applyDiffs (c.log (Call.applyChanges ns)) ns diffs with ⟨r, c1⟩
  rw [hc] at hok
  simp only at hok
  subst hok
  rfl

theorem applyChanges_of_error (c : Component W) (ns : String) (diffs : List RuleGroupDiff)
    (err : Error)
    (herr : (applyDiffs (c.log (Call.applyChanges ns)) ns diffs).1 = some err) :
    applyChanges c ns diffs = applyDiffs (c.log (Call.applyChanges ns)) ns diffs := by
  have hlen : ¬ diffs.length = 0 := by
    intro h
    have : diffs = [] := List.length_eq_zero.mp h
    subst this
    simp [applyDiffs] at herr
  simp only [applyChanges, hlen, if_false]
  rcases hc : applyDiffs (c.log (Call.applyChanges ns)) ns diffs with ⟨r, c1⟩
  rw [hc] at herr
  simp only at herr
  subst herr
  rfl

theorem diffCall_not_listRules (ns : String) (l : List RuleGroupDiff) :
    (l.filterMap (diffCall ns)).count (Call.ListRules "") = 0 := by
  apply List.count_eq_zero.mpr
  intro hx
  obtain ⟨d, _, hd⟩ := List.mem_filterMap.mp hx
  unfold diffCall at hd
  split_ifs at hd <;> cases hd

/-- C10, as amended: for every namespace and every non-empty diff list,
`applyChanges` refreshes the remote state cache by a follow-up sync exactly when
every create and delete operation succeeded: then its result is that of `syncLoki`
run after the operations, the calls it made are the entry marker, the operation of
every diff in order, and one `ListRules`, and a listing returned successfully
replaces the cache by its managed part. When an operation fails, the error is
returned at once, no `ListRules` call is made and the cache is left as it was. -/
theorem applyChanges_syncs_iff_all_succeed (c : Component W) (ns : String)
    (diffs : List RuleGroupDiff) (hne : diffs ≠ []) :
    ((applyDiffs (c.log (Call.applyChanges ns)) ns diffs).1 = none →
      applyChanges c ns diffs = syncLoki (applyDiffs (c.log (Call.applyChanges ns)) ns diffs).2 ∧
      (applyChanges c ns diffs).2.trace
        = c.trace ++ Call.applyChanges ns :: (diffs.filterMap (diffCall ns) ++ [Call.ListRules ""]) ∧
      (∀ listing w,
        c.lokiClient.ListRules (applyDiffs (c.log (Call.applyChanges ns)) ns diffs).2.remote ""
          = (Except.ok listing, w) →
        (applyChanges c ns diffs).1 = none ∧
        (applyChanges c ns diffs).2.currentState
          = listing.filter (fun e => isManagedLokiNamespace c.LokiNameSpacePrefix e.1))) ∧
    (∀ err, (applyDiffs (c.log (Call.applyChanges ns)) ns diffs).1 = some err →
      (applyChanges c ns diffs).1 = some err ∧
      (applyChanges c ns diffs).2.currentState = c.currentState ∧
      (applyChanges c ns diffs).2.trace.count (Call.ListRules "")
        = c.trace.count (Call.ListRules "")) := by
  constructor
  · intro hok
    have hrec := applyDiffs_reconciles (c.log (Call.applyChanges ns)) ns diffs
    rw [applyChanges_of_ok c ns diffs hne hok]
    refine ⟨rfl, ?_, ?_⟩
    · rw [syncLoki_trace, applyDiffs_ok_trace _ ns diffs hok]
      simp [Component.log]
    · intro listing w hl
      have hl2 : (applyDiffs (c.log (Call.applyChanges ns)) ns diffs).2.lokiClient.ListRules
          (applyDiffs (c.log (Call.applyChanges ns)) ns diffs).2.remote "" = (Except.ok listing, w) := by
        rw [hrec.client_eq]
        exact hl
      have hp := hrec.pfx_eq
      rw [syncLoki_ok _ listing w hl2]
      refine ⟨rfl, ?_⟩
      simp only [dropUnmanaged_eq_filter]
      rw [hp]
      rfl
  · intro err herr
    rw [applyChanges_of_error c ns diffs err herr]
    refine ⟨herr, ?_, ?_⟩
    · rw [applyDiffs_currentState]
      rfl
    · obtain ⟨n, hn⟩ := applyDiffs_trace (c.log (Call.applyChanges ns)) ns diffs
      rw [hn]
      simp [Component.log, List.count_append, diffCall_not_listRules]

set_option maxRecDepth 100000 in
/-- Witness for C10 as amended: three additions, the second rejected by the store. -/
theorem applyChanges_syncs_iff_all_succeed_witness :
    (applyChanges exRejecting exManagedNs exThreeAdds).1 = some (Error.leaf "create failed: g2") ∧
    (applyChanges exRejecting exManagedNs exThreeAdds).2.currentState = exRejecting.currentState ∧
    (applyChanges exRejecting exManagedNs exThreeAdds).2.trace.count (Call.ListRules "")
      = exRejecting.trace.count (Call.ListRules "") :=
  (applyChanges_syncs_iff_all_succeed exRejecting exManagedNs exThreeAdds (by decide)).2
    (Error.leaf "create failed: g2") (by decide)

set_option maxRecDepth 100000 in
/-- C10, counterexample: with three additions in a managed namespace of which the
store rejects the second, `applyChanges` makes no `ListRules` call and leaves the
cache empty although the first group has been created in the store. -/
theorem applyChanges_no_sync_after_failure :
    exThreeAdds ≠ [] ∧
    Call.ListRules "" ∉ (applyChanges exRejecting exManagedNs exThreeAdds).2.trace ∧
    (applyChanges exRejecting exManagedNs exThreeAdds).2.remote.groups
      = [(exManagedNs, [exGroup "g1"])] ∧
    (applyChanges exRejecting exManagedNs exThreeAdds).2.currentState = [] ∧
    isManagedLokiNamespace exRejecting.LokiNameSpacePrefix exManagedNs = true := by
  decide

/-! ### Loading the desired state (C11) -/

/-- The parser returns groups for every specification of the listed rules that
the marshaller accepts. -/
theorem convertCRDRuleGroupToRuleGroup_nil (c : Component W) (crd buf : String)
    (hm : c.yamlMarshal crd = Except.ok buf) (hnil : (c.rulefmtParse buf).1 = none) :
    convertCRDRuleGroupToRuleGroup c crd = Outcome.panicked nilDereference := by
  simp [convertCRDRuleGroupToRuleGroup, hm, hnil]

theorem loadRules_returned (c : Component W) (rules : List PrometheusRule)
    (desiredState : RuleGroupsByNamespace)
    (hg : ∀ pr ∈ rules, ∀ buf, c.yamlMarshal pr.Spec = Except.ok buf →
      (c.rulefmtParse buf).1 ≠ none) :
    ∃ r, loadRules c rules desiredState = Outcome.returned r ∧
      ((∃ pr ∈ rules, ∃ err, c.yamlMarshal pr.Spec = Except.error err) → ∃ e, r = Except.error e) ∧
      ((∀ pr ∈ rules, ∃ buf, c.yamlMarshal pr.Spec = Except.ok buf) → ∃ d, r = Except.ok d) := by
  induction rules generalizing desiredState with
  | nil =>
    refine ⟨_, rfl, ?_, fun _ => ⟨_, rfl⟩⟩
    rintro ⟨pr, hpr, _⟩
    cases hpr
  | cons r rules ih =>
    simp only [loadRules, convertCRDRuleGroupToRuleGroup]
    cases hm : c.yamlMarshal r.Spec with
    | error err =>
      refine ⟨_, rfl, fun _ => ⟨_, rfl⟩, ?_⟩
      intro hall
      obtain ⟨buf, hbuf⟩ := hall r (List.mem_cons_self _ _)
      rw [hm] at hbuf
      exact Except.noConfusion hbuf
    | ok buf =>
      simp only
      cases hp : (c.rulefmtParse buf).1 with
      | none => exact absurd hp (hg r (List.mem_cons_self _ _) buf hm)
      | some groups =>
        simp only
        obtain ⟨res, hres, h1, h2⟩ :=
          ih (mapSet desiredState (lokiNamespaceForRuleCRD c.LokiNameSpacePrefix r) groups)
            (fun pr hpr => hg pr (List.mem_cons_of_mem _ hpr))
        refine ⟨res, hres, ?_, ?_⟩
        · rintro ⟨pr, hpr, err, herr⟩
          rcases List.mem_cons.mp hpr with rfl | hmem
          · rw [hm] at herr
            exact Except.noConfusion herr
          · exact h1 ⟨pr, hmem, err, herr⟩
        · intro hall
          exact h2 (fun pr hpr => hall pr (List.mem_cons_of_mem _ hpr))

theorem loadNamespaces_returned (c : Component W) (nss : List String)
    (desiredState : RuleGroupsByNamespace)
    (hg : ∀ ns ∈ nss, ∀ crdState, c.ruleLister ns = Except.ok crdState → ∀ pr ∈ crdState,
      ∀ buf, c.yamlMarshal pr.Spec = Except.ok buf → (c.rulefmtParse buf).1 ≠ none) :
    (loadNamespaces c nss desiredState).2.panics = c.panics ∧
    ((∃ ns ∈ nss, ∃ crdState, c.ruleLister ns = Except.ok crdState ∧
        ∃ pr ∈ crdState, ∃ err, c.yamlMarshal pr.Spec = Except.error err) →
      ∃ e, (loadNamespaces c nss desiredState).1 = Except.error e) ∧
    ((∀ ns ∈ nss, ∃ crdState, c.ruleLister ns = Except.ok crdState ∧
        ∀ pr ∈ crdState, ∃ buf, c.yamlMarshal pr.Spec = Except.ok buf) →
      ∃ d, (loadNamespaces c nss desiredState).1 = Except.ok d) := by
  induction nss generalizing c desiredState with
  | nil =>
    refine ⟨rfl, ?_, fun _ => ⟨_, rfl⟩⟩
    rintro ⟨ns, hns, _⟩
    cases hns
  | cons n nss ih =>
    simp only [loadNamespaces]
    cases hl : c.ruleLister n with
    | error err =>
      refine ⟨rfl, fun _ => ⟨_, rfl⟩, ?_⟩
      intro hall
      obtain ⟨l, hlist, _⟩ := hall n (List.mem_cons_self _ _)
      rw [hl] at hlist
      exact Except.noConfusion hlist
    | ok crdState =>
      simp only
      obtain ⟨r, hr, h1, h2⟩ := loadRules_returned c crdState desiredState
        (hg n (List.mem_cons_self _ _) crdState hl)
      rw [hr]
      cases r with
      | error err =>
        refine ⟨rfl, fun _ => ⟨_, rfl⟩, ?_⟩
        intro hall
        obtain ⟨l, hlist, hm⟩ := hall n (List.mem_cons_self _ _)
        rw [hl] at hlist
        have hcl : crdState = l := Except.ok.inj hlist
        subst hcl
        obtain ⟨d, hd⟩ := h2 hm
        exact Except.noConfusion hd
      | ok d1 =>
        simp only
        obtain ⟨i0, i1, i2⟩ := ih (c.log (Call.ListPrometheusRules n)) d1
          (fun ns hns => hg ns (List.mem_cons_of_mem _ hns))
        refine ⟨i0, ?_, ?_⟩
        · rintro ⟨ns, hns, l, hlist, hpr⟩
          rcases List.mem_cons.mp hns with rfl | hmem
          · rw [hl] at hlist
            have hcl : crdState = l := Except.ok.inj hlist
            subst hcl
            obtain ⟨e, he⟩ := h1 hpr
            exact Except.noConfusion he
          · exact i1 ⟨ns, hmem, l, hlist, hpr⟩
        · intro hall
          exact i2 (fun ns hns => hall ns (List.mem_cons_of_mem _ hns))

theorem loadNamespaces_parser_errors (c c2 : Component W) (report : String → List Error)
    (hp : c2.LokiNameSpacePrefix = c.LokiNameSpacePrefix)
    (hl : c2.ruleLister = c.ruleLister) (hm : c2.yamlMarshal = c.yamlMarshal)
    (hr : c2.rulefmtParse = fun s => ((c.rulefmtParse s).1, report s))
    (nss : List String) (desiredState : RuleGroupsByNamespace) :
    (loadNamespaces c2 nss desiredState).1 = (loadNamespaces c nss desiredState).1 := by
  induction nss generalizing c c2 desiredState with
  | nil => rfl
  | cons n nss ih =>
    have hrules : ∀ rules d, loadRules c2 rules d = loadRules c rules d := by
      intro rules d
      induction rules generalizing d with
      | nil => rfl
      | cons r rules ihr =>
        simp only [loadRules, convertCRDRuleGroupToRuleGroup, hp, hm, hr]
        cases c.yamlMarshal r.Spec with
        | error err => rfl
        | ok buf =>
          simp only
          cases (c.rulefmtParse buf).1 with
          | none => rfl
          | some groups => exact ihr _
    simp only [loadNamespaces, hl, hrules]
    cases c.ruleLister n with
    | error err => rfl
    | ok crdState =>
      simp only
      rcases loadRules c crdState desiredState with (err | d1) | v
      · rfl
      · exact ih (c.log (Call.ListPrometheusRules n)) (c2.log (Call.ListPrometheusRules n))
          hp hl hm hr d1
      · rfl

theorem loadStateFromK8s_parser_errors (c c2 : Component W) (report : String → List Error)
    (hn : c2.namespaceLister = c.namespaceLister)
    (hp : c2.LokiNameSpacePrefix = c.LokiNameSpacePrefix)
    (hl : c2.ruleLister = c.ruleLister) (hm : c2.yamlMarshal = c.yamlMarshal)
    (hr : c2.rulefmtParse = fun s => ((c.rulefmtParse s).1, report s)) :
    (loadStateFromK8s c2).1 = (loadStateFromK8s c).1 := by
  simp only [loadStateFromK8s, hn]
  cases c.namespaceLister with
  | error err => rfl
  | ok nss =>
    exact loadNamespaces_parser_errors (c.log Call.ListNamespaces)
      (c2.log Call.ListNamespaces) report hp hl hm hr nss []

theorem loadStateFromK8s_returned (c : Component W)
    (hgroups : ∀ pr buf, IsListed c pr → c.yamlMarshal pr.Spec = Except.ok buf →
      (c.rulefmtParse buf).1 ≠ none) :
    (loadStateFromK8s c).2.panics = c.panics ∧
    (∀ pr err, IsListed c pr → c.yamlMarshal pr.Spec = Except.error err →
      ∃ e, (loadStateFromK8s c).1 = Except.error e) ∧
    ((∃ nss, c.namespaceLister = Except.ok nss ∧
        ∀ ns ∈ nss, ∃ crdState, c.ruleLister ns = Except.ok crdState ∧
          ∀ pr ∈ crdState, ∃ buf, c.yamlMarshal pr.Spec = Except.ok buf) →
      ∃ desired, (loadStateFromK8s c).1 = Except.ok desired) := by
  unfold IsListed at hgroups
  simp only [loadStateFromK8s]
  cases hn : c.namespaceLister with
  | error err =>
    refine ⟨rfl, ?_, ?_⟩
    · rintro pr err ⟨nss, ns, crdState, hn2, _⟩ _
      rw [hn] at hn2
      exact Except.noConfusion hn2
    · rintro ⟨nss, hn2, _⟩
      exact Except.noConfusion hn2
  | ok nss =>
    simp only
    obtain ⟨i0, i1, i2⟩ := loadNamespaces_returned (c.log Call.ListNamespaces) nss []
      (fun ns hns crdState hl pr hpr buf hm =>
        hgroups pr buf ⟨nss, ns, crdState, hn, hns, hl, hpr⟩ hm)
    refine ⟨i0, ?_, ?_⟩
    · rintro pr err ⟨nss2, ns, crdState, hn2, hns, hl, hpr⟩ hm
      rw [hn] at hn2
      have hnss : nss = nss2 := Except.ok.inj hn2
      subst hnss
      exact i1 ⟨ns, hns, crdState, hl, pr, hpr, err, hm⟩
    · rintro ⟨nss2, hn2, hall⟩
      have hnss : nss = nss2 := Except.ok.inj hn2
      subst hnss
      exact i2 hall

/-- C11, as amended: for a parser that returns groups for every specification of
a listed resource that the marshaller accepts: if the marshalling step of
`convertCRDRuleGroupToRuleGroup` fails for a listed resource, `loadStateFromK8s`
returns an error and no desired state; the errors that the parser reports along
with its groups are discarded: whatever errors it reports, `loadStateFromK8s`
returns what it returns when the parser reports none, and when every listing and
every marshalling succeeds it returns a desired state and no error. -/
theorem loadStateFromK8s_conversion_errors (c : Component W)
    (hgroups : ∀ pr buf, IsListed c pr → c.yamlMarshal pr.Spec = Except.ok buf →
      (c.rulefmtParse buf).1 ≠ none) :
    (∀ pr err, IsListed c pr → c.yamlMarshal pr.Spec = Except.error err →
      (∃ e, (loadStateFromK8s c).1 = Except.error e) ∧
      (loadStateFromK8s c).2.panics = c.panics) ∧
    (∀ report : String → List Error,
      (loadStateFromK8s { c with rulefmtParse := fun s => ((c.rulefmtParse s).1, report s) }).1
        = (loadStateFromK8s c).1 ∧
      (loadStateFromK8s
        { c with rulefmtParse := fun s => ((c.rulefmtParse s).1, report s) }).2.panics
        = c.panics) ∧
    ((∃ nss, c.namespaceLister = Except.ok nss ∧
        ∀ ns ∈ nss, ∃ crdState, c.ruleLister ns = Except.ok crdState ∧
          ∀ pr ∈ crdState, ∃ buf, c.yamlMarshal pr.Spec = Except.ok buf) →
      ∃ desired, ∀ report : String → List Error,
        (loadStateFromK8s
          { c with rulefmtParse := fun s => ((c.rulefmtParse s).1, report s) }).1
          = Except.ok desired) := by
  obtain ⟨h0, h1, h2⟩ := loadStateFromK8s_returned c hgroups
  refine ⟨fun pr err hl hm => ⟨h1 pr err hl hm, h0⟩, ?_, ?_⟩
  · intro report
    refine ⟨loadStateFromK8s_parser_errors c _ report rfl rfl rfl rfl rfl, ?_⟩
    exact (loadStateFromK8s_returned
      { c with rulefmtParse := fun s => ((c.rulefmtParse s).1, report s) }
      (fun pr buf hl hm => hgroups pr buf hl hm)).1
  · intro hall
    obtain ⟨desired, hd⟩ := h2 hall
    refine ⟨desired, fun report => ?_⟩
    exact (loadStateFromK8s_parser_errors c
      { c with rulefmtParse := fun s => ((c.rulefmtParse s).1, report s) }
      report rfl rfl rfl rfl rfl).trans hd

/-- Witness for C11 as amended: the parser of `exParserComplains` returns groups
and an error for every specification. -/
theorem loadStateFromK8s_conversion_errors_witness :
    (∀ pr buf, IsListed exParserComplains pr →
      exParserComplains.yamlMarshal pr.Spec = Except.ok buf →
      (exParserComplains.rulefmtParse buf).1 ≠ none) ∧
    ∃ desired, ∀ report : String → List Error,
      (loadStateFromK8s { exParserComplains with
        rulefmtParse := fun s => ((exParserComplains.rulefmtParse s).1, report s) }).1
        = Except.ok desired :=
  ⟨fun _ _ _ _ h => Option.noConfusion h,
    (loadStateFromK8s_conversion_errors exParserComplains
      (fun _ _ _ _ h => Option.noConfusion h)).2.2
      ⟨["ns1"], rfl, by
        intro ns hns
        exact ⟨[exRule], rfl, fun pr _ => ⟨pr.Spec, rfl⟩⟩⟩⟩

/-- C11, counterexample: the parser reports an error for the specification of the
listed resource `exRule`, and `loadStateFromK8s` returns the desired state built
from the groups the parser returned, and no error. -/
theorem loadStateFromK8s_ignores_parser_error :
    exParserComplains.namespaceLister = Except.ok ["ns1"] ∧
    exParserComplains.ruleLister "ns1" = Except.ok [exRule] ∧
    (exParserComplains.rulefmtParse exRule.Spec).2 = [Error.leaf "bad expression"] ∧
    (loadStateFromK8s exParserComplains).1 = Except.ok exDesired ∧
    (loadStateFromK8s exParserComplains).2.panics = exParserComplains.panics :=
  ⟨rfl, rfl, rfl, rfl, rfl⟩

/-- When the parser returns the nil pointer for the specification of a listed
resource, `loadStateFromK8s` panics: the run of `exParserGivesNil` raises a panic
after listing the rules of `ns1`. -/
theorem loadStateFromK8s_nil_groups_panics :
    (exParserGivesNil.rulefmtParse exRule.Spec).1 = none ∧
    convertCRDRuleGroupToRuleGroup exParserGivesNil exRule.Spec
      = Outcome.panicked nilDereference ∧
    (loadStateFromK8s exParserGivesNil).2.panics = exParserGivesNil.panics + 1 ∧
    (loadStateFromK8s exParserGivesNil).2.trace
      = [Call.ListNamespaces, Call.ListPrometheusRules "ns1"] :=
  ⟨rfl, rfl, rfl, rfl⟩

/-! ### Diffs of unknown kind, the write calls, and the empty diff list (C12, C15, C16) -/

theorem applyDiffs_filter_known (c : Component W) (ns : String) (diffs : List RuleGroupDiff) :
    applyDiffs c ns diffs = applyDiffs c ns (diffs.filter RuleGroupDiff.isKnownKind) := by
  induction diffs generalizing c with
  | nil => rfl
  | cons d diffs ih =>
    by_cases hA : d.Kind = RuleGroupDiffKindAdd
    · have hk : d.isKnownKind = true := by simp [RuleGroupDiff.isKnownKind, hA]
      simp only [List.filter_cons, hk, if_true, applyDiffs, hA]
      rcases callCreateRuleGroup c ns d.Desired with ⟨_ | e, c1⟩
      · exact ih c1
      · rfl
    · by_cases hR : d.Kind = RuleGroupDiffKindRemove
      · have hk : d.isKnownKind = true := by simp [RuleGroupDiff.isKnownKind, hR]
        simp only [List.filter_cons, hk, if_true, applyDiffs, hA, hR, if_false]
        rcases callDeleteRuleGroup c ns d.Actual.Name with ⟨_ | e, c1⟩
        · exact ih c1
        · rfl
      · by_cases hU : d.Kind = RuleGroupDiffKindUpdate
        · have hk : d.isKnownKind = true := by simp [RuleGroupDiff.isKnownKind, hU]
          simp only [List.filter_cons, hk, if_true, applyDiffs, hA, hR, hU, if_false]
          rcases callCreateRuleGroup c ns d.Desired with ⟨_ | e, c1⟩
          · exact ih c1
          · rfl
        · have hk : d.isKnownKind = false := by simp [RuleGroupDiff.isKnownKind, hA, hR, hU]
          simp only [List.filter_cons, hk, applyDiffs, hA, hR, hU, if_false,
            Bool.false_eq_true]
          exact ih c

/-- C12, as amended: a diff whose kind is none of `Add`, `Remove` and `Update` is
skipped by `applyChanges`: the loop over the diffs does exactly what it does on
the list without such diffs (no remote call is made for them and they contribute
no error), so that `applyChanges` returns a non-nil error only when the create or
delete operation of a diff of known kind fails or the follow-up listing fails. -/
theorem applyChanges_skips_unknown_kinds (c : Component W) (ns : String)
    (diffs : List RuleGroupDiff) :
    applyDiffs (c.log (Call.applyChanges ns)) ns diffs
      = applyDiffs (c.log (Call.applyChanges ns)) ns (diffs.filter RuleGroupDiff.isKnownKind) ∧
    ((applyChanges c ns diffs).1 ≠ none →
      (applyDiffs (c.log (Call.applyChanges ns)) ns
          (diffs.filter RuleGroupDiff.isKnownKind)).1 = (applyChanges c ns diffs).1 ∨
      (syncLoki (applyDiffs (c.log (Call.applyChanges ns)) ns
          (diffs.filter RuleGroupDiff.isKnownKind)).2).1 = (applyChanges c ns diffs).1) := by
  have hf := applyDiffs_filter_known (c.log (Call.applyChanges ns)) ns diffs
  refine ⟨hf, ?_⟩
  rw [← hf]
  intro hne
  by_cases hlen : diffs.length = 0
  · simp [applyChanges, hlen] at hne
  · simp only [applyChanges, hlen, if_false] at hne ⊢
    rcases hc : applyDiffs (c.log (Call.applyChanges ns)) ns diffs with ⟨_ | e, c1⟩
    · right; rfl
    · left; rfl

set_option maxRecDepth 100000 in
/-- Witness for C12 as amended: a list holding one diff of unknown kind. -/
theorem applyChanges_skips_unknown_kinds_witness :
    applyDiffs (exMixed.log (Call.applyChanges "ns")) "ns" [exOddKind]
      = applyDiffs (exMixed.log (Call.applyChanges "ns")) "ns"
          ([exOddKind].filter RuleGroupDiff.isKnownKind) :=
  (applyChanges_skips_unknown_kinds exMixed "ns" [exOddKind]).1

set_option maxRecDepth 100000 in
/-- C12, counterexample: for a diff list holding a diff of kind `rename`,
`applyChanges` returns nil and sends no write to the remote service. -/
theorem applyChanges_unknown_kind_returns_nil :
    exOddKind.Kind ≠ RuleGroupDiffKindAdd ∧ exOddKind.Kind ≠ RuleGroupDiffKindRemove ∧
    exOddKind.Kind ≠ RuleGroupDiffKindUpdate ∧
    (applyChanges exMixed "ns" [exOddKind]).1 = none ∧
    (applyChanges exMixed "ns" [exOddKind]).2.trace
      = [Call.applyChanges "ns", Call.ListRules ""] := by
  decide

theorem diffCall_filter_isWrite (ns : String) (l : List RuleGroupDiff) :
    (l.filterMap (diffCall ns)).filter Call.isWrite = l.filterMap (diffCall ns) := by
  rw [List.filter_eq_self]
  intro x hx
  obtain ⟨d, _, hd⟩ := List.mem_filterMap.mp hx
  unfold diffCall at hd
  split_ifs at hd <;> (cases hd; rfl)

theorem diffCall_of_known (ns : String) (d : RuleGroupDiff) (hk : d.isKnownKind = true) :
    diffCall ns d = some (writeCall ns d) := by
  simp only [RuleGroupDiff.isKnownKind, Bool.or_eq_true, decide_eq_true_eq] at hk
  unfold diffCall writeCall
  by_cases hA : d.Kind = RuleGroupDiffKindAdd
  · have hR : ¬ d.Kind = RuleGroupDiffKindRemove := by
      rw [hA]; decide
    rw [if_pos hA, if_neg hR]
  · by_cases hR : d.Kind = RuleGroupDiffKindRemove
    · rw [if_neg hA, if_pos hR, if_pos hR]
    · have hU : d.Kind = RuleGroupDiffKindUpdate := by
        rcases hk with (h | h) | h
        · exact absurd h hA
        · exact absurd h hR
        · exact h
      rw [if_neg hA, if_neg hR, if_pos hU, if_neg hR]

theorem filterMap_diffCall_of_known (ns : String) (l : List RuleGroupDiff)
    (hk : ∀ d ∈ l, d.isKnownKind = true) :
    l.filterMap (diffCall ns) = l.map (writeCall ns) := by
  induction l with
  | nil => rfl
  | cons d l ih =>
    rw [List.filterMap_cons, diffCall_of_known ns d (hk d (List.mem_cons_self _ _))]
    simp only [List.map_cons]
    rw [ih (fun x hx => hk x (List.mem_cons_of_mem _ hx))]

theorem applyDiffs_sendWrites (c : Component W) (ns : String) (diffs : List RuleGroupDiff)
    (w : W) (hok : sendWrites c.lokiClient ns c.remote diffs = some w) :
    (applyDiffs c ns diffs).1 = none ∧ (applyDiffs c ns diffs).2.remote = w ∧
    (applyDiffs c ns diffs).2.lokiClient = c.lokiClient := by
  induction diffs generalizing c with
  | nil =>
    simp only [sendWrites, Option.some.injEq] at hok
    exact ⟨rfl, hok, rfl⟩
  | cons d ds ih =>
    simp only [sendWrites, writeReply] at hok
    simp only [applyDiffs]
    by_cases hA : d.Kind = RuleGroupDiffKindAdd
    · simp only [hA, true_or, if_true] at hok ⊢
      rcases hr : c.lokiClient.CreateRuleGroup c.remote ns d.Desired with ⟨_ | e, w1⟩ <;>
        rw [hr] at hok <;> try simp only at hok
      · simp only [callCreateRuleGroup, hr]
        exact ih { c.log (Call.CreateRuleGroup ns d.Desired) with remote := w1 } hok
      · exact Option.noConfusion hok
    · by_cases hR : d.Kind = RuleGroupDiffKindRemove
      · have hU : ¬ d.Kind = RuleGroupDiffKindUpdate := by
          rw [hR]; decide
        simp only [hA, hU, or_self, hR, if_true, if_false] at hok ⊢
        rcases hr : c.lokiClient.DeleteRuleGroup c.remote ns d.Actual.Name with ⟨_ | e, w1⟩ <;>
          rw [hr] at hok <;> try simp only at hok
        · simp only [callDeleteRuleGroup, hr]
          exact ih { c.log (Call.DeleteRuleGroup ns d.Actual.Name) with remote := w1 } hok
        · exact Option.noConfusion hok
      · by_cases hU : d.Kind = RuleGroupDiffKindUpdate
        · simp only [hA, hR, hU, or_true, if_true, if_false] at hok ⊢
          rcases hr : c.lokiClient.CreateRuleGroup c.remote ns d.Desired with ⟨_ | e, w1⟩ <;>
            rw [hr] at hok <;> try simp only at hok
          · simp only [callCreateRuleGroup, hr]
            exact ih { c.log (Call.CreateRuleGroup ns d.Desired) with remote := w1 } hok
          · exact Option.noConfusion hok
        · simp only [hA, hR, hU, or_self, if_false] at hok ⊢
          exact ih c hok

/-- C15: for every namespace and every diff list in which all remote operations
succeed (the client answers nil to each write, sent in list order to the service
as the writes before it left it, which ends in state `w`), `applyChanges` makes
exactly these calls of the client: the write calls are, in list order, the call
of each diff, `CreateRuleGroup(namespace, diff.Desired)` for an `Add` or an
`Update` and `DeleteRuleGroup(namespace, diff.Actual.Name)` for a `Remove` (a diff
of any other kind has no call; when every diff is an `Add`, a `Remove` or an
`Update`, that is exactly one call per diff); the loop ends without an error and
with the service in state `w`; and for a non-empty list the service is left as
the follow-up `ListRules` leaves it from `w`. -/
theorem applyChanges_write_calls (c : Component W) (ns : String) (diffs : List RuleGroupDiff)
    (w : W) (hok : sendWrites c.lokiClient ns c.remote diffs = some w) :
    (applyChanges c ns diffs).2.trace.filter Call.isWrite
      = c.trace.filter Call.isWrite ++ diffs.filterMap (diffCall ns) ∧
    ((∀ d ∈ diffs, d.isKnownKind = true) →
      (applyChanges c ns diffs).2.trace.filter Call.isWrite
        = c.trace.filter Call.isWrite ++ diffs.map (writeCall ns)) ∧
    (applyDiffs (c.log (Call.applyChanges ns)) ns diffs).1 = none ∧
    (applyDiffs (c.log (Call.applyChanges ns)) ns diffs).2.remote = w ∧
    (diffs ≠ [] →
      (applyChanges c ns diffs).2.remote = (c.lokiClient.ListRules w "").2 ∧
      (applyChanges c ns diffs).2.trace
        = c.trace ++ Call.applyChanges ns :: (diffs.filterMap (diffCall ns) ++ [Call.ListRules ""])) ∧
    (diffs = [] → (applyChanges c ns diffs).2.remote = c.remote) := by
  obtain ⟨hnone, hrem, hcl⟩ := applyDiffs_sendWrites (c.log (Call.applyChanges ns)) ns diffs w hok
  have h1 : (applyChanges c ns diffs).2.trace.filter Call.isWrite
      = c.trace.filter Call.isWrite ++ diffs.filterMap (diffCall ns) := by
    by_cases hne : diffs = []
    · subst hne
      simp [applyChanges, Component.log, Call.isWrite]
    · rw [applyChanges_of_ok c ns diffs hne hnone, syncLoki_trace,
        applyDiffs_ok_trace _ ns diffs hnone]
      simp [Component.log, List.filter_append, diffCall_filter_isWrite, Call.isWrite]
  refine ⟨h1, ?_, hnone, hrem, ?_, ?_⟩
  · intro hk
    rw [h1, filterMap_diffCall_of_known ns diffs hk]
  · intro hne
    rw [applyChanges_of_ok c ns diffs hne hnone]
    constructor
    · have hcl2 : (applyDiffs (c.log (Call.applyChanges ns)) ns diffs).2.lokiClient
          = c.lokiClient := hcl
      simp only [syncLoki, callListRules, hrem, hcl2]
      rcases (c.lokiClient.ListRules w "") with ⟨_ | listing, w2⟩ <;> rfl
    · rw [syncLoki_trace, applyDiffs_ok_trace _ ns diffs hnone]
      simp [Component.log]
  · intro he
    subst he
    simp [applyChanges, Component.log]

set_option maxRecDepth 100000 in
/-- Witness for C15: the store of `exThreeGroups` accepts the three writes of
`exThreeDiffs`, the last of which deletes the group `G3` it holds. -/
theorem applyChanges_write_calls_witness :
    sendWrites exThreeGroups.lokiClient exManagedNs exThreeGroups.remote exThreeDiffs
      = some exThreeGroupsAfter ∧
    (applyChanges exThreeGroups exManagedNs exThreeDiffs).2.trace.filter Call.isWrite
      = exThreeGroups.trace.filter Call.isWrite ++ exThreeDiffs.map (writeCall exManagedNs) ∧
    (applyChanges exThreeGroups exManagedNs exThreeDiffs).2.remote
      = (exThreeGroups.lokiClient.ListRules exThreeGroupsAfter "").2 :=
  ⟨by decide,
    ((applyChanges_write_calls exThreeGroups exManagedNs exThreeDiffs exThreeGroupsAfter
      (by decide)).2.1 (by decide)),
    ((applyChanges_write_calls exThreeGroups exManagedNs exThreeDiffs exThreeGroupsAfter
      (by decide)).2.2.2.2.1 (by decide)).1⟩

/-- C16: for every namespace, `applyChanges` with an empty diff list is a no-op: it
returns nil, leaves the remote state and the cache unchanged, and adds nothing to
the trace but its own entry marker, hence makes no call to the remote client (no
create, delete or list). -/
theorem applyChanges_empty (c : Component W) (ns : String) :
    applyChanges c ns [] = (none, c.log (Call.applyChanges ns)) ∧
    (applyChanges c ns []).1 = none ∧
    (applyChanges c ns []).2.remote = c.remote ∧
    (applyChanges c ns []).2.currentState = c.currentState ∧
    (applyChanges c ns []).2.trace = c.trace ++ [Call.applyChanges ns] ∧
    (applyChanges c ns []).2.trace.filter Call.isClientOrLister
      = c.trace.filter Call.isClientOrLister := by
  have h : applyChanges c ns [] = (none, c.log (Call.applyChanges ns)) := by
    simp [applyChanges]
  rw [h]
  refine ⟨rfl, rfl, rfl, rfl, rfl, ?_⟩
  simp [Component.log, List.filter_append, Call.isClientOrLister]

/-! ### Dispatch of an event (C13, C14, C19) -/

/-- C13: for every event whose type is neither `ResourceChanged` nor `sync-loki`,
`processEvent` returns the unknown-event error, and all it does is the deferred
`Done` on the queue: the remote state and the cache are unchanged and the trace
gains the entry `Done` only, so no call is made to the remote client or to the
resource listers. -/
theorem processEvent_unknown_event (c : Component W) (e : Event)
    (h1 : e.Typ ≠ EventTypeResourceChanged) (h2 : e.Typ ≠ eventTypeSyncLoki) :
    processEvent c e = (some (Error.leaf ("unknown event type: " ++ e.Typ)), queueDone c e) ∧
    (processEvent c e).1 ≠ none ∧
    (processEvent c e).2.trace = c.trace ++ [Call.Done e] ∧
    (processEvent c e).2.trace.filter Call.isClientOrLister
      = c.trace.filter Call.isClientOrLister ∧
    (processEvent c e).2.remote = c.remote ∧
    (processEvent c e).2.currentState = c.currentState := by
  have h : processEvent c e
      = (some (Error.leaf ("unknown event type: " ++ e.Typ)), queueDone c e) := by
    simp [processEvent, processEventBody, h1, h2]
  rw [h]
  refine ⟨rfl, by simp, rfl, ?_, rfl, rfl⟩
  simp [queueDone, Component.log, List.filter_append, Call.isClientOrLister]

/-- Witness for C13: an event of type `bogus`. -/
theorem processEvent_unknown_event_witness :
    (processEvent exConverging exUnknownEvent).2.trace
      = exConverging.trace ++ [Call.Done exUnknownEvent] :=
  (processEvent_unknown_event exConverging exUnknownEvent (by decide) (by decide)).2.2.1

/-- C14: for every `sync-loki` event, if the remote `ListRules` call fails then
`processEvent` returns that error without running the reconciliation: the only
entries it adds to the trace are the failed `ListRules` call and the deferred
`Done` (no lister call, no `CreateRuleGroup`, no `DeleteRuleGroup`), and the cache
is exactly what it was before the event. -/
theorem processEvent_sync_failure (c : Component W) (e : Event) (err : Error) (w : W)
    (hty : e.Typ = eventTypeSyncLoki)
    (hfail : c.lokiClient.ListRules c.remote "" = (Except.error err, w)) :
    (processEvent c e).1 = some err ∧
    (processEvent c e).2.trace = c.trace ++ [Call.ListRules "", Call.Done e] ∧
    (processEvent c e).2.currentState = c.currentState := by
  have hne : ¬ eventTypeSyncLoki = EventTypeResourceChanged := by decide
  have h : processEvent c e
      = (some err, queueDone { (c.log (Call.ListRules "")) with remote := w } e) := by
    simp [processEvent, processEventBody, hne, hty, syncLoki_error c err w hfail]
  rw [h]
  refine ⟨rfl, ?_, rfl⟩
  simp [queueDone, Component.log]

/-- Witness for C14: the remote listing fails. -/
theorem processEvent_sync_failure_witness :
    (processEvent exListFails exSyncEvent).1 = some (Error.leaf "list failed") ∧
    (processEvent exListFails exSyncEvent).2.trace
      = exListFails.trace ++ [Call.ListRules "", Call.Done exSyncEvent] ∧
    (processEvent exListFails exSyncEvent).2.currentState = exListFails.currentState :=
  processEvent_sync_failure exListFails exSyncEvent (Error.leaf "list failed")
    ⟨[], [], true⟩ rfl rfl

theorem loadStateFromK8s_trace_head (c : Component W) :
    ∃ rest, (loadStateFromK8s c).2.trace = c.trace ++ Call.ListNamespaces :: rest := by
  simp only [loadStateFromK8s]
  rcases c.namespaceLister with err | nss
  · exact ⟨[], rfl⟩
  · obtain ⟨calls, hc, _⟩ :=
      (loadNamespaces_reconciles (c.log Call.ListNamespaces) nss []).trace_ext
    refine ⟨calls, ?_⟩
    dsimp only
    rw [hc]
    simp [Component.log]

theorem reconcileState_trace_head (c : Component W) :
    ∃ rest, (reconcileState c).2.trace = c.trace ++ Call.ListNamespaces :: rest := by
  obtain ⟨r1, h1⟩ := loadStateFromK8s_trace_head c
  simp only [reconcileState]
  rcases hl : loadStateFromK8s c with ⟨err | desired, c1⟩
  · rw [hl] at h1
    exact ⟨r1, h1⟩
  · rw [hl] at h1
    simp only at h1 ⊢
    obtain ⟨calls, hc, _⟩ := (reconcileLoop_reconciles c1
      (c1.rangeOrder (DiffRuleState desired c1.currentState)) none).trace_ext
    refine ⟨r1 ++ calls, ?_⟩
    rw [hc, h1]
    simp

/-- C19: for every `ResourceChanged` event, `processEvent` does not refresh the
cache before reconciling: its result is exactly the result of `reconcileState` run
on the component as it stood before the event (hence against the cache as it
stood), followed only by the deferred `Done`, and the first call it makes is the
listing of the namespaces that starts the desired-state load (no `ListRules` call
precedes it). -/
theorem processEvent_resource_changed (c : Component W) (e : Event)
    (hty : e.Typ = EventTypeResourceChanged) :
    processEvent c e = ((reconcileState c).1, queueDone (reconcileState c).2 e) ∧
    (processEvent c e).1 = (reconcileState c).1 ∧
    (∃ rest, (processEvent c e).2.trace = c.trace ++ Call.ListNamespaces :: rest) := by
  have h : processEvent c e = ((reconcileState c).1, queueDone (reconcileState c).2 e) := by
    simp [processEvent, processEventBody, hty]
  rw [h]
  refine ⟨rfl, rfl, ?_⟩
  obtain ⟨rest, hr⟩ := reconcileState_trace_head c
  refine ⟨rest ++ [Call.Done e], ?_⟩
  simp [queueDone, Component.log, hr]

/-- Witness for C19: a changed resource, processed against a stale cache. -/
theorem processEvent_resource_changed_witness :
    processEvent exStale exChangedEvent
      = ((reconcileState exStale).1, queueDone (reconcileState exStale).2 exChangedEvent) ∧
    (processEvent exStale exChangedEvent).1 = (reconcileState exStale).1 ∧
    (∃ rest, (processEvent exStale exChangedEvent).2.trace
      = exStale.trace ++ Call.ListNamespaces :: rest) :=
  processEvent_resource_changed exStale exChangedEvent rfl

/-! ### One pass of the event loop (C17, C18) -/

theorem processEvent_frame (c : Component W) (e : Event) :
    (processEvent c e).2.health = c.health ∧
    (processEvent c e).2.metrics = c.metrics ∧
    (processEvent c e).2.queue.items = c.queue.items ∧
    (processEvent c e).2.queue.failures = c.queue.failures ∧
    (processEvent c e).2.queue.processing = c.queue.processing.filter (fun x => decide (x ≠ e)) ∧
    (∃ calls, (processEvent c e).2.trace = c.trace ++ calls ++ [Call.Done e] ∧
      ∀ x ∈ calls, x.isReconcileCall = true) := by
  have hr := processEventBody_reconciles c e
  obtain ⟨calls, hc, hp⟩ := hr.trace_ext
  refine ⟨?_, ?_, ?_, ?_, ?_, calls, ?_, hp⟩
  · simp [processEvent, queueDone, Component.log, hr.health_eq]
  · simp [processEvent, queueDone, Component.log, hr.metrics_eq]
  · simp [processEvent, queueDone, Component.log, Queue.Done, hr.queue_eq]
  · simp [processEvent, queueDone, Component.log, Queue.Done, hr.queue_eq]
  · simp [processEvent, queueDone, Component.log, Queue.Done, hr.queue_eq]
  · simp [processEvent, queueDone, Component.log, hc]

theorem count_reconcileCalls (calls : List Call) (x : Call)
    (hp : ∀ y ∈ calls, y.isReconcileCall = true) (hx : x.isReconcileCall = false) :
    calls.count x = 0 := by
  apply List.count_eq_zero.mpr
  intro hmem
  have := hp x hmem
  rw [hx] at this
  exact Bool.noConfusion this

/-- C17: for every event whose processing succeeds, one pass of `eventLoop` marks
the component healthy, resets the retry counter of the event (`Forget`), has
marked the event done (`Done`, so it is no longer in flight), and does not
re-enqueue it: after the reconciliation calls the pass makes exactly the calls
`Done`, `reportHealthy`, `Forget`, never `AddRateLimited`, and the pending items
of the queue are unchanged. -/
theorem eventLoop_pass_success (c : Component W) (evt : Event)
    (hok : (processEvent (countEvent c evt) evt).1 = none) :
    (eventLoopIter c evt).health = Health.healthy ∧
    (eventLoopIter c evt).queue.NumRequeues evt = 0 ∧
    evt ∉ (eventLoopIter c evt).queue.processing ∧
    (eventLoopIter c evt).queue.items = c.queue.items ∧
    (∃ calls, (eventLoopIter c evt).trace
        = c.trace ++ calls ++ [Call.Done evt, Call.reportHealthy, Call.Forget evt] ∧
      ∀ x ∈ calls, x.isReconcileCall = true) ∧
    (eventLoopIter c evt).trace.count (Call.AddRateLimited evt)
      = c.trace.count (Call.AddRateLimited evt) := by
  obtain ⟨_, _, f3, _, f5, calls, f6, hp⟩ := processEvent_frame (countEvent c evt) evt
  have hret := processEvent_panics_of_ok (countEvent c evt) evt hok
  rcases hpe : processEvent (countEvent c evt) evt with ⟨r, c1⟩
  rw [hpe] at hok f3 f5 f6 hret
  simp only at hok f3 f5 f6 hret
  subst hok
  have hret1 : c1.panics = c.panics := hret
  have hiter : eventLoopIter c evt
      = { (reportHealthy c1).log (Call.Forget evt) with
          queue := (reportHealthy c1).queue.Forget evt } := by
    simp [eventLoopIter, hpe, hret1]
  rw [hiter]
  refine ⟨rfl, ?_, ?_, ?_, ⟨calls, ?_, hp⟩, ?_⟩
  · simp [Queue.Forget, Queue.NumRequeues]
  · simp [Queue.Forget, reportHealthy, Component.log, f5, countEvent]
  · simp [Queue.Forget, reportHealthy, Component.log, f3, countEvent]
  · simp [reportHealthy, Component.log, f6, countEvent]
  · simp [reportHealthy, Component.log, f6, countEvent, List.count_append,
      count_reconcileCalls calls (Call.AddRateLimited evt) hp rfl]

set_option maxRecDepth 100000 in
/-- Witness for C17: a changed resource whose reconciliation succeeds. -/
theorem eventLoop_pass_success_witness :
    (eventLoopIter exConverging exChangedEvent).health = Health.healthy ∧
    (eventLoopIter exConverging exChangedEvent).queue.NumRequeues exChangedEvent = 0 ∧
    exChangedEvent ∉ (eventLoopIter exConverging exChangedEvent).queue.processing ∧
    (eventLoopIter exConverging exChangedEvent).queue.items = exConverging.queue.items ∧
    (∃ calls, (eventLoopIter exConverging exChangedEvent).trace
        = exConverging.trace ++ calls ++
          [Call.Done exChangedEvent, Call.reportHealthy, Call.Forget exChangedEvent] ∧
      ∀ x ∈ calls, x.isReconcileCall = true) ∧
    (eventLoopIter exConverging exChangedEvent).trace.count (Call.AddRateLimited exChangedEvent)
      = exConverging.trace.count (Call.AddRateLimited exChangedEvent) :=
  eventLoop_pass_success exConverging exChangedEvent (by decide)

/-- A pass in which `processEvent` panics ends with the call: nothing of the loop
body runs after it. -/
theorem eventLoopIter_panicked (c : Component W) (evt : Event)
    (hpanic : (processEvent (countEvent c evt) evt).2.panics ≠ c.panics) :
    eventLoopIter c evt = (processEvent (countEvent c evt) evt).2 := by
  rcases hpe : processEvent (countEvent c evt) evt with ⟨r, c1⟩
  rw [hpe] at hpanic
  have h1 : c1.panics ≠ c.panics := hpanic
  simp [eventLoopIter, hpe, h1]

/-- C18: for every event whose processing fails with an error (`processEvent`
returns it, the call does not end in a panic): when
`NumRequeues(event)` is at or above 5, one pass of `eventLoop` does not re-enqueue
the event (no `AddRateLimited`, pending items unchanged), reports the component
unhealthy with the processing error, and counts the event as failed (and not as
retried); when `NumRequeues(event)` is below 5, the event is re-enqueued with
`AddRateLimited` (the last call of the pass; the event is pending afterwards and
counted as retried) and the health status is left unchanged. -/
theorem eventLoop_pass_failure (c : Component W) (evt : Event) (err : Error)
    (hfail : (processEvent (countEvent c evt) evt).1 = some err)
    (hret : (processEvent (countEvent c evt) evt).2.panics = c.panics) :
    (5 ≤ c.queue.NumRequeues evt →
      (eventLoopIter c evt).trace.count (Call.AddRateLimited evt)
        = c.trace.count (Call.AddRateLimited evt) ∧
      (eventLoopIter c evt).queue.items = c.queue.items ∧
      (eventLoopIter c evt).health = Health.unhealthy err ∧
      (eventLoopIter c evt).trace.count (Call.reportUnhealthy err)
        = c.trace.count (Call.reportUnhealthy err) + 1 ∧
      (eventLoopIter c evt).metrics.eventsFailed evt.Typ = c.metrics.eventsFailed evt.Typ + 1 ∧
      (eventLoopIter c evt).metrics.eventsRetried = c.metrics.eventsRetried) ∧
    (c.queue.NumRequeues evt < 5 →
      (eventLoopIter c evt).trace.getLast? = some (Call.AddRateLimited evt) ∧
      (eventLoopIter c evt).trace.count (Call.AddRateLimited evt)
        = c.trace.count (Call.AddRateLimited evt) + 1 ∧
      evt ∈ (eventLoopIter c evt).queue.items ∧
      (eventLoopIter c evt).health = c.health ∧
      (eventLoopIter c evt).metrics.eventsRetried evt.Typ = c.metrics.eventsRetried evt.Typ + 1 ∧
      (eventLoopIter c evt).metrics.eventsFailed = c.metrics.eventsFailed) := by
  obtain ⟨f1, f2, f3, f4, _, calls, f6, hp⟩ := processEvent_frame (countEvent c evt) evt
  rcases hpe : processEvent (countEvent c evt) evt with ⟨r, c1⟩
  rw [hpe] at hfail f1 f2 f3 f4 f6 hret
  simp only at hfail f1 f2 f3 f4 f6 hret
  subst hfail
  have hret1 : c1.panics = c.panics := hret
  have hnum : c1.queue.NumRequeues evt = c.queue.NumRequeues evt := by
    simp [Queue.NumRequeues, f4, countEvent]
  constructor
  · intro hge
    have hnlt : ¬ c1.queue.NumRequeues evt < 5 := by omega
    simp only [eventLoopIter, hpe, hnlt, if_false, hret1, ne_eq, not_true_eq_false]
    refine ⟨?_, ?_, ?_, ?_, ?_, ?_⟩
    · simp [reportUnhealthy, Component.log, f6, countEvent, List.count_append,
        count_reconcileCalls calls (Call.AddRateLimited evt) hp rfl]
    · simp [reportUnhealthy, Component.log, Queue.Forget, f3, countEvent]
    · simp [reportUnhealthy, Component.log]
    · simp [reportUnhealthy, Component.log, f6, countEvent, List.count_append,
        count_reconcileCalls calls (Call.reportUnhealthy err) hp rfl]
    · simp [reportUnhealthy, Component.log, f2, countEvent, counterInc]
    · simp [reportUnhealthy, Component.log, f2, countEvent]
  · intro hlt
    have hlt1 : c1.queue.NumRequeues evt < 5 := by omega
    simp only [eventLoopIter, hpe, hlt1, if_true, hret1, ne_eq, not_true_eq_false, if_false]
    refine ⟨?_, ?_, ?_, ?_, ?_, ?_⟩
    · simp [Component.log]
    · simp [Component.log, f6, countEvent, List.count_append,
        count_reconcileCalls calls (Call.AddRateLimited evt) hp rfl]
    · simp only [Component.log, Queue.AddRateLimited]
      split_ifs with hmem
      · exact hmem
      · simp
    · simp [Component.log, f1, countEvent]
    · simp [Component.log, f2, countEvent, counterInc]
    · simp [Component.log, f2, countEvent]

/-- Witness for C18: an event of unknown type, fresh in the queue. -/
theorem eventLoop_pass_failure_witness :
    exRejecting.queue.NumRequeues exUnknownEvent < 5 ∧
      ((eventLoopIter exRejecting exUnknownEvent).trace.getLast?
        = some (Call.AddRateLimited exUnknownEvent) ∧
      (eventLoopIter exRejecting exUnknownEvent).trace.count (Call.AddRateLimited exUnknownEvent)
        = exRejecting.trace.count (Call.AddRateLimited exUnknownEvent) + 1 ∧
      exUnknownEvent ∈ (eventLoopIter exRejecting exUnknownEvent).queue.items ∧
      (eventLoopIter exRejecting exUnknownEvent).health = exRejecting.health ∧
      (eventLoopIter exRejecting exUnknownEvent).metrics.eventsRetried exUnknownEvent.Typ
        = exRejecting.metrics.eventsRetried exUnknownEvent.Typ + 1 ∧
      (eventLoopIter exRejecting exUnknownEvent).metrics.eventsFailed
        = exRejecting.metrics.eventsFailed) :=
  ⟨by decide, (eventLoop_pass_failure exRejecting exUnknownEvent
    (Error.leaf ("unknown event type: " ++ exUnknownEvent.Typ)) (by decide) (by decide)).2
    (by decide)⟩

/-! ### Scaleway roles (C20) -/

/-- C20: for every byte string `text`, `Role.UnmarshalText` succeeds and sets the
role to `text` if and only if `text` is `baremetal` or `instance`; for every other
text it returns an error and leaves the role unchanged; and for every valid role
`r`, unmarshalling the text that `MarshalText` returns for `r` succeeds and yields
`r`, whatever the role was before. -/
theorem Role_UnmarshalText_spec (fmtQ : List UInt8 → String) (r : Role) (text : List UInt8) :
    ((Role.UnmarshalText fmtQ r text = (none, ⟨text⟩)) ↔
      ((⟨text⟩ : Role) = RoleBaremetal ∨ (⟨text⟩ : Role) = RoleInstance)) ∧
    (¬ ((⟨text⟩ : Role) = RoleBaremetal ∨ (⟨text⟩ : Role) = RoleInstance) →
      (Role.UnmarshalText fmtQ r text).1 ≠ none ∧ (Role.UnmarshalText fmtQ r text).2 = r) ∧
    (∀ v : Role, v = RoleBaremetal ∨ v = RoleInstance →
      v.MarshalText.2 = none ∧ Role.UnmarshalText fmtQ r v.MarshalText.1 = (none, v)) := by
  refine ⟨?_, ?_, ?_⟩
  · constructor
    · intro h
      by_contra hn
      simp [Role.UnmarshalText, hn] at h
    · intro h
      simp [Role.UnmarshalText, h]
  · intro hn
    simp [Role.UnmarshalText, hn]
  · intro v hv
    refine ⟨rfl, ?_⟩
    have : (⟨v.MarshalText.1⟩ : Role) = v := rfl
    simp only [Role.UnmarshalText, this, hv, if_true]

/-! ### The deferred `Done` (C21) -/

/-- C21: for every event and on every path of `processEvent` (success, unknown
event type, failed remote sync, failed reconciliation: the statement holds
whatever the result is), `Done` is called on the queue for that event exactly
once, as the last action of `processEvent`; no `Done` is called for any other
event; and the event is not in flight when `processEvent` has returned. -/
theorem processEvent_done_exactly_once (c : Component W) (e : Event) :
    (processEvent c e).2.trace.count (Call.Done e) = c.trace.count (Call.Done e) + 1 ∧
    (processEvent c e).2.trace.getLast? = some (Call.Done e) ∧
    (∀ x, x ≠ e →
      (processEvent c e).2.trace.count (Call.Done x) = c.trace.count (Call.Done x)) ∧
    e ∉ (processEvent c e).2.queue.processing := by
  obtain ⟨_, _, _, _, f5, calls, f6, hp⟩ := processEvent_frame c e
  refine ⟨?_, ?_, ?_, ?_⟩
  · rw [f6]
    simp [List.count_append, count_reconcileCalls calls (Call.Done e) hp rfl]
  · rw [f6]
    simp
  · intro x hx
    rw [f6]
    have hne : Call.Done e ≠ Call.Done x := fun h => hx (Call.Done.inj h).symm
    rw [List.count_append, List.count_append,
      count_reconcileCalls calls (Call.Done x) hp rfl,
      List.count_cons_of_ne (fun h => hne h.symm)]
    simp
  · rw [f5]
    simp

set_option maxRecDepth 100000 in
/-- Witness for C21: one run on each path: a reconciliation that succeeds, an
event of unknown type, a remote sync that fails, and a reconciliation that fails. -/
theorem processEvent_done_exactly_once_witness :
    ((processEvent exConverging exChangedEvent).1 = none ∧
      (processEvent exConverging exChangedEvent).2.trace.count (Call.Done exChangedEvent)
        = exConverging.trace.count (Call.Done exChangedEvent) + 1) ∧
    ((processEvent exConverging exUnknownEvent).1 ≠ none ∧
      (processEvent exConverging exUnknownEvent).2.trace.count (Call.Done exUnknownEvent)
        = exConverging.trace.count (Call.Done exUnknownEvent) + 1) ∧
    ((processEvent exListFails exSyncEvent).1 = some (Error.leaf "list failed") ∧
      (processEvent exListFails exSyncEvent).2.trace.count (Call.Done exSyncEvent)
        = exListFails.trace.count (Call.Done exSyncEvent) + 1) ∧
    ((processEvent exTwoNamespaces exChangedEvent).1
        = some (Error.multi ["create failed: g2"]) ∧
      (processEvent exTwoNamespaces exChangedEvent).2.trace.count (Call.Done exChangedEvent)
        = exTwoNamespaces.trace.count (Call.Done exChangedEvent) + 1) :=
  ⟨⟨by decide, (processEvent_done_exactly_once exConverging exChangedEvent).1⟩,
   ⟨by decide, (processEvent_done_exactly_once exConverging exUnknownEvent).1⟩,
   ⟨by decide, (processEvent_done_exactly_once exListFails exSyncEvent).1⟩,
   ⟨by decide, (processEvent_done_exactly_once exTwoNamespaces exChangedEvent).1⟩⟩

end Alloy
